import Mathlib

/-!
cfmt: the comment reflow engine of `comment/format.go`

A shallow embedding of `isspace`, `dump`, `Format` and `Format2`.

* A Go `string` is a sequence of bytes: `List Nat`, one number per byte.
* The package variable `comment` is threaded through explicitly: every function
  that reads or assigns it takes the old value and returns the new one.
* The package variable `export` is a parameter (`export_`); the tests assign it.
* A run-time panic of the Go code (index out of range) is `Except.error Fault.index`.
* A Go `int` is an `Int`; the subtractions from `target` in `Format2` wrap around
  as the arithmetic of `int` does on a 64-bit platform (`wrapInt`).  In `dump` the
  one subtraction, `target - 1`, is exact: it wraps only for the least `int`, where
  both the wrapped and the exact value are no index of `comment`, so that the run
  panics either way.
* The two `bufio.Writer`s are modelled by the sequence of writes done on them, a
  `Trace`; sinks never fail in this part of the model.  The error selection of the
  deferred function of `Format2` is modelled on its own (`deferredErr`).
* The reader delivers the bytes of the input and then a clean `io.EOF`.
-/

namespace Cfmt

/-- An abnormal end of a run.  `index` is Go's "index out of range" panic;
`fuel` is not a behaviour of the program: it marks the exhaustion of the
iteration bound of `dumpLoop` and is shown never to happen. -/
inductive Fault where
  | index
  | fuel
  deriving DecidableEq, Repr

deriving instance DecidableEq for Except

/-- The two buffered writers of `Format2`: `out` for the comment text,
`cout` for the code that follows it. -/
inductive Sink where
  | out
  | cout
  deriving DecidableEq, Repr

/-- One call of `Write` on a writer: the writer and the bytes. -/
abbrev Write := Sink × List Nat

/-- The writes of a run, in the order they happen. -/
abbrev Trace := List Write

/-- Go: `write(out, s)` on a writer that accepts the bytes: `for len(b) > 0` calls
`out.Write(b)` once; for the empty string it calls nothing. -/
def write (k : Sink) (s : List Nat) : Trace := if s = [] then [] else [(k, s)]

/-- The bytes of an ASCII string literal. -/
def ascii (s : String) : List Nat := s.toList.map Char.toNat

/-- Go: `isspace`: `r == ' ' || r == '\t' || r == '\r' || r == '\n'`. -/
def isspace (r : Nat) : Bool := r == 32 || r == 9 || r == 13 || r == 10

/-- The first loop of `dump`, entered with `j` positive:
`for ; j > 0; j-- { if isspace(comment[j]) { break } }`; the result is the final `j`. -/
def scanBack (comment : List Nat) : Nat → Except Fault Nat
  | 0 => .ok 0
  | j + 1 =>
    match comment[j + 1]? with
    | none => .error .index
    | some r => if isspace r then .ok (j + 1) else scanBack comment j

/-- The second loop of `dump`:
`for ; j < len(comment); j++ { if isspace(comment[j]) { break } }`, where `rest`
is `comment[j:]`; the result is the final `j`. -/
def scanFwd : List Nat → Nat → Nat
  | [], j => j
  | r :: rest, j => if isspace r then j else scanFwd rest (j + 1)

/-- The third loop of `dump`: `for j--; isspace(comment[j]); j-- {}`, entered with
`j = n` before the first decrement; the result is the final `j`.  Reading
`comment[-1]` panics. -/
def trimBack (comment : List Nat) : Nat → Except Fault Nat
  | 0 => .error .index
  | n + 1 =>
    match comment[n]? with
    | none => .error .index
    | some r => if isspace r then trimBack comment n else .ok n

/-- The fourth loop of `dump`: `for j++; isspace(comment[j]); j++ {}`, where `rest`
is `comment[j:]` after the first increment; the result is the final `j`.  Reading
`comment[len(comment)]` panics. -/
def skipFwd : List Nat → Nat → Except Fault Nat
  | [], _ => .error .index
  | r :: rest, j => if isspace r then skipFwd rest (j + 1) else .ok j

/-- The loop `for len(comment)+1 > target { ... }` of `dump`.  It returns the writes
done and the value of `comment` when the loop is left (by its condition or by
`break`).  The first argument bounds the number of iterations. -/
def dumpLoop (pfx : List Nat) (target : Int) : Nat → List Nat → Except Fault (Trace × List Nat)
  | 0, _ => .error .fuel
  | fuel + 1, comment =>
    if (comment.length : Int) + 1 > target then do
      let j0 : Int := target - 1
      let j1 : Int ← if j0 > 0 then (fun n : Nat => (n : Int)) <$> scanBack comment j0.toNat else pure j0
      let j2 : Int := if j1 = 0 then (scanFwd (comment.drop target.toNat) target.toNat : Nat) else j1
      if j2 = comment.length then
        pure ([], comment)
      else do
        let j3 ← trimBack comment j2.toNat
        let j4 ← skipFwd (comment.drop (j3 + 1)) (j3 + 1)
        let (t, c) ← dumpLoop pfx target fuel (comment.drop j4)
        pure (write Sink.out (pfx ++ [32] ++ comment.take (j3 + 1) ++ [10]) ++ t, c)
    else
      pure ([], comment)

/-- Go: `dump(out, cout, prefix, line, target)`, with the package variable `comment`
as an argument and as second component of the result. -/
def dump (pfx line : List Nat) (target : Int) (comment : List Nat) :
    Except Fault (Trace × List Nat) := do
  let (t, c) ← dumpLoop pfx target (comment.length + 1) comment
  let t1 : Trace := if c ≠ [] then t ++ write Sink.out (pfx ++ [32] ++ c ++ [10]) else t
  let c1 : List Nat := if c ≠ [] then [] else c
  let t2 : Trace :=
    if pfx.isPrefixOf line then t1 ++ write Sink.out line
    else if line ≠ [] then t1 ++ write Sink.cout line
    else t1
  pure (t2, c1)

/-- The successive results of `in.ReadString('\n')` on the input: each line ends
with its newline, except possibly the last one. -/
def splitLines : List Nat → List (List Nat)
  | [] => []
  | b :: bs =>
    if b = 10 then [b] :: splitLines bs
    else
      match splitLines bs with
      | [] => [[b]]
      | l :: ls => (b :: l) :: ls

/-- The number of leading bytes of `line` equal to `c`: the value of `i` after
`for len(line) > i && line[i] == c { i++ }`. -/
def countLead (c : Nat) : List Nat → Nat
  | [] => 0
  | b :: bs => if b = c then countLead c bs + 1 else 0

/-- The value of `i` after the `switch` on the first line in `Format2`. -/
def leadIndex (line : List Nat) : Nat :=
  match line with
  | [] => 0
  | b :: _ => if b = 32 then countLead 32 line else if b = 9 then countLead 9 line else 0

/-- The least value of Go's `int` on a 64-bit platform, where `int` is 64 bits wide. -/
def minInt : Int := -9223372036854775808

/-- The greatest value of Go's `int`. -/
def maxInt : Int := 9223372036854775807

/-- The value that Go's `int` arithmetic gives where the exact result is `x`:
additions and subtractions wrap around modulo `2 ^ 64`. -/
def wrapInt (x : Int) : Int :=
  (x + 9223372036854775808) % 18446744073709551616 - 9223372036854775808

/-- The value of `target` after `for len(line) > i && line[i] == c { target -= step; i++ }`
(lines 147 to 150 with `step` 1, lines 152 to 155 with `step` 8); `line` is `line[i:]`. -/
def leadLoop (c : Nat) (step : Int) : List Nat → Int → Int
  | [], target => target
  | b :: bs, target => if b = c then leadLoop c step bs (wrapInt (target - step)) else target

/-- The value of `target` after the `switch` on the first line in `Format2`. -/
def leadTarget (line : List Nat) (target : Int) : Int :=
  match line with
  | [] => target
  | b :: _ =>
    if b = 32 then leadLoop 32 1 line target
    else if b = 9 then leadLoop 9 8 line target
    else target

/-- The delimiter after `if delim == "" { switch { ... } }` in `Format2`; `s` is `line[i:]`. -/
def detectDelim (s delim : List Nat) : List Nat :=
  if delim = [] then
    if (ascii "-- ").isPrefixOf s then ascii "--"
    else if (ascii "//").isPrefixOf s then ascii "//"
    else if (ascii "#").isPrefixOf s then ascii "#"
    else ascii "//"
  else delim

/-- The working prefix of `Format2`: `prefix` after lines 169 to 173. -/
def workPrefix (line delim : List Nat) : List Nat :=
  let i := leadIndex line
  let d := detectDelim (line.drop i) delim
  if d.isPrefixOf (line.drop i) then line.take i ++ d else d

/-- The effective width of `Format2`: `target` after lines 143 to 173. -/
def workTarget (line : List Nat) (target : Int) (delim : List Nat) : Int :=
  let i := leadIndex line
  let d := detectDelim (line.drop i) delim
  if d.isPrefixOf (line.drop i) then wrapInt (leadTarget line target - (d.length : Nat))
  else leadTarget line target

/-- The closure `hasPrefix` of `Format2`. -/
def hasPrefix (pfx export_ s : List Nat) : Bool :=
  if !pfx.isPrefixOf s then false else !export_.isPrefixOf (s.drop pfx.length)

/-- `for isspace(line[len(line)-1]) { line = line[:len(line)-1] }` on the reversed line. -/
def stripRev : List Nat → Except Fault (List Nat)
  | [] => .error .index
  | r :: rest => if isspace r then stripRev rest else .ok (r :: rest)

/-- `for isspace(line[len(line)-1]) { line = line[:len(line)-1] }`: the line without
its trailing white space; a line of white space only panics. -/
def stripTrailing (line : List Nat) : Except Fault (List Nat) :=
  List.reverse <$> stripRev line.reverse

/-- The assignments to `comment` on lines 218 to 225 of `Format2`. -/
def appendProse (comment line : List Nat) : List Nat :=
  let c1 := if comment.length > 0 ∧ comment.getLast? = some 46 then comment ++ [32] else comment
  if c1 = [] then line else c1 ++ [32] ++ line

/-- Lines 195 to 227 of `Format2`: the body of the loop for a line that is in the
comment block. -/
def processLine (pfx : List Nat) (target : Int) (line comment : List Nat) :
    Except Fault (Trace × List Nat) := do
  let line1 ← stripTrailing line
  if line1 = pfx then
    dump pfx (line1 ++ [10]) target comment
  else
    match line1[pfx.length]? with
    | none => .error .index
    | some b =>
      let line2 := if b = 32 then line1.drop (pfx.length + 1) else line1.drop pfx.length
      match line2 with
      | [] => .error .index
      | c :: _ =>
        if c = 9 then dump pfx (pfx ++ line2 ++ [10]) target comment
        else if c = 32 then dump pfx (pfx ++ [32] ++ line2 ++ [10]) target comment
        else pure ([], appendProse comment line2)

/-- `io.Copy(cout, in)`: the rest of the input goes to `cout`. -/
def copyRest (rest : List (List Nat)) : Trace := write Sink.cout rest.flatten

/-- One iteration of the `for` loop of `Format2` on the line `line` read with
`err == io.EOF` iff `eof`; `continue_` is the rest of the loop, run on the new
value of `comment` when the loop goes on. -/
def loopBody (pfx export_ : List Nat) (target : Int) (line : List Nat) (eof : Bool)
    (rest : List (List Nat)) (comment : List Nat)
    (continue_ : List Nat → Except Fault (Trace × List Nat)) : Except Fault (Trace × List Nat) :=
  if !hasPrefix pfx export_ line then do
    let (t, c) ← dump pfx line target comment
    pure (t ++ copyRest rest, c)
  else do
    let (t1, c1) ← processLine pfx target line comment
    if eof then do
      let (t2, c2) ← dump pfx [] target c1
      pure (t1 ++ t2, c2)
    else do
      let (t2, c2) ← continue_ c1
      pure (t1 ++ t2, c2)

/-- Whether `ReadString` returned the line with `io.EOF`: it did not find a newline. -/
def atEOF (line : List Nat) : Bool := line.getLast? != some 10

/-- The `for` loop of `Format2` and the `io.Copy` after it, on the lines still to
be read.  With no line left, `next` returns the empty line and `io.EOF`. -/
def formatLoop (pfx export_ : List Nat) (target : Int) :
    List (List Nat) → List Nat → Except Fault (Trace × List Nat)
  | [], comment => loopBody pfx export_ target [] true [] comment (fun c => pure ([], c))
  | line :: rest, comment =>
    loopBody pfx export_ target line (atEOF line) rest comment (formatLoop pfx export_ target rest)

/-- Go: `Format2(w, cw, r, target, delim)` on the input bytes `r`, started with the
package variables `export` and `comment` as given.  The result is the trace of
writes and the final value of `comment`, or the panic that ends the run. -/
def Format2 (export_ comment r : List Nat) (target : Int) (delim : List Nat) :
    Except Fault (Trace × List Nat) :=
  let lines := splitLines r
  let line := lines.headD []
  formatLoop (workPrefix line delim) export_ (workTarget line target delim) lines comment

/-- The bytes that reach the sink `k` when the two sinks are distinct. -/
def sinkBytes (k : Sink) (t : Trace) : List Nat :=
  ((t.filter (fun w => w.1 = k)).map Prod.snd).flatten

/-- The bytes that reach the sink when both writers are the same one (`w == cw`). -/
def allBytes (t : Trace) : List Nat := (t.map Prod.snd).flatten

/-- Go: `Format(w, r, target, delim)`, that is `Format2(w, w, r, target, delim)`: the
bytes written to `w`, from a fresh package state (`comment` empty). -/
def Format (export_ r : List Nat) (target : Int) (delim : List Nat) : Except Fault (List Nat) :=
  (fun p => allBytes p.1) <$> Format2 export_ [] r target delim

/-- The deferred function of `Format2` (lines 106 to 128) on the values it reads:
`err` is the result so far, `err1` the recovered panic of `write` (nil when no write
failed), `err2` the result of `out.Flush()` and `err3` the result of `cout.Flush()`
(nil when `out == cout`); `none` stands for `nil`.  The value is the error that
`Format2` returns. -/
def deferredErr {ε : Type} (err err1 err2 err3 : Option ε) : Option ε :=
  if err.isNone then
    if err1.isSome then err1
    else if err2.isSome then err2
    else if err3.isSome then err2
    else err
  else err

/-! ## Properties used in the statements -/

/-- Whether the byte at index `i` of `p` is white space; false out of range. -/
def wsAt (p : List Nat) (i : Nat) : Bool :=
  match p[i]? with
  | some b => isspace b
  | none => false

/-- The line that `dump` writes for the text `s`: `prefix + " " + s + "\n"`. -/
def textLine (pfx s : List Nat) : List Nat := pfx ++ [32] ++ s ++ [10]

/-- The last write of `dump`: `line` goes to `out` when it starts with the prefix
and to `cout` otherwise. -/
def lineWrite (pfx line : List Nat) : Trace :=
  if pfx.isPrefixOf line then write Sink.out line else write Sink.cout line

/-- The buffer `p` has no leading and no trailing white space. -/
def noEdgeSpace (p : List Nat) : Bool := !wsAt p 0 && !wsAt p (p.length - 1)

/-- The text `l` with its trailing white space removed. -/
def trimRight (l : List Nat) : List Nat := (l.reverse.dropWhile isspace).reverse

/-- `k` is the break position of the buffer `p` at width `W`: the largest index
in `[1, W-1]` that holds white space if there is one, and otherwise the smallest
index from `W` on that holds white space. -/
def IsBreak (p : List Nat) (W k : Nat) : Prop :=
  wsAt p k = true ∧
    ((1 ≤ k ∧ k < W ∧ ∀ i, i < W → k < i → wsAt p i = false) ∨
     (W ≤ k ∧ ∀ i, i < k → 1 ≤ i → wsAt p i = false))

instance (p : List Nat) (W k : Nat) : Decidable (IsBreak p W k) := by
  unfold IsBreak; infer_instance

/-- `Wrapped W p segs`: wrapping the buffer `p` at width `W` gives the texts
`segs`, one per line: nothing for the empty buffer, the whole buffer when it is
shorter than `W` or has no break position, and otherwise the text before the break
position followed by the wrapping of what follows the white space there. -/
inductive Wrapped (W : Nat) : List Nat → List (List Nat) → Prop
  | empty : Wrapped W [] []
  | whole (p : List Nat) : p ≠ [] → (p.length < W ∨ ∀ k, ¬ IsBreak p W k) → Wrapped W p [p]
  | brk (p : List Nat) (k : Nat) (segs : List (List Nat)) : W ≤ p.length → IsBreak p W k →
      Wrapped W ((p.drop k).dropWhile isspace) segs →
      Wrapped W p (trimRight (p.take k) :: segs)

/-- `line` is a prose line with text `x`: the prefix, at most one space, the text
(which starts with neither space nor tab and ends with a byte that is not white
space), and trailing white space. -/
def IsProse (pfx line x : List Nat) : Prop :=
  ∃ sp trail, line = pfx ++ sp ++ x ++ trail ∧ (sp = [] ∨ sp = [32]) ∧
    (∃ b, x.head? = some b ∧ b ≠ 32 ∧ b ≠ 9) ∧
    (∃ b, x.getLast? = some b ∧ isspace b = false) ∧ ∀ b ∈ trail, isspace b = true

/-- All writes of the trace go to `out`. -/
def onlyOut (t : Trace) : Prop := ∀ w ∈ t, w.1 = Sink.out

/-- The length of the first word of `l`: the number of leading bytes that are not
white space. -/
def fw (l : List Nat) : Nat := scanFwd l 0

/-- The separator that `Format2` puts after the buffer `c` when it appends a prose
line: two spaces after a period, one space otherwise. -/
def sepOf (c : List Nat) : List Nat := if c.getLast? = some 46 then [32, 32] else [32]

/-- The buffer that `Format2` builds from the prose texts `segs`, read one after
the other from an empty buffer. -/
def joinSegs : List (List Nat) → List Nat
  | [] => []
  | [s] => s
  | s :: t :: rest => s ++ sepOf s ++ joinSegs (t :: rest)

/-- A line as `ReadString` returns it: not empty, with no newline before its last
byte. -/
def properLine (l : List Nat) : Prop := l ≠ [] ∧ 10 ∉ l.dropLast

/-- The text that `Format2` appends to the buffer for the line `line`, when the
line is a prose line (lines 195 to 226, without the calls of `dump`). -/
def proseText (pfx line : List Nat) : Option (List Nat) :=
  let line1 := trimRight line
  if line1 = pfx then none
  else
    match line1[pfx.length]? with
    | none => none
    | some b =>
      let line2 := if b = 32 then line1.drop (pfx.length + 1) else line1.drop pfx.length
      match line2 with
      | [] => none
      | c :: _ => if c = 9 ∨ c = 32 then none else some line2

/-- A line that `Format2` writes on its own, after a flush, and that it treats the
same way when it reads it back: a blank comment line or an indented one. -/
def StableLine (pfx L : List Nat) : Prop :=
  atEOF L = false ∧
    (∀ rest, splitLines (L ++ rest) = L :: splitLines rest) ∧
    (∃ z, L = pfx ++ z) ∧
    ∀ (buf : List Nat) (tg : Int), processLine pfx tg L buf =
      (dump pfx [] tg buf).bind fun r => .ok (r.1 ++ [(Sink.out, L)], [])

/-- Whether the byte is a space or a tab. -/
def isBlank (b : Nat) : Bool := b == 32 || b == 9

/-- The leading white space of a line in the words of the specification: its
longest prefix of spaces and tabs. -/
def leadingBlank (line : List Nat) : List Nat := line.takeWhile isBlank

/-- The text of a line after its leading white space, in the words of the
specification. -/
def afterBlank (line : List Nat) : List Nat := line.dropWhile isBlank

/-- The run of white space at the head of a line that does not mix spaces and
tabs: the longest prefix of bytes equal to the first byte, when that byte is a
space or a tab. -/
def firstRun (line : List Nat) : List Nat :=
  line.takeWhile fun b => isBlank b && (line.head? == some b)

/-- All writes of the trace go to `cout`. -/
def onlyCout (t : Trace) : Prop := ∀ w ∈ t, w.1 = Sink.cout

/-- In the trace no write to `out` comes after a write to `cout`. -/
def OutThenCout (t : Trace) : Prop := ∃ t1 t2, t = t1 ++ t2 ∧ onlyOut t1 ∧ onlyCout t2

/-- One evaluation of the condition and the body of the loop of `dump` (lines 42 to
65) on the buffer `comment`: `none` when the loop is left, by its condition or by
`break`, and `some (j3, j4)` when the iteration writes `comment[:j3+1]` and assigns
`comment[j4:]` to the buffer. -/
def wrapStep (target : Int) (comment : List Nat) : Except Fault (Option (Nat × Nat)) :=
  if (comment.length : Int) + 1 > target then do
    let j0 : Int := target - 1
    let j1 : Int ← if j0 > 0 then (fun n : Nat => (n : Int)) <$> scanBack comment j0.toNat else pure j0
    let j2 : Int := if j1 = 0 then (scanFwd (comment.drop target.toNat) target.toNat : Nat) else j1
    if j2 = comment.length then
      pure none
    else do
      let j3 ← trimBack comment j2.toNat
      let j4 ← skipFwd (comment.drop (j3 + 1)) (j3 + 1)
      pure (some (j3, j4))
  else
    pure none

/-- An iteration of the loop of `dump` that emits a line takes the buffer `c` to
the buffer `c'`. -/
def Iter (target : Int) (c c' : List Nat) : Prop :=
  ∃ j3 j4, wrapStep target c = .ok (some (j3, j4)) ∧ c' = c.drop j4

/-- The values that the package variable `comment` takes in a program that calls
`Format2` any number of times, on inputs read line by line: the empty string at
the start, and the results of the assignments to it, which are the iteration of
the loop of `dump` (line 64), the reset after the flush (line 68), the space added
after a period (line 219), and the body of the loop of `Format2` on a line of the
input (lines 195 to 227: the prose line appended on line 222 or 224, or the
buffer left by `dump`). -/
inductive Reach : List Nat → Prop
  | start : Reach []
  | wrap (target : Int) (c : List Nat) (j3 j4 : Nat) :
      Reach c → wrapStep target c = .ok (some (j3, j4)) → Reach (c.drop j4)
  | flush (c : List Nat) : Reach c → Reach []
  | period (c : List Nat) : Reach c → c ≠ [] → c.getLast? = some 46 → Reach (c ++ [32])
  | line (pfx : List Nat) (target : Int) (l c : List Nat) (t : Trace) (c' : List Nat) :
      Reach c → properLine l → processLine pfx target l c = .ok (t, c') → Reach c'

/-- A line without white space before its newline: one newline, at the end, that
follows a byte that is not white space. -/
def TrimmedLine (w : List Nat) : Prop :=
  ∃ body b, w = body ++ [b, 10] ∧ isspace b = false ∧ 10 ∉ body

/-- A buffer that holds no newline and does not end with white space. -/
def TidyBuf (c : List Nat) : Prop := 10 ∉ c ∧ wsAt c (c.length - 1) = false

/-- The words of a text: its maximal runs of bytes that are not white space, in
their order. -/
def words : List Nat → List (List Nat)
  | [] => []
  | [b] => if isspace b then [] else [[b]]
  | b :: b' :: r =>
    if isspace b then words (b' :: r)
    else if isspace b' then [b] :: words (b' :: r)
    else
      match words (b' :: r) with
      | w :: ws => (b :: w) :: ws
      | [] => [[b]]

/-- `Covers p segs`: the texts `segs` are consecutive pieces of `p`, in their
order, and the bytes of `p` between a piece and the next one (and after the last
one) are white space, at least one between two pieces. -/
inductive Covers : List Nat → List (List Nat) → Prop
  | nil : Covers [] []
  | last (s : List Nat) : s ≠ [] → Covers s [s]
  | cons (s gap rest : List Nat) (segs : List (List Nat)) : gap ≠ [] →
      (∀ b ∈ gap, isspace b = true) → Covers rest segs → Covers (s ++ gap ++ rest) (s :: segs)

/-- Why a run of `Format2` stops before its end: a run-time panic, which the
deferred function passes on (line 111), or a failed `write`, whose panic with an
`error_` the deferred function turns into the error that `Format2` returns. -/
inductive Cause where
  | fault (f : Fault)
  | write
  deriving DecidableEq, Repr

/-- A run that stops before its end, with the value that the package variable
`comment` has at that moment; no code resets it afterwards. -/
structure Halt where
  cause : Cause
  comment : List Nat
  deriving DecidableEq, Repr

/-- Go: `write(out, s)` when `out` has room for `room` more bytes and the writer
under it rejects every `Write` (`bufio.Writer.Write` copies `s` into its buffer
when it fits and reports the error of the writer otherwise; then `write`
panics).  The result is the room left. -/
def writeOut (room : Nat) (s comment : List Nat) : Except Halt Nat :=
  if s.length ≤ room then .ok (room - s.length) else .error ⟨.write, comment⟩

/-- A run-time panic stops the run with the buffer as it is. -/
def liftFault {α : Type} (comment : List Nat) (x : Except Fault α) : Except Halt α :=
  match x with
  | .ok a => .ok a
  | .error f => .error ⟨.fault f, comment⟩

/-- The loop of `dump` (lines 42 to 65) on a first sink with `room` bytes of room;
the result is the room left and the buffer. -/
def dumpLoopF (pfx : List Nat) (target : Int) :
    Nat → Nat → List Nat → Except Halt (Nat × List Nat)
  | 0, _, comment => .error ⟨.fault .fuel, comment⟩
  | fuel + 1, room, comment =>
    if (comment.length : Int) + 1 > target then do
      let j0 : Int := target - 1
      let j1 : Int ← liftFault comment
        (if j0 > 0 then (fun n : Nat => (n : Int)) <$> scanBack comment j0.toNat else pure j0)
      let j2 : Int := if j1 = 0 then (scanFwd (comment.drop target.toNat) target.toNat : Nat) else j1
      if j2 = comment.length then
        pure (room, comment)
      else do
        let j3 ← liftFault comment (trimBack comment j2.toNat)
        let room1 ← writeOut room (pfx ++ [32] ++ comment.take (j3 + 1) ++ [10]) comment
        let j4 ← liftFault comment (skipFwd (comment.drop (j3 + 1)) (j3 + 1))
        dumpLoopF pfx target fuel room1 (comment.drop j4)
    else
      pure (room, comment)

/-- Go: `dump(out, cout, prefix, line, target)` on a first sink with `room` bytes
of room and a second sink that takes every write. -/
def dumpF (pfx line : List Nat) (target : Int) (room : Nat) (comment : List Nat) :
    Except Halt (Nat × List Nat) := do
  let (room1, c) ← dumpLoopF pfx target (comment.length + 1) room comment
  let room2 ← if c ≠ [] then writeOut room1 (pfx ++ [32] ++ c ++ [10]) c else pure room1
  let c1 : List Nat := if c ≠ [] then [] else c
  let room3 ← if pfx.isPrefixOf line then writeOut room2 line c1 else pure room2
  pure (room3, c1)

/-- Lines 195 to 227 of `Format2` on a first sink with `room` bytes of room. -/
def processLineF (pfx : List Nat) (target : Int) (line : List Nat) (room : Nat)
    (comment : List Nat) : Except Halt (Nat × List Nat) := do
  let line1 ← liftFault comment (stripTrailing line)
  if line1 = pfx then
    dumpF pfx (line1 ++ [10]) target room comment
  else
    match line1[pfx.length]? with
    | none => .error ⟨.fault .index, comment⟩
    | some b =>
      let line2 := if b = 32 then line1.drop (pfx.length + 1) else line1.drop pfx.length
      match line2 with
      | [] => .error ⟨.fault .index, comment⟩
      | c :: _ =>
        if c = 9 then dumpF pfx (pfx ++ line2 ++ [10]) target room comment
        else if c = 32 then dumpF pfx (pfx ++ [32] ++ line2 ++ [10]) target room comment
        else pure (room, appendProse comment line2)

/-- One iteration of the `for` loop of `Format2` on a first sink with `room` bytes
of room. -/
def loopBodyF (pfx export_ : List Nat) (target : Int) (line : List Nat) (eof : Bool)
    (room : Nat) (comment : List Nat)
    (continue_ : Nat → List Nat → Except Halt (Nat × List Nat)) : Except Halt (Nat × List Nat) :=
  if !hasPrefix pfx export_ line then
    dumpF pfx line target room comment
  else do
    let (room1, c1) ← processLineF pfx target line room comment
    if eof then dumpF pfx [] target room1 c1
    else continue_ room1 c1

/-- The `for` loop of `Format2` on a first sink with `room` bytes of room. -/
def formatLoopF (pfx export_ : List Nat) (target : Int) :
    List (List Nat) → Nat → List Nat → Except Halt (Nat × List Nat)
  | [], room, comment =>
    loopBodyF pfx export_ target [] true room comment (fun r c => pure (r, c))
  | line :: rest, room, comment =>
    loopBodyF pfx export_ target line (atEOF line) room comment (formatLoopF pfx export_ target rest)

/-- Go: `Format2(w, cw, r, target, delim)` with two distinct sinks, started with the
package variables `export` and `comment` as given, when the buffer of the first sink
has room for `room` more bytes and the writer under it rejects every `Write`
(`room` is 4096 for a writer that always fails, and 0 for a `*bufio.Writer` that
is in its error state already).  The result is the room left and the final value
of `comment`, or how the run stops and the value of `comment` then. -/
def Format2F (export_ comment r : List Nat) (target : Int) (delim : List Nat) (room : Nat) :
    Except Halt (Nat × List Nat) :=
  let lines := splitLines r
  let line := lines.headD []
  formatLoopF (workPrefix line delim) export_ (workTarget line target delim) lines room comment

/-- The loop of `unique` (lines 64 to 70 of `cfmt.go`) with `n` iterations left,
at the index `x` of `range words`; the result is `h` and the slice. -/
def uniqueLoop : Nat → Nat → Nat → List (List Nat) → Nat × List (List Nat)
  | 0, _, h, words => (h, words)
  | n + 1, x, h, words =>
    match words[x]? with
    | none => (h, words)
    | some w =>
      if x = 0 ∨ words[h]? = some w then uniqueLoop n (x + 1) h words
      else uniqueLoop n (x + 1) (h + 1) (words.set (h + 1) w)

/-- Go: `unique(words)` of `cfmt.go`.  A word is a string, a list of bytes with
the order of Go strings (byte by byte); `sort.Strings` is a sort into ascending
order; `spare` holds the elements of the backing array between the length and the
capacity of the slice, which `words[:h+1]` can reach: the slice expression panics
when `h+1` exceeds the capacity. -/
def unique (words spare : List (List Nat)) : Except Fault (List (List Nat)) :=
  let sorted := words.insertionSort (· ≤ ·)
  let r := uniqueLoop sorted.length 0 0 sorted
  if r.1 + 1 ≤ r.2.length + spare.length then .ok ((r.2 ++ spare).take (r.1 + 1))
  else .error .index

/-- One word more for the words kept so far: it is added unless it is the last one
kept. -/
def keepStep (kept : List (List Nat)) (w : List Nat) : List (List Nat) :=
  if kept.getLast? = some w then kept else kept ++ [w]

/-- The columns that the indentation of the first line takes from the target: one
for each space or eight for each tab of the run of bytes equal to the first byte,
when that byte is a space or a tab. -/
def leadCost (line : List Nat) : Nat :=
  match line with
  | [] => 0
  | b :: _ => if b = 32 then leadIndex line else if b = 9 then 8 * leadIndex line else 0

/-- The columns that `Format2` takes from the target for the first line: the cost
of the indentation and, when the text after it starts with the delimiter, the
length of the delimiter. -/
def widthCost (line delim : List Nat) : Nat :=
  leadCost line +
    (if (detectDelim (line.drop (leadIndex line)) delim).isPrefixOf (line.drop (leadIndex line))
      then (detectDelim (line.drop (leadIndex line)) delim).length else 0)

/-- The target is a value of `int` and taking the cost of the first line from it
does not overflow: the exact difference is a value of `int` too. -/
def NoWrap (line : List Nat) (T : Int) (delim : List Nat) : Prop :=
  T ≤ maxInt ∧ minInt ≤ T - (widthCost line delim : Nat)

instance (line : List Nat) (T : Int) (delim : List Nat) : Decidable (NoWrap line T delim) := by
  unfold NoWrap; infer_instance

/-- Whether every line that the loop of `dump` breaks off the buffer `p` is full:
the text written, the separator that `Format2` puts after it when it reads the
lines back (one space, or two after a period) and the first word of the rest of
the buffer do not fit the width together.  The first argument bounds the number of
iterations; each one shortens the buffer. -/
def fullLoop (target : Int) : Nat → List Nat → Bool
  | 0, _ => true
  | fuel + 1, p =>
    match wrapStep target p with
    | .ok (some (j3, j4)) =>
      decide (target ≤
          ((j3 + 1 + (sepOf (p.take (j3 + 1))).length + fw (p.drop j4) : Nat) : Int)) &&
        fullLoop target fuel (p.drop j4)
    | _ => true

/-- Every line that the loop of `dump` breaks off the buffer `p` is full. -/
def fullBuf (target : Int) (p : List Nat) : Bool := fullLoop target (p.length + 1) p

/-- The buffers that the loop of `Format2` flushes on the lines given, from the
buffer `buf`: a prose line goes into the buffer, every other line of the comment
block flushes the buffer, and the first line that is not in the block, or the end
of the input, flushes it for the last time. -/
def flushed (pfx export_ : List Nat) : List (List Nat) → List Nat → List (List Nat)
  | [], buf => [buf]
  | line :: rest, buf =>
    if !hasPrefix pfx export_ line then [buf]
    else
      match proseText pfx line with
      | some x => flushed pfx export_ rest (appendProse buf x)
      | none => buf :: flushed pfx export_ rest []

/-- `SelfWritten pfx target Y b`: the loop of `Format2`, reading the lines `Y` with
the buffer `b`, writes them as they are.  Every line starts with the prefix and
ends with a newline, the body of the loop returns on it, and what the body writes,
followed by the flush of the new buffer, is the flush of the old buffer followed by
the line: wherever the reading stops, the bytes written and the flush of the
buffer are the lines read. -/
def SelfWritten (pfx : List Nat) (target : Int) : List (List Nat) → List Nat → Prop
  | [], _ => True
  | L :: Y, b =>
    pfx.isPrefixOf L = true ∧ atEOF L = false ∧
      ∃ t b' t0 t1, processLine pfx target L b = .ok (t, b') ∧
        dump pfx [] target b = .ok (t0, []) ∧ dump pfx [] target b' = .ok (t1, []) ∧
        allBytes t0 ++ L = allBytes t ++ allBytes t1 ∧ SelfWritten pfx target Y b'

/-! ## The scanning loops of `dump` -/

theorem wsAt_lt {p : List Nat} {i : Nat} (h : wsAt p i = true) : i < p.length := by
  by_contra hc
  have : p[i]? = none := List.getElem?_eq_none (by omega)
  simp [wsAt, this] at h

theorem wsAt_eq {p : List Nat} {i : Nat} (h : i < p.length) : wsAt p i = isspace p[i] := by
  simp [wsAt, List.getElem?_eq_getElem h]

theorem wsAt_drop (p : List Nat) (n i : Nat) : wsAt (p.drop n) i = wsAt p (n + i) := by
  simp [wsAt, List.getElem?_drop]

theorem scanFwd_spec_aux (l : List Nat) (j : Nat) :
    j ≤ scanFwd l j ∧ scanFwd l j ≤ j + l.length ∧
      (scanFwd l j < j + l.length → wsAt l (scanFwd l j - j) = true) ∧
      ∀ i, i < scanFwd l j - j → wsAt l i = false := by
  induction l generalizing j with
  | nil => simp [scanFwd]
  | cons r rest ih =>
    by_cases hr : isspace r = true
    · simp [scanFwd, hr, wsAt]
    · obtain ⟨h1, h2, h3, h4⟩ := ih (j + 1)
      have e : scanFwd (r :: rest) j = scanFwd rest (j + 1) := by simp [scanFwd, hr]
      rw [e]
      refine ⟨by omega, by simp; omega, fun hlt => ?_, fun i hi => ?_⟩
      · have := h3 (by simp at hlt; omega)
        have e2 : scanFwd rest (j + 1) - j = (scanFwd rest (j + 1) - (j + 1)) + 1 := by omega
        rw [e2]
        simpa [wsAt] using this
      · cases i with
        | zero => simpa [wsAt] using hr
        | succ i =>
          have := h4 i (by omega)
          simpa [wsAt] using this

theorem scanFwd_spec (p : List Nat) (j : Nat) (hj : j ≤ p.length) :
    j ≤ scanFwd (p.drop j) j ∧ scanFwd (p.drop j) j ≤ p.length ∧
      (scanFwd (p.drop j) j < p.length → wsAt p (scanFwd (p.drop j) j) = true) ∧
      ∀ i, j ≤ i → i < scanFwd (p.drop j) j → wsAt p i = false := by
  obtain ⟨h1, h2, h3, h4⟩ := scanFwd_spec_aux (p.drop j) j
  simp only [List.length_drop] at h2 h3
  refine ⟨h1, by omega, fun hlt => ?_, fun i hi1 hi2 => ?_⟩
  · have := h3 (by omega)
    rw [wsAt_drop] at this
    rwa [show j + (scanFwd (p.drop j) j - j) = scanFwd (p.drop j) j by omega] at this
  · have := h4 (i - j) (by omega)
    rw [wsAt_drop] at this
    rwa [show j + (i - j) = i by omega] at this

theorem trimBack_spec (p : List Nat) (n : Nat) (hn : n ≤ p.length)
    (hex : ∃ i, i < n ∧ wsAt p i = false) :
    ∃ j, trimBack p n = .ok j ∧ j < n ∧ wsAt p j = false ∧
      ∀ i, j < i → i < n → wsAt p i = true := by
  induction n with
  | zero => obtain ⟨i, hi, _⟩ := hex; omega
  | succ n ih =>
    have hlt : n < p.length := hn
    rw [trimBack, List.getElem?_eq_getElem hlt]
    by_cases hs : isspace p[n] = true
    · obtain ⟨i, hi, hw⟩ := hex
      have hin : i ≠ n := by
        intro h; subst h; rw [wsAt_eq hlt, hs] at hw; cases hw
      obtain ⟨j, hj1, hj2, hj3, hj4⟩ := ih (by omega) ⟨i, by omega, hw⟩
      refine ⟨j, by simp [hs, hj1], by omega, hj3, fun i h1 h2 => ?_⟩
      by_cases hi' : i = n
      · subst hi'; rw [wsAt_eq hlt, hs]
      · exact hj4 i h1 (by omega)
    · refine ⟨n, by simp [hs], by omega, ?_, fun i h1 h2 => by omega⟩
      rw [wsAt_eq hlt]; simpa using hs

theorem skipFwd_spec_aux (l : List Nat) (j : Nat) (hex : ∃ i, i < l.length ∧ wsAt l i = false) :
    ∃ k, skipFwd l j = .ok (j + k) ∧ k < l.length ∧ wsAt l k = false ∧
      ∀ i, i < k → wsAt l i = true := by
  induction l generalizing j with
  | nil => obtain ⟨i, hi, _⟩ := hex; simp at hi
  | cons r rest ih =>
    by_cases hr : isspace r = true
    · obtain ⟨i, hi, hw⟩ := hex
      cases i with
      | zero => simp [wsAt, hr] at hw
      | succ i =>
        obtain ⟨k, hk1, hk2, hk3, hk4⟩ := ih (j + 1) ⟨i, by simpa using hi, by simpa [wsAt] using hw⟩
        refine ⟨k + 1, ?_, by simpa using hk2, by simpa [wsAt] using hk3, fun i hi => ?_⟩
        · simp [skipFwd, hr, hk1]; omega
        · cases i with
          | zero => simp [wsAt, hr]
          | succ i => have := hk4 i (by omega); simpa [wsAt] using this
    · exact ⟨0, by simp [skipFwd, hr], by simp, by simpa [wsAt] using hr, fun i hi => by omega⟩

theorem skipFwd_spec (p : List Nat) (n : Nat) (hex : ∃ i, n ≤ i ∧ wsAt p i = false ∧ i < p.length) :
    ∃ j, skipFwd (p.drop n) n = .ok j ∧ n ≤ j ∧ j < p.length ∧ wsAt p j = false ∧
      ∀ i, n ≤ i → i < j → wsAt p i = true := by
  obtain ⟨i, hi1, hi2, hi3⟩ := hex
  obtain ⟨k, hk1, hk2, hk3, hk4⟩ := skipFwd_spec_aux (p.drop n) n
    ⟨i - n, by simp; omega, by rw [wsAt_drop, show n + (i - n) = i by omega]; exact hi2⟩
  simp only [List.length_drop] at hk2
  refine ⟨n + k, hk1, by omega, by omega, by rw [← wsAt_drop]; exact hk3, fun i h1 h2 => ?_⟩
  have := hk4 (i - n) (by omega)
  rwa [wsAt_drop, show n + (i - n) = i by omega] at this

theorem scanBack_spec (p : List Nat) (j : Nat) (hj : j < p.length) :
    ∃ k, scanBack p j = .ok k ∧ k ≤ j ∧ (k = 0 ∨ wsAt p k = true) ∧
      ∀ i, k < i → i ≤ j → wsAt p i = false := by
  induction j with
  | zero => exact ⟨0, rfl, le_refl _, Or.inl rfl, fun i h1 h2 => by omega⟩
  | succ j ih =>
    have hlt : j + 1 < p.length := hj
    rw [scanBack, List.getElem?_eq_getElem hlt]
    by_cases hs : isspace p[j + 1] = true
    · refine ⟨j + 1, by simp [hs], le_refl _, Or.inr ?_, fun i h1 h2 => by omega⟩
      simp [wsAt, List.getElem?_eq_getElem hlt, hs]
    · obtain ⟨k, hk, hkj, hk0, hno⟩ := ih (by omega)
      refine ⟨k, by simp [hs, hk], by omega, hk0, fun i h1 h2 => ?_⟩
      by_cases hi : i = j + 1
      · subst hi; simpa [wsAt, List.getElem?_eq_getElem hlt] using hs
      · exact hno i h1 (by omega)

/-- The break candidate computed by the two scanning loops is the break position. -/
theorem scan_of_isBreak (p : List Nat) (W k : Nat) (hW : 1 ≤ W) (hlen : W ≤ p.length)
    (hk : IsBreak p W k) :
    ∃ j1, scanBack p (W - 1) = .ok j1 ∧ (if j1 = 0 then scanFwd (p.drop W) W else j1) = k := by
  obtain ⟨j1, h1, h2, h3, h4⟩ := scanBack_spec p (W - 1) (by omega)
  refine ⟨j1, h1, ?_⟩
  obtain ⟨hws, hcase⟩ := hk
  rcases hcase with ⟨hk1, hk2, hk3⟩ | ⟨hk1, hk2⟩
  · have hne : j1 ≠ 0 := by
      intro h0
      have := h4 k (by omega) (by omega)
      rw [hws] at this; cases this
    rw [if_neg hne]
    rcases h3 with h0 | hj
    · exact absurd h0 hne
    · by_contra hn
      rcases Nat.lt_or_gt_of_ne hn with hlt | hgt
      · have := h4 k hlt (by omega)
        rw [hws] at this; cases this
      · have := hk3 j1 (by omega) hgt
        rw [hj] at this; cases this
  · have h0 : j1 = 0 := by
      rcases h3 with h0 | hj
      · exact h0
      · by_contra hne
        have := hk2 j1 (by omega) (by omega)
        rw [hj] at this; cases this
    rw [if_pos h0]
    obtain ⟨f1, f2, f3, f4⟩ := scanFwd_spec p W hlen
    have hkl := wsAt_lt hws
    by_contra hn
    rcases Nat.lt_or_gt_of_ne hn with hlt | hgt
    · have := f3 (by omega)
      have := hk2 _ hlt (by omega)
      simp_all
    · have := f4 k hk1 hgt
      rw [hws] at this; cases this

/-- Without a break position the two scanning loops end at `len(comment)`. -/
theorem scan_of_no_break (p : List Nat) (W : Nat) (hW : 1 ≤ W) (hlen : W ≤ p.length)
    (hk : ∀ k, ¬ IsBreak p W k) :
    ∃ j1, scanBack p (W - 1) = .ok j1 ∧
      (if j1 = 0 then scanFwd (p.drop W) W else j1) = p.length := by
  obtain ⟨j1, h1, h2, h3, h4⟩ := scanBack_spec p (W - 1) (by omega)
  refine ⟨j1, h1, ?_⟩
  have h0 : j1 = 0 := by
    rcases h3 with h0 | hj
    · exact h0
    · by_contra hne
      exact hk j1 ⟨hj, Or.inl ⟨by omega, by omega, fun i hi1 hi2 => h4 i hi2 (by omega)⟩⟩
  rw [if_pos h0]
  obtain ⟨f1, f2, f3, f4⟩ := scanFwd_spec p W hlen
  by_contra hn
  have hlt : scanFwd (p.drop W) W < p.length := by omega
  refine hk _ ⟨f3 hlt, Or.inr ⟨f1, fun i hi1 hi2 => ?_⟩⟩
  by_cases hiW : i < W
  · exact h4 i (by omega) (by omega)
  · exact f4 i (by omega) hi1

/-- For a positive width the loop of `dump` runs on natural numbers only. -/
theorem dumpLoop_nat (pfx p : List Nat) (W fuel : Nat) (hW : 1 ≤ W) :
    dumpLoop pfx (W : Int) (fuel + 1) p =
      if W ≤ p.length then
        (scanBack p (W - 1)).bind fun j1 =>
          let j2 := if j1 = 0 then scanFwd (p.drop W) W else j1
          if j2 = p.length then .ok ([], p)
          else (trimBack p j2).bind fun j3 =>
            (skipFwd (p.drop (j3 + 1)) (j3 + 1)).bind fun j4 =>
              (dumpLoop pfx (W : Int) fuel (p.drop j4)).bind fun r =>
                .ok (write Sink.out (pfx ++ [32] ++ p.take (j3 + 1) ++ [10]) ++ r.1, r.2)
      else .ok ([], p) := by
  rw [dumpLoop]
  have h1 : ((p.length : Int) + 1 > (W : Int)) ↔ W ≤ p.length := by omega
  simp only [h1]
  split
  · have hW1 : (W : Int).toNat = W := by omega
    by_cases h2 : 2 ≤ W
    · have h3 : ((W : Int) - 1 > 0) := by omega
      have h4 : ((W : Int) - 1).toNat = W - 1 := by omega
      simp only [h3, if_true, h4, hW1]
      cases hsb : scanBack p (W - 1) with
      | error e => rfl
      | ok j1 =>
        simp only [Functor.map, Except.map, bind, Except.bind, pure, Except.pure]
        by_cases hj : j1 = 0 <;> simp [hj]
    · have hW2 : W = 1 := by omega
      subst hW2
      simp [scanBack, bind, Except.bind, pure, Except.pure]
  · rfl

/-! ## One iteration of the loop of `dump` -/

theorem noEdgeSpace_head {p : List Nat} (h : noEdgeSpace p = true) : wsAt p 0 = false := by
  simp [noEdgeSpace] at h; exact h.1

theorem noEdgeSpace_last {p : List Nat} (h : noEdgeSpace p = true) :
    wsAt p (p.length - 1) = false := by
  simp [noEdgeSpace] at h; exact h.2

/-- One iteration of the loop of `dump` at a break position: the indices `j3`
(last byte of the emitted text) and `j4` (first byte of the rest). -/
theorem dumpLoop_break (pfx p : List Nat) (W k : Nat) (hW : 1 ≤ W)
    (hc : noEdgeSpace p = true) (hlen : W ≤ p.length) (hk : IsBreak p W k) :
    ∃ j3 j4, j3 < k ∧ k < j4 ∧ j4 < p.length ∧ wsAt p j3 = false ∧ wsAt p j4 = false ∧
      (∀ i, j3 < i → i < j4 → wsAt p i = true) ∧
      ∀ fuel, dumpLoop pfx (W : Int) (fuel + 1) p =
        (dumpLoop pfx (W : Int) fuel (p.drop j4)).bind fun r =>
          .ok (write Sink.out (pfx ++ [32] ++ p.take (j3 + 1) ++ [10]) ++ r.1, r.2) := by
  obtain ⟨j1, hj1, hj2⟩ := scan_of_isBreak p W k hW hlen hk
  have hkws : wsAt p k = true := hk.1
  have hklt : k < p.length := wsAt_lt hkws
  have hk0 : 1 ≤ k := by
    rcases hk.2 with ⟨h, _⟩ | ⟨h, _⟩ <;> omega
  obtain ⟨j3, t1, t2, t3, t4⟩ := trimBack_spec p k (by omega) ⟨0, by omega, noEdgeSpace_head hc⟩
  have hlast := noEdgeSpace_last hc
  have hkl : k ≠ p.length - 1 := by
    intro h; rw [← h, hkws] at hlast; cases hlast
  obtain ⟨j4, s1, s2, s3, s4, s5⟩ := skipFwd_spec p (j3 + 1) ⟨p.length - 1, by omega, hlast, by omega⟩
  have hkj4 : k < j4 := by
    by_contra hn
    have : wsAt p j4 = true := by
      by_cases he : j4 = k
      · rw [he]; exact hkws
      · exact t4 j4 (by omega) (by omega)
    rw [s4] at this; cases this
  refine ⟨j3, j4, t2, hkj4, s3, t3, s4, fun i h1 h2 => s5 i (by omega) h2, fun fuel => ?_⟩
  rw [dumpLoop_nat pfx p W fuel hW, if_pos hlen, hj1]
  simp only [Except.bind, hj2]
  rw [if_neg (by omega), t1]
  simp only [Except.bind, s1]

/-- The loop of `dump` stops when the buffer holds no break position. -/
theorem dumpLoop_no_break (pfx p : List Nat) (W fuel : Nat) (hW : 1 ≤ W)
    (hlen : W ≤ p.length) (hk : ∀ k, ¬ IsBreak p W k) :
    dumpLoop pfx (W : Int) (fuel + 1) p = .ok ([], p) := by
  obtain ⟨j1, hj1, hj2⟩ := scan_of_no_break p W hW hlen hk
  rw [dumpLoop_nat pfx p W fuel hW, if_pos hlen, hj1]
  simp only [Except.bind, hj2, if_true]

/-- The loop of `dump` is not entered when the buffer is shorter than the width. -/
theorem dumpLoop_short (pfx p : List Nat) (W fuel : Nat) (hW : 1 ≤ W) (hlen : p.length < W) :
    dumpLoop pfx (W : Int) (fuel + 1) p = .ok ([], p) := by
  rw [dumpLoop_nat pfx p W fuel hW, if_neg (by omega)]

theorem trimRight_concat (l : List Nat) (x : Nat) :
    trimRight (l ++ [x]) = if isspace x = true then trimRight l else l ++ [x] := by
  by_cases h : isspace x = true <;> simp [trimRight, List.dropWhile, h]

theorem take_succ_getElem (p : List Nat) (k : Nat) (h : k < p.length) :
    p.take (k + 1) = p.take k ++ [p[k]] := by
  rw [List.take_succ, List.getElem?_eq_getElem h]; rfl

theorem trimRight_take (p : List Nat) (j k : Nat) (hjk : j < k) (hk : k ≤ p.length)
    (hj : wsAt p j = false) (hws : ∀ i, j < i → i < k → wsAt p i = true) :
    trimRight (p.take k) = p.take (j + 1) := by
  induction k with
  | zero => omega
  | succ k ih =>
    have hlt : k < p.length := hk
    by_cases hjk' : j = k
    · subst hjk'
      rw [wsAt_eq hlt] at hj
      rw [take_succ_getElem p j hlt, trimRight_concat]
      simp [hj]
    · have hkws := hws k (by omega) (by omega)
      rw [wsAt_eq hlt] at hkws
      have := ih (by omega) (by omega) (fun i h1 h2 => hws i h1 (by omega))
      rw [← this, take_succ_getElem p k hlt, trimRight_concat, if_pos hkws]

theorem dropWhile_drop (p : List Nat) (k j : Nat) (hkj : k ≤ j) (hj : j < p.length)
    (hnw : wsAt p j = false) (hws : ∀ i, k ≤ i → i < j → wsAt p i = true) :
    (p.drop k).dropWhile isspace = p.drop j := by
  obtain ⟨d, rfl⟩ : ∃ d, j = k + d := ⟨j - k, by omega⟩
  induction d generalizing k with
  | zero =>
    simp only [Nat.add_zero] at hj hnw ⊢
    rw [wsAt_eq hj] at hnw
    rw [List.drop_eq_getElem_cons hj]
    simp [List.dropWhile, hnw]
  | succ d ih =>
    have hk : k < p.length := by omega
    have hkws := hws k (le_refl _) (by omega)
    rw [wsAt_eq hk] at hkws
    have e : k + 1 + d = k + (d + 1) := by omega
    have := ih (k + 1) (by omega) (by rw [e]; exact hj) (by rw [e]; exact hnw)
      (fun i h1 h2 => hws i (by omega) (by omega))
    rw [e] at this
    rw [← this, List.drop_eq_getElem_cons hk]
    simp [List.dropWhile, hkws]

theorem noEdgeSpace_drop (p : List Nat) (j : Nat) (hc : noEdgeSpace p = true)
    (hj : j < p.length) (hnw : wsAt p j = false) : noEdgeSpace (p.drop j) = true := by
  have hl := noEdgeSpace_last hc
  simp only [noEdgeSpace, wsAt_drop, List.length_drop, Bool.and_eq_true, Bool.not_eq_true',
    Nat.add_zero]
  refine ⟨hnw, ?_⟩
  rw [show j + (p.length - j - 1) = p.length - 1 by omega]
  exact hl

/-- For a buffer without leading or trailing white space the result of the loop
of `dump` does not depend on the iteration bound, once it exceeds the length. -/
theorem dumpLoop_fuel (pfx : List Nat) (W : Nat) (hW : 1 ≤ W) :
    ∀ n (p : List Nat), p.length ≤ n → noEdgeSpace p = true →
      ∀ f1 f2, p.length < f1 → p.length < f2 →
        dumpLoop pfx (W : Int) f1 p = dumpLoop pfx (W : Int) f2 p := by
  intro n
  induction n with
  | zero =>
    intro p hp _ f1 f2 h1 h2
    obtain ⟨a, rfl⟩ : ∃ a, f1 = a + 1 := ⟨f1 - 1, by omega⟩
    obtain ⟨b, rfl⟩ : ∃ b, f2 = b + 1 := ⟨f2 - 1, by omega⟩
    rw [dumpLoop_short pfx p W a hW (by omega), dumpLoop_short pfx p W b hW (by omega)]
  | succ n ih =>
    intro p hp hc f1 f2 h1 h2
    obtain ⟨a, rfl⟩ : ∃ a, f1 = a + 1 := ⟨f1 - 1, by omega⟩
    obtain ⟨b, rfl⟩ : ∃ b, f2 = b + 1 := ⟨f2 - 1, by omega⟩
    by_cases hlen : p.length < W
    · rw [dumpLoop_short pfx p W a hW hlen, dumpLoop_short pfx p W b hW hlen]
    · by_cases hk : ∃ k, IsBreak p W k
      · obtain ⟨k, hk⟩ := hk
        obtain ⟨j3, j4, h3, h4, h5, h6, h7, _, heq⟩ :=
          dumpLoop_break pfx p W k hW hc (by omega) hk
        rw [heq a, heq b]
        have hd : (p.drop j4).length ≤ n := by simp; omega
        rw [ih (p.drop j4) hd (noEdgeSpace_drop p j4 hc h5 h7) a b (by simp; omega)
          (by simp; omega)]
      · have hk' : ∀ k, ¬ IsBreak p W k := fun k h => hk ⟨k, h⟩
        rw [dumpLoop_no_break pfx p W a hW (by omega) hk',
          dumpLoop_no_break pfx p W b hW (by omega) hk']

/-! ## `dump` -/

theorem write_ne_nil (k : Sink) (s : List Nat) (h : s ≠ []) : write k s = [(k, s)] := by
  simp [write, h]

theorem write_textLine (pfx s : List Nat) :
    write Sink.out (pfx ++ [32] ++ s ++ [10]) = [(Sink.out, textLine pfx s)] := by
  simp [write, textLine]

/-- `dump` with a line: the flush of the buffer, then the write of the line. -/
theorem dump_line (pfx line : List Nat) (target : Int) (c : List Nat) :
    dump pfx line target c =
      (dump pfx [] target c).bind fun r => .ok (r.1 ++ lineWrite pfx line, r.2) := by
  simp only [dump, bind, Except.bind, pure, Except.pure]
  cases dumpLoop pfx target (c.length + 1) c with
  | error e => rfl
  | ok r =>
    obtain ⟨t, c'⟩ := r
    by_cases hl : line = []
    · subst hl
      by_cases hp : pfx.isPrefixOf [] = true <;> simp [lineWrite, write, hp]
    · by_cases hp : pfx.isPrefixOf line = true <;> simp [lineWrite, write, hp, hl]

/-- `dump` leaves the buffer empty whenever it returns. -/
theorem dump_comment_nil (pfx line : List Nat) (target : Int) (c : List Nat)
    (r : Trace × List Nat) (h : dump pfx line target c = .ok r) : r.2 = [] := by
  simp only [dump, bind, Except.bind, pure, Except.pure] at h
  cases hd : dumpLoop pfx target (c.length + 1) c with
  | error e => rw [hd] at h; cases h
  | ok q =>
    rw [hd] at h
    simp only [Except.ok.injEq] at h
    rw [← h]
    by_cases hq : q.2 = [] <;> simp [hq]

/-- The flush in terms of the loop. -/
theorem dump_flush (pfx : List Nat) (target : Int) (c : List Nat) :
    dump pfx [] target c =
      (dumpLoop pfx target (c.length + 1) c).bind fun r =>
        .ok (if r.2 = [] then r.1 else r.1 ++ [(Sink.out, textLine pfx r.2)], []) := by
  simp only [dump, bind, Except.bind, pure, Except.pure]
  cases dumpLoop pfx target (c.length + 1) c with
  | error e => rfl
  | ok r =>
    obtain ⟨t, c'⟩ := r
    by_cases hc : c' = [] <;> by_cases hp : pfx.isPrefixOf [] = true <;>
      simp [write, textLine, hc, hp]

/-- A buffer shorter than the width is written as one line, an empty one not at all. -/
theorem dump_short (pfx p : List Nat) (W : Nat) (hW : 1 ≤ W) (hlen : p.length < W) :
    dump pfx [] (W : Int) p =
      .ok (if p = [] then [] else [(Sink.out, textLine pfx p)], []) := by
  rw [dump_flush, dumpLoop_short pfx p W _ hW hlen]
  simp [Except.bind]

/-- A buffer without a break position is written as one line. -/
theorem dump_no_break (pfx p : List Nat) (W : Nat) (hW : 1 ≤ W) (hlen : W ≤ p.length)
    (hk : ∀ k, ¬ IsBreak p W k) :
    dump pfx [] (W : Int) p = .ok ([(Sink.out, textLine pfx p)], []) := by
  rw [dump_flush, dumpLoop_no_break pfx p W _ hW hlen hk]
  have hne : p ≠ [] := by
    intro h; subst h; simp at hlen; omega
  simp [Except.bind, hne]

/-- The rest of the buffer after a break position. -/
theorem rest_after_break (p : List Nat) (W k : Nat) (hc : noEdgeSpace p = true)
    (hk : IsBreak p W k) :
    noEdgeSpace ((p.drop k).dropWhile isspace) = true ∧
      (p.drop k).dropWhile isspace ≠ [] ∧
      ((p.drop k).dropWhile isspace).length < p.length ∧
      ∃ j, k < j ∧ j < p.length ∧ (p.drop k).dropWhile isspace = p.drop j := by
  have hkws : wsAt p k = true := hk.1
  have hklt : k < p.length := wsAt_lt hkws
  have hlast := noEdgeSpace_last hc
  obtain ⟨j4, s1, s2, s3, s4, s5⟩ := skipFwd_spec p k ⟨p.length - 1, by omega, hlast, by omega⟩
  have hne : j4 ≠ k := by
    intro h; rw [h, hkws] at s4; cases s4
  have e := dropWhile_drop p k j4 s2 s3 s4 s5
  rw [e]
  refine ⟨noEdgeSpace_drop p j4 hc s3 s4, ?_, by simp; omega, j4, by omega, s3, rfl⟩
  intro h
  have := congrArg List.length h
  simp at this; omega

/-- At a break position `dump` writes the text before it and goes on with the rest. -/
theorem dump_break (pfx p : List Nat) (W k : Nat) (hW : 1 ≤ W)
    (hc : noEdgeSpace p = true) (hlen : W ≤ p.length) (hk : IsBreak p W k) :
    dump pfx [] (W : Int) p =
      (dump pfx [] (W : Int) ((p.drop k).dropWhile isspace)).bind fun r =>
        .ok ((Sink.out, textLine pfx (trimRight (p.take k))) :: r.1, r.2) := by
  obtain ⟨j3, j4, h3, h4, h5, h6, h7, h8, heq⟩ := dumpLoop_break pfx p W k hW hc hlen hk
  have e1 : trimRight (p.take k) = p.take (j3 + 1) :=
    trimRight_take p j3 k h3 (by omega) h6 (fun i a b => h8 i a (by omega))
  have e2 : (p.drop k).dropWhile isspace = p.drop j4 :=
    dropWhile_drop p k j4 (by omega) h5 h7 (fun i a b => h8 i (by omega) b)
  rw [e1, e2, dump_flush, dump_flush, heq, write_textLine]
  have hf := dumpLoop_fuel pfx W hW (p.drop j4).length (p.drop j4) (le_refl _)
    (noEdgeSpace_drop p j4 hc h5 h7) p.length ((p.drop j4).length + 1) (by simp; omega) (by omega)
  rw [hf]
  cases dumpLoop pfx (W : Int) ((p.drop j4).length + 1) (p.drop j4) with
  | error e => rfl
  | ok r =>
    obtain ⟨t, c⟩ := r
    by_cases hcn : c = [] <;> simp [Except.bind, hcn]

/-- Wrapping terminates: `dump` returns the texts of a wrapping of the buffer. -/
theorem dump_wrapped (pfx : List Nat) (W : Nat) (hW : 1 ≤ W) :
    ∀ n (p : List Nat), p.length ≤ n → noEdgeSpace p = true →
      ∃ segs, Wrapped W p segs ∧
        dump pfx [] (W : Int) p = .ok (segs.map fun s => (Sink.out, textLine pfx s), []) := by
  intro n
  induction n with
  | zero =>
    intro p hp _
    have : p = [] := List.length_eq_zero.mp (by omega)
    subst this
    exact ⟨[], Wrapped.empty, by rw [dump_short pfx [] W hW (by simp; omega)]; rfl⟩
  | succ n ih =>
    intro p hp hc
    by_cases hlen : p.length < W
    · by_cases hne : p = []
      · subst hne
        exact ⟨[], Wrapped.empty, by rw [dump_short pfx [] W hW hlen]; rfl⟩
      · exact ⟨[p], Wrapped.whole p hne (Or.inl hlen), by
          rw [dump_short pfx p W hW hlen]; simp [hne]⟩
    · by_cases hk : ∃ k, IsBreak p W k
      · obtain ⟨k, hk⟩ := hk
        obtain ⟨r1, r2, r3, _⟩ := rest_after_break p W k hc hk
        obtain ⟨segs, hs1, hs2⟩ := ih _ (by omega) r1
        exact ⟨_, Wrapped.brk p k segs (by omega) hk hs1, by
          rw [dump_break pfx p W k hW hc (by omega) hk, hs2]; rfl⟩
      · have hk' : ∀ k, ¬ IsBreak p W k := fun k h => hk ⟨k, h⟩
        have hne : p ≠ [] := by
          intro h; subst h; simp at hlen; omega
        exact ⟨[p], Wrapped.whole p hne (Or.inr hk'), by
          rw [dump_no_break pfx p W hW (by omega) hk']; rfl⟩

theorem trimRight_suffix (l : List Nat) : (trimRight l).reverse <:+ l.reverse := by
  simp only [trimRight, List.reverse_reverse]
  exact List.dropWhile_suffix _

theorem trimRight_length_le (l : List Nat) : (trimRight l).length ≤ l.length := by
  have := (trimRight_suffix l).length_le
  simpa using this

theorem mem_of_mem_trimRight {l : List Nat} {b : Nat} (h : b ∈ trimRight l) : b ∈ l := by
  have := (trimRight_suffix l).subset (List.mem_reverse.mpr h)
  exact List.mem_reverse.mp this

theorem wsAt_of_mem {p : List Nat} (h : ∀ i, i < p.length → wsAt p i = false) :
    ∀ b ∈ p, isspace b = false := by
  intro b hb
  obtain ⟨i, hi, rfl⟩ := List.mem_iff_getElem.mp hb
  rw [← wsAt_eq hi]; exact h i hi

/-- A buffer without a break position has white space at most at index 0. -/
theorem no_break_no_space (p : List Nat) (W : Nat) (hW : 1 ≤ W) (hlen : W ≤ p.length)
    (hk : ∀ k, ¬ IsBreak p W k) : ∀ i, 1 ≤ i → wsAt p i = false := by
  obtain ⟨j1, h1, h2, h3, h4⟩ := scanBack_spec p (W - 1) (by omega)
  have h0 : j1 = 0 := by
    rcases h3 with h0 | hj
    · exact h0
    · by_contra hne
      exact hk j1 ⟨hj, Or.inl ⟨by omega, by omega, fun i hi1 hi2 => h4 i hi2 (by omega)⟩⟩
  obtain ⟨f1, f2, f3, f4⟩ := scanFwd_spec p W hlen
  have hf : scanFwd (p.drop W) W = p.length := by
    by_contra hn
    have hlt : scanFwd (p.drop W) W < p.length := by omega
    refine hk _ ⟨f3 hlt, Or.inr ⟨f1, fun i hi1 hi2 => ?_⟩⟩
    by_cases hiW : i < W
    · exact h4 i (by omega) (by omega)
    · exact f4 i (by omega) hi1
  intro i hi
  by_cases hiW : i < W
  · exact h4 i (by omega) (by omega)
  · by_cases hil : i < p.length
    · exact f4 i (by omega) (by omega)
    · cases hw : wsAt p i with
      | false => rfl
      | true => exact absurd (wsAt_lt hw) hil

/-- Every text of a wrapping fits the width or is one word. -/
theorem wrapped_fits (W : Nat) (hW : 1 ≤ W) {p : List Nat} {segs : List (List Nat)}
    (h : Wrapped W p segs) (hc : noEdgeSpace p = true) :
    ∀ s ∈ segs, s.length + 1 ≤ W ∨ ∀ b ∈ s, isspace b = false := by
  induction h with
  | empty => intro s hs; cases hs
  | whole p hne hw =>
    intro s hs
    rw [List.mem_singleton] at hs
    subst hs
    by_cases hlen : s.length < W
    · exact Or.inl (by omega)
    · rcases hw with hw | hw
      · exact absurd hw hlen
      · refine Or.inr (wsAt_of_mem fun i hi => ?_)
        by_cases hi0 : i = 0
        · subst hi0; exact noEdgeSpace_head hc
        · exact no_break_no_space s W hW (by omega) hw i (by omega)
  | brk p k segs hlen hk _ ih =>
    intro s hs
    rcases List.mem_cons.mp hs with rfl | hs
    · rcases hk.2 with ⟨hk1, hk2, _⟩ | ⟨hk1, hk2⟩
      · left
        have := trimRight_length_le (p.take k)
        simp at this; omega
      · right
        intro b hb
        have hb' := mem_of_mem_trimRight hb
        obtain ⟨i, hi, rfl⟩ := List.mem_iff_getElem.mp hb'
        have hik : i < k := by simp at hi; omega
        have hip : i < p.length := by simp at hi; omega
        rw [List.getElem_take, ← wsAt_eq hip]
        by_cases hi0 : i = 0
        · subst hi0; exact noEdgeSpace_head hc
        · exact hk2 i hik (by omega)
    · exact ih (rest_after_break p W k hc hk).1 s hs

theorem countLead_le (c : Nat) (line : List Nat) : countLead c line ≤ line.length := by
  induction line with
  | nil => simp [countLead]
  | cons b bs ih => by_cases h : b = c <;> simp [countLead, h]; omega

theorem leadIndex_le (line : List Nat) : leadIndex line ≤ line.length := by
  cases line with
  | nil => simp [leadIndex]
  | cons b bs =>
    simp only [leadIndex]
    split
    · exact countLead_le _ _
    · split
      · exact countLead_le _ _
      · omega

theorem detectDelim_ne_nil (s delim : List Nat) : detectDelim s delim ≠ [] := by
  unfold detectDelim
  by_cases h : delim = []
  · rw [if_pos h]
    split
    · decide
    · split
      · decide
      · split <;> decide
  · rw [if_neg h]; exact h

theorem wrapInt_of_range {x : Int} (h1 : minInt ≤ x) (h2 : x ≤ maxInt) : wrapInt x = x := by
  unfold wrapInt
  unfold minInt at h1
  unfold maxInt at h2
  omega

theorem wrapInt_range (x : Int) : minInt ≤ wrapInt x ∧ wrapInt x ≤ maxInt := by
  unfold wrapInt minInt maxInt
  omega

theorem wrapInt_sub (a s : Int) : wrapInt (wrapInt a - s) = wrapInt (a - s) := by
  unfold wrapInt
  omega

theorem leadLoop_eq (c : Nat) (step : Int) (line : List Nat) (T : Int) :
    leadLoop c step line T =
      if countLead c line = 0 then T else wrapInt (T - step * (countLead c line : Nat)) := by
  induction line generalizing T with
  | nil => simp [leadLoop, countLead]
  | cons b bs ih =>
    by_cases h : b = c
    · simp only [leadLoop, countLead, if_pos h]
      rw [ih, if_neg (Nat.succ_ne_zero _)]
      by_cases h0 : countLead c bs = 0
      · rw [if_pos h0, h0]
        simp
      · rw [if_neg h0, wrapInt_sub]
        congr 1
        push_cast
        ring
    · simp [leadLoop, countLead, h]

theorem leadIndex_le_cost (line : List Nat) : leadIndex line ≤ leadCost line := by
  cases line with
  | nil => simp [leadCost, leadIndex]
  | cons b bs =>
    simp only [leadCost]
    split
    · omega
    · split
      · omega
      · rename_i h1 h2
        simp [leadIndex, h1, h2]

/-- The width after the `switch` on the first line: the target less the cost of the
indentation, in 64-bit arithmetic. -/
theorem leadTarget_eq (line : List Nat) (T : Int) :
    leadTarget line T = if leadCost line = 0 then T else wrapInt (T - (leadCost line : Nat)) := by
  cases line with
  | nil => simp [leadTarget, leadCost]
  | cons b bs =>
    simp only [leadTarget, leadCost, leadIndex]
    by_cases h1 : b = 32
    · rw [if_pos h1, if_pos h1, if_pos h1, leadLoop_eq]
      simp
    · rw [if_neg h1, if_neg h1, if_neg h1]
      by_cases h2 : b = 9
      · rw [if_pos h2, if_pos h2, if_pos h2, leadLoop_eq]
        by_cases h0 : countLead 9 (b :: bs) = 0
        · simp [h0]
        · rw [if_neg h0, if_neg (by omega)]
          push_cast
          rfl
      · rw [if_neg h2, if_neg h2]
        simp

/-- The effective width: the target less the cost of the indentation and of the
delimiter, in 64-bit arithmetic. -/
theorem workTarget_eq (line : List Nat) (T : Int) (delim : List Nat) :
    workTarget line T delim =
      if widthCost line delim = 0 then T else wrapInt (T - (widthCost line delim : Nat)) := by
  have hd := detectDelim_ne_nil (line.drop (leadIndex line)) delim
  have hl : 0 < (detectDelim (line.drop (leadIndex line)) delim).length :=
    List.length_pos.mpr hd
  simp only [workTarget, widthCost]
  rw [leadTarget_eq]
  by_cases h : (detectDelim (line.drop (leadIndex line)) delim).isPrefixOf
      (line.drop (leadIndex line)) = true
  · simp only [h, if_true]
    have hne : ¬ leadCost line + (detectDelim (line.drop (leadIndex line)) delim).length = 0 := by
      omega
    rw [if_neg hne]
    by_cases h0 : leadCost line = 0
    · rw [if_pos h0, h0]
      simp
    · rw [if_neg h0, wrapInt_sub]
      congr 1
      push_cast
      ring
  · simp only [h]
    simp

/-- Without overflow the effective width is the target less the cost of the
indentation and of the delimiter. -/
theorem workTarget_noWrap (line : List Nat) (T : Int) (delim : List Nat)
    (h : NoWrap line T delim) : workTarget line T delim = T - (widthCost line delim : Nat) := by
  rw [workTarget_eq]
  by_cases h0 : widthCost line delim = 0
  · rw [if_pos h0, h0]
    simp
  · rw [if_neg h0]
    exact wrapInt_of_range h.2 (by have := h.1; omega)

/-- When the working prefix is the indentation of the first line and the delimiter
and the width is computed without overflow, prefix and effective width together
stay within the configured target. -/
theorem workPrefix_length_add (first delim : List Nat) (T : Int)
    (h : (detectDelim (first.drop (leadIndex first)) delim).isPrefixOf
      (first.drop (leadIndex first)) = true) (hw : NoWrap first T delim) :
    ((workPrefix first delim).length : Int) + workTarget first T delim ≤ T := by
  have h1 := leadIndex_le first
  have h2 := leadIndex_le_cost first
  rw [workTarget_noWrap first T delim hw]
  simp only [workPrefix, widthCost, h, if_true, List.length_append, List.length_take]
  rw [Nat.min_eq_left h1]
  push_cast
  omega

/-! ## The body of the loop of `Format2` -/

theorem stripRev_eq (l : List Nat) :
    stripRev l = if l.dropWhile isspace = [] then .error .index else .ok (l.dropWhile isspace) := by
  induction l with
  | nil => rfl
  | cons r rest ih =>
    by_cases h : isspace r = true
    · simp [stripRev, List.dropWhile, h, ih]
    · simp [stripRev, List.dropWhile, h]

/-- Stripping the trailing white space of a line gives `trimRight`; a line of
white space only panics. -/
theorem stripTrailing_eq (line : List Nat) :
    stripTrailing line = if trimRight line = [] then .error .index else .ok (trimRight line) := by
  simp only [stripTrailing, stripRev_eq, trimRight]
  by_cases h : List.dropWhile isspace line.reverse = [] <;> simp [h, Functor.map, Except.map]

theorem dropWhile_append_of_mem (f : Nat → Bool) (x y : List Nat)
    (h : ∃ b ∈ x, f b = false) : (x ++ y).dropWhile f = x.dropWhile f ++ y := by
  induction x with
  | nil => obtain ⟨b, hb, _⟩ := h; cases hb
  | cons a x ih =>
    by_cases ha : f a = true
    · obtain ⟨b, hb, hf⟩ := h
      rcases List.mem_cons.mp hb with rfl | hb
      · rw [ha] at hf; cases hf
      · simp [List.dropWhile, ha, ih ⟨b, hb, hf⟩]
    · simp [List.dropWhile, ha]

/-- Trailing white space is removed from the last part that holds another byte. -/
theorem trimRight_append (a l : List Nat) (h : ∃ b ∈ l, isspace b = false) :
    trimRight (a ++ l) = a ++ trimRight l := by
  simp only [trimRight, List.reverse_append]
  rw [dropWhile_append_of_mem isspace l.reverse a.reverse
    (by obtain ⟨b, hb, hf⟩ := h; exact ⟨b, List.mem_reverse.mpr hb, hf⟩)]
  simp

theorem trimRight_ne_nil (l : List Nat) (h : ∃ b ∈ l, isspace b = false) : trimRight l ≠ [] := by
  obtain ⟨b, hb, hf⟩ := h
  induction l using List.reverseRecOn with
  | nil => cases hb
  | append_singleton l x ih =>
    rw [trimRight_concat]
    by_cases hx : isspace x = true
    · rw [if_pos hx]
      rcases List.mem_append.mp hb with hb | hb
      · exact ih hb
      · rw [List.mem_singleton] at hb; subst hb; rw [hx] at hf; cases hf
    · rw [if_neg hx]; simp

theorem trimRight_all_space (l : List Nat) (h : ∀ b ∈ l, isspace b = true) : trimRight l = [] := by
  induction l using List.reverseRecOn with
  | nil => rfl
  | append_singleton l x ih =>
    rw [trimRight_concat, if_pos (h x (by simp))]
    exact ih fun b hb => h b (by simp [hb])

theorem trimRight_of_getLast (l : List Nat) (b : Nat) (h : l.getLast? = some b)
    (hb : isspace b = false) : trimRight l = l := by
  induction l using List.reverseRecOn with
  | nil => cases h
  | append_singleton l x _ =>
    simp at h; subst h
    rw [trimRight_concat]; simp [hb]

theorem isPrefixOf_append_self (a b : List Nat) : a.isPrefixOf (a ++ b) = true := by
  simp

theorem lineWrite_prefix (pfx l : List Nat) : lineWrite pfx (pfx ++ l ++ [10]) = [(Sink.out, pfx ++ l ++ [10])] := by
  have : pfx.isPrefixOf (pfx ++ l ++ [10]) = true := by simp
  simp [lineWrite, this, write]

theorem trimRight_append_space (a l : List Nat) (h : ∀ b ∈ l, isspace b = true) :
    trimRight (a ++ l) = trimRight a := by
  induction l using List.reverseRecOn with
  | nil => simp
  | append_singleton l x ih =>
    rw [← List.append_assoc, trimRight_concat, if_pos (h x (by simp))]
    exact ih fun b hb => h b (by simp [hb])

theorem getElem?_append_cons (a : List Nat) (x : Nat) (l : List Nat) :
    (a ++ x :: l)[a.length]? = some x := by
  induction a with
  | nil => simp
  | cons y a ih => simpa using ih

theorem drop_append_cons (a : List Nat) (x : Nat) (l : List Nat) :
    (a ++ x :: l).drop (a.length + 1) = l := by
  induction a with
  | nil => rfl
  | cons y a ih => simp

theorem drop_append_length (a l : List Nat) : (a ++ l).drop a.length = l := by
  induction a with
  | nil => rfl
  | cons y a ih => simp

/-- The body of the loop once the trailing white space is stripped. -/
theorem processLine_stripped (pfx : List Nat) (target : Int) (line c line1 : List Nat)
    (h : stripTrailing line = .ok line1) :
    processLine pfx target line c =
      if line1 = pfx then dump pfx (line1 ++ [10]) target c
      else
        match line1[pfx.length]? with
        | none => .error .index
        | some b =>
          match (if b = 32 then line1.drop (pfx.length + 1) else line1.drop pfx.length) with
          | [] => .error .index
          | x :: xs =>
            if x = 9 then dump pfx (pfx ++ (x :: xs) ++ [10]) target c
            else if x = 32 then dump pfx (pfx ++ [32] ++ (x :: xs) ++ [10]) target c
            else .ok ([], appendProse c (x :: xs)) := by
  simp only [processLine, h, bind, Except.bind, pure, Except.pure]
  by_cases hp : line1 = pfx
  · rw [if_pos hp, if_pos hp]
  · rw [if_neg hp, if_neg hp]
    cases line1[pfx.length]? with
    | none => rfl
    | some b =>
      simp only []
      generalize (if b = 32 then line1.drop (pfx.length + 1) else line1.drop pfx.length) = l2
      cases l2 <;> rfl

theorem stripTrailing_text (pfx text : List Nat) (h : ∃ b ∈ text, isspace b = false) :
    stripTrailing (pfx ++ text) = .ok (pfx ++ trimRight text) := by
  rw [stripTrailing_eq, trimRight_append pfx text h, if_neg]
  have := trimRight_ne_nil text h
  simp [this]

/-- A line whose text starts with a tab: flush, then the line without its trailing
white space. -/
theorem processLine_tab (pfx : List Nat) (target : Int) (rest c : List Nat)
    (h : ∃ b ∈ rest, isspace b = false) :
    processLine pfx target (pfx ++ 9 :: rest) c =
      dump pfx (pfx ++ trimRight (9 :: rest) ++ [10]) target c := by
  have h' : ∃ b ∈ 9 :: rest, isspace b = false := by
    obtain ⟨b, hb, hf⟩ := h; exact ⟨b, List.mem_cons_of_mem _ hb, hf⟩
  have e : trimRight (9 :: rest) = 9 :: trimRight rest := trimRight_append [9] rest h
  rw [processLine_stripped pfx target _ c _ (stripTrailing_text pfx _ h'), e]
  have hne : pfx ++ 9 :: trimRight rest ≠ pfx := by
    intro hh; have := congrArg List.length hh; simp at this
  rw [if_neg hne, getElem?_append_cons]
  simp only [drop_append_length]
  simp

/-- A line whose text starts with two spaces: flush, then the line without its
trailing white space. -/
theorem processLine_spaces (pfx : List Nat) (target : Int) (rest c : List Nat)
    (h : ∃ b ∈ rest, isspace b = false) :
    processLine pfx target (pfx ++ 32 :: 32 :: rest) c =
      dump pfx (pfx ++ trimRight (32 :: 32 :: rest) ++ [10]) target c := by
  have h' : ∃ b ∈ 32 :: 32 :: rest, isspace b = false := by
    obtain ⟨b, hb, hf⟩ := h
    exact ⟨b, List.mem_cons_of_mem _ (List.mem_cons_of_mem _ hb), hf⟩
  have e : trimRight (32 :: 32 :: rest) = 32 :: 32 :: trimRight rest :=
    trimRight_append [32, 32] rest h
  rw [processLine_stripped pfx target _ c _ (stripTrailing_text pfx _ h'), e]
  have hne : pfx ++ 32 :: 32 :: trimRight rest ≠ pfx := by
    intro hh; have := congrArg List.length hh; simp at this
  rw [if_neg hne, getElem?_append_cons]
  simp only [drop_append_cons]
  simp

/-- A prose line is appended to the buffer and nothing is written. -/
theorem processLine_prose (pfx : List Nat) (target : Int) (line x c : List Nat)
    (h : IsProse pfx line x) :
    processLine pfx target line c = .ok ([], appendProse c x) := by
  obtain ⟨sp, trail, rfl, hsp, ⟨b0, hb0, h32, h9⟩, ⟨bl, hbl, hbls⟩, htr⟩ := h
  obtain ⟨xs, rfl⟩ : ∃ xs, x = b0 :: xs := by
    cases x with
    | nil => cases hb0
    | cons a xs => simp at hb0; exact ⟨xs, by rw [hb0]⟩
  have hlast : (pfx ++ sp ++ b0 :: xs).getLast? = some bl := by
    rw [List.getLast?_append, hbl]; rfl
  have hs : stripTrailing (pfx ++ sp ++ b0 :: xs ++ trail) = .ok (pfx ++ sp ++ b0 :: xs) := by
    rw [stripTrailing_eq, trimRight_append_space _ _ htr,
      trimRight_of_getLast _ bl hlast hbls, if_neg (by simp)]
  rw [processLine_stripped pfx target _ c _ hs]
  have hne : pfx ++ sp ++ b0 :: xs ≠ pfx := by
    intro hh; have := congrArg List.length hh; simp at this
  rw [if_neg hne]
  rcases hsp with rfl | rfl
  · rw [List.append_nil, getElem?_append_cons]
    simp only [drop_append_length, if_neg h32]
    simp [h32, h9]
  · rw [List.append_assoc, List.singleton_append, getElem?_append_cons]
    simp only [drop_append_cons]
    simp [h32, h9]

/-! ## Claims on `dump` -/

/-- C1 as stated fails on the code when the width computation overflows.  With the
target `-9223372036854775805` and the first line `\t// a b` the code subtracts 8
for the tab and 2 for the delimiter in 64-bit arithmetic and gets the effective
width `9223372036854775801`; the prefix is the indentation and the delimiter, the
buffer `a b` has no white space at its ends and fits the width, and the line that
`dump` writes for it is 7 bytes long without its newline, more than the target. -/
theorem dump_line_exceeds_target :
    workPrefix (ascii "\t// a b\n") [] = ascii "\t//" ∧
    workTarget (ascii "\t// a b\n") (-9223372036854775805) [] = 9223372036854775801 ∧
    (detectDelim ((ascii "\t// a b\n").drop (leadIndex (ascii "\t// a b\n"))) []).isPrefixOf
      ((ascii "\t// a b\n").drop (leadIndex (ascii "\t// a b\n"))) = true ∧
    noEdgeSpace (ascii "a b") = true ∧
    dump (ascii "\t//") [] 9223372036854775801 (ascii "a b") =
      .ok ([(Sink.out, ascii "\t//" ++ [32] ++ ascii "a b" ++ [10])], []) ∧
    (ascii "a b").length + 1 ≤ 9223372036854775801 ∧
    ¬ (((ascii "\t//" ++ [32] ++ ascii "a b").length : Int) ≤ -9223372036854775805) ∧
    Format (ascii "export ") (ascii "\t// a b\n") (-9223372036854775805) [] =
      .ok (ascii "\t// a b\n") := by
  decide

/-- C1, amended: for a buffer `p` without leading or trailing white space and a
width `W ≥ 1`, `dump` returns, and every line it writes is `prefix + " " + s + "\n"`
where `len(s) + 1 ≤ W` or `s` holds no white space (one over-wide word).  When the
prefix is the indentation of the first line followed by the delimiter, `W` is the
effective width that `Format2` computes from the target `T`, and that computation
does not overflow, every line whose text fits the width is, without its newline,
at most `T` bytes long. -/
theorem dump_lines_within_width (pfx p : List Nat) (W : Nat) (hW : 1 ≤ W)
    (hc : noEdgeSpace p = true) :
    ∃ t, dump pfx [] (W : Int) p = .ok (t, []) ∧
      ∀ w ∈ t, ∃ s, w = (Sink.out, pfx ++ [32] ++ s ++ [10]) ∧
        (s.length + 1 ≤ W ∨ ∀ b ∈ s, isspace b = false) ∧
        ∀ (first delim : List Nat) (T : Int),
          pfx = workPrefix first delim → (W : Int) = workTarget first T delim →
          (detectDelim (first.drop (leadIndex first)) delim).isPrefixOf
            (first.drop (leadIndex first)) = true →
          NoWrap first T delim →
          s.length + 1 ≤ W → ((pfx ++ [32] ++ s).length : Int) ≤ T := by
  obtain ⟨segs, hw, hd⟩ := dump_wrapped pfx W hW p.length p (le_refl _) hc
  refine ⟨_, hd, fun w hmem => ?_⟩
  obtain ⟨s, hs, rfl⟩ := List.mem_map.mp hmem
  refine ⟨s, rfl, wrapped_fits W hW hw hc s hs, fun first delim T h1 h2 h3 hn h4 => ?_⟩
  have := workPrefix_length_add first delim T h3 hn
  rw [← h1, ← h2] at this
  simp only [List.length_append, List.length_singleton]
  push_cast
  omega

/-- C1, amended, at the paragraph `456789 bcdef 123` of the tests (target 16, prefix
`//`, effective width 14). -/
theorem dump_lines_within_width_witness :
    noEdgeSpace (ascii "456789 bcdef 123") = true ∧
    ∃ t, dump (ascii "//") [] ((14 : Nat) : Int) (ascii "456789 bcdef 123") = .ok (t, []) ∧
      ∀ w ∈ t, ∃ s, w = (Sink.out, ascii "//" ++ [32] ++ s ++ [10]) ∧
        (s.length + 1 ≤ 14 ∨ ∀ b ∈ s, isspace b = false) ∧
        (s.length + 1 ≤ 14 → ((ascii "//" ++ [32] ++ s).length : Int) ≤ 16) := by
  refine ⟨by decide, ?_⟩
  obtain ⟨t, h1, h2⟩ :=
    dump_lines_within_width (ascii "//") (ascii "456789 bcdef 123") 14 (by decide) (by decide)
  refine ⟨t, h1, fun w hw => ?_⟩
  obtain ⟨s, e, h3, h4⟩ := h2 w hw
  exact ⟨s, e, h3,
    h4 (ascii "// 456789 bcdef 123\n") (ascii "//") 16 (by decide) (by decide) (by decide)
      (by decide)⟩

/-- C4 as stated fails on the empty buffer: it is shorter than every width
`W ≥ 1`, has no leading or trailing white space, and `dump` writes no line for it,
not the line `prefix + " " + "" + "\n"`. -/
theorem dump_empty_buffer_no_line :
    noEdgeSpace [] = true ∧ ([] : List Nat).length < 1 ∧
    dump (ascii "//") [] ((1 : Nat) : Int) [] = .ok ([], []) ∧
    dump (ascii "//") [] ((1 : Nat) : Int) [] ≠ .ok ([(Sink.out, textLine (ascii "//") [])], []) := by
  decide

/-- C4, amended to non-empty buffers: for a non-empty buffer `p` without leading
or trailing white space and a width `W ≥ 1`: if `len(p) < W`, `dump` writes `p` as
one line; if `len(p) ≥ W` and `k` is the break position (the largest index in
`[1, W-1]` holding white space if there is one, otherwise the smallest index from
`W` on holding white space), `dump` writes `p[0..k)` without its trailing white
space as first line and then what it writes for the rest of `p` after the white
space that starts at `k`; if there is no break position, it writes `p` as one
line. -/
theorem dump_break_position (pfx p : List Nat) (W : Nat) (hW : 1 ≤ W)
    (hc : noEdgeSpace p = true) (hne : p ≠ []) :
    (p.length < W → dump pfx [] (W : Int) p = .ok ([(Sink.out, textLine pfx p)], [])) ∧
    (W ≤ p.length → ∀ k, IsBreak p W k →
      ∃ t, dump pfx [] (W : Int) ((p.drop k).dropWhile isspace) = .ok (t, []) ∧
        dump pfx [] (W : Int) p =
          .ok ((Sink.out, textLine pfx (trimRight (p.take k))) :: t, [])) ∧
    (W ≤ p.length → (∀ k, ¬ IsBreak p W k) →
      dump pfx [] (W : Int) p = .ok ([(Sink.out, textLine pfx p)], [])) := by
  refine ⟨fun hlen => ?_, fun hlen k hk => ?_, fun hlen hk => dump_no_break pfx p W hW hlen hk⟩
  · rw [dump_short pfx p W hW hlen, if_neg hne]
  · obtain ⟨r1, _, _, _⟩ := rest_after_break p W k hc hk
    obtain ⟨segs, _, hd⟩ := dump_wrapped pfx W hW _ _ (le_refl _) r1
    refine ⟨_, hd, ?_⟩
    rw [dump_break pfx p W k hW hc hlen hk, hd]
    rfl

/-- C4 amended, at the paragraph `456789 bcdef 123` of the tests: the width is 14
and the break position is 12. -/
theorem dump_break_position_witness :
    IsBreak (ascii "456789 bcdef 123") 14 12 ∧
    ∃ t, dump (ascii "//") [] ((14 : Nat) : Int)
        (((ascii "456789 bcdef 123").drop 12).dropWhile isspace) = .ok (t, []) ∧
      dump (ascii "//") [] ((14 : Nat) : Int) (ascii "456789 bcdef 123") =
        .ok ((Sink.out, textLine (ascii "//") (trimRight ((ascii "456789 bcdef 123").take 12)))
          :: t, []) :=
  ⟨by decide,
    (dump_break_position (ascii "//") (ascii "456789 bcdef 123") 14 (by decide) (by decide)
      (by decide)).2.1 (by decide) 12 (by decide)⟩

/-! ## The loop of `Format2` -/

/-- The lines read make up the input. -/
theorem splitLines_flatten (r : List Nat) : (splitLines r).flatten = r := by
  induction r with
  | nil => rfl
  | cons b bs ih =>
    by_cases hb : b = 10
    · simp [splitLines, hb, ih]
    · simp only [splitLines, hb, if_false]
      cases hs : splitLines bs with
      | nil => rw [hs] at ih; simp at ih; simp [← ih]
      | cons l ls => rw [hs] at ih; simp at ih; simp [← ih]

theorem atEOF_cons (b : Nat) (l : List Nat) (h : atEOF l = false) : atEOF (b :: l) = false := by
  cases l with
  | nil => simp [atEOF] at h
  | cons a l => simpa [atEOF, List.getLast?_cons_cons] using h

/-- Every line read but the last one ends with a newline. -/
theorem splitLines_dropLast (r : List Nat) : ∀ l ∈ (splitLines r).dropLast, atEOF l = false := by
  induction r with
  | nil => intro l hl; simp [splitLines] at hl
  | cons b bs ih =>
    by_cases hb : b = 10
    · simp only [splitLines, hb, if_true]
      intro l hl
      cases hs : splitLines bs with
      | nil => rw [hs] at hl; simp at hl
      | cons x xs =>
        rw [hs] at hl ih
        rw [List.dropLast_cons₂] at hl
        rcases List.mem_cons.mp hl with rfl | hl
        · decide
        · exact ih l hl
    · simp only [splitLines, hb, if_false]
      cases hs : splitLines bs with
      | nil => intro l hl; simp at hl
      | cons x xs =>
        rw [hs] at ih
        simp only []
        intro l hl
        cases xs with
        | nil => simp at hl
        | cons y ys =>
          rw [List.dropLast_cons₂] at hl ih
          rcases List.mem_cons.mp hl with rfl | hl
          · exact atEOF_cons b x (ih x (List.mem_cons_self _ _))
          · exact ih l (List.mem_cons_of_mem _ hl)

theorem splitLines_init (r : List Nat) (xs : List (List Nat)) (y : List Nat)
    (ys : List (List Nat)) (h : splitLines r = xs ++ y :: ys) : ∀ l ∈ xs, atEOF l = false := by
  intro l hl
  apply splitLines_dropLast r
  rw [h, List.dropLast_append_cons]
  exact List.mem_append_left _ hl

/-- The working prefix is never empty. -/
theorem workPrefix_ne_nil (line delim : List Nat) : workPrefix line delim ≠ [] := by
  have := detectDelim_ne_nil (line.drop (leadIndex line)) delim
  simp only [workPrefix]
  split
  · simp [this]
  · exact this

theorem hasPrefix_nil (pfx export_ : List Nat) (h : pfx ≠ []) : hasPrefix pfx export_ [] = false := by
  cases pfx with
  | nil => exact absurd rfl h
  | cons a l => simp [hasPrefix]

/-- The loop at the end of the input: the buffer is flushed. -/
theorem formatLoop_nil (pfx export_ : List Nat) (target : Int) (c : List Nat) (hp : pfx ≠ []) :
    formatLoop pfx export_ target [] c = dump pfx [] target c := by
  simp only [formatLoop, loopBody, hasPrefix_nil pfx export_ hp, Bool.not_false, if_true,
    bind, Except.bind, pure, Except.pure, copyRest]
  cases dump pfx [] target c with
  | error e => rfl
  | ok r => simp [write]

theorem formatLoop_cons (pfx export_ : List Nat) (target : Int) (line : List Nat)
    (rest : List (List Nat)) (c : List Nat) :
    formatLoop pfx export_ target (line :: rest) c =
      loopBody pfx export_ target line (atEOF line) rest c (formatLoop pfx export_ target rest) :=
  rfl

/-- The loop on a line of the comment block that ends with a newline. -/
theorem formatLoop_in_block (pfx export_ : List Nat) (target : Int) (line : List Nat)
    (rest : List (List Nat)) (c : List Nat) (h1 : hasPrefix pfx export_ line = true)
    (h2 : atEOF line = false) :
    formatLoop pfx export_ target (line :: rest) c =
      (processLine pfx target line c).bind fun q =>
        (formatLoop pfx export_ target rest q.2).bind fun r => .ok (q.1 ++ r.1, r.2) := by
  rw [formatLoop_cons]
  simp only [loopBody, h1, h2, Bool.not_true, bind, Except.bind, pure, Except.pure,
    Bool.false_eq_true, if_false]

/-- The loop on a line that is not in the comment block. -/
theorem formatLoop_not_in_block (pfx export_ : List Nat) (target : Int) (line : List Nat)
    (rest : List (List Nat)) (c : List Nat) (h1 : hasPrefix pfx export_ line = false) :
    formatLoop pfx export_ target (line :: rest) c =
      (dump pfx [] target c).bind fun r =>
        .ok (r.1 ++ lineWrite pfx line ++ copyRest rest, r.2) := by
  rw [formatLoop_cons]
  simp only [loopBody, h1, Bool.not_false, if_true, bind, Except.bind, pure, Except.pure]
  rw [dump_line]
  cases dump pfx [] target c with
  | error e => rfl
  | ok r => rfl

/-- The frame of the loop: the first line that is not in the comment block and
all lines after it are written as they are, after what the loop writes for the
lines before them alone. -/
theorem formatLoop_frame (pfx export_ : List Nat) (target : Int) (hp : pfx ≠ [])
    (eline : List Nat) (rest : List (List Nat)) (he : hasPrefix pfx export_ eline = false) :
    ∀ (block : List (List Nat)) (c : List Nat),
      (∀ l ∈ block, hasPrefix pfx export_ l = true ∧ atEOF l = false) →
      formatLoop pfx export_ target (block ++ eline :: rest) c =
        (formatLoop pfx export_ target block c).bind fun r =>
          .ok (r.1 ++ lineWrite pfx eline ++ copyRest rest, r.2) := by
  intro block
  induction block with
  | nil =>
    intro c _
    rw [formatLoop_nil pfx export_ target c hp, List.nil_append,
      formatLoop_not_in_block pfx export_ target eline rest c he]
  | cons l bs ih =>
    intro c hb
    obtain ⟨h1, h2⟩ := hb l (List.mem_cons_self _ _)
    rw [List.cons_append, formatLoop_in_block pfx export_ target l _ c h1 h2,
      formatLoop_in_block pfx export_ target l _ c h1 h2]
    cases processLine pfx target l c with
    | error e => rfl
    | ok q =>
      simp only [Except.bind]
      rw [ih q.2 (fun l' hl' => hb l' (List.mem_cons_of_mem _ hl'))]
      cases formatLoop pfx export_ target bs q.2 with
      | error e => rfl
      | ok r => simp [Except.bind]

theorem onlyOut_nil : onlyOut [] := by
  intro w hw; cases hw

theorem onlyOut_append {a b : Trace} (ha : onlyOut a) (hb : onlyOut b) : onlyOut (a ++ b) := by
  intro w hw
  rcases List.mem_append.mp hw with h | h
  · exact ha w h
  · exact hb w h

theorem onlyOut_write (s : List Nat) : onlyOut (write Sink.out s) := by
  intro w hw
  by_cases h : s = []
  · simp [write, h] at hw
  · simp [write, h] at hw; rw [hw]

theorem bind_eq_ok {ε α β : Type} {x : Except ε α} {f : α → Except ε β} {r : β}
    (h : x.bind f = .ok r) : ∃ a, x = .ok a ∧ f a = .ok r := by
  cases x with
  | error e => cases h
  | ok a => exact ⟨a, rfl, h⟩

/-- One unfolding of the loop of `dump`, for any target. -/
theorem dumpLoop_succ (pfx : List Nat) (target : Int) (fuel : Nat) (c : List Nat) :
    dumpLoop pfx target (fuel + 1) c =
      if (c.length : Int) + 1 > target then
        (if target - 1 > 0 then (fun n : Nat => (n : Int)) <$> scanBack c (target - 1).toNat
          else .ok (target - 1)).bind fun j1 =>
          if (if j1 = 0 then ((scanFwd (c.drop target.toNat) target.toNat : Nat) : Int) else j1)
              = c.length then .ok ([], c)
          else
            (trimBack c (if j1 = 0 then ((scanFwd (c.drop target.toNat) target.toNat : Nat) : Int)
              else j1).toNat).bind fun j3 =>
              (skipFwd (c.drop (j3 + 1)) (j3 + 1)).bind fun j4 =>
                (dumpLoop pfx target fuel (c.drop j4)).bind fun r =>
                  .ok (write Sink.out (pfx ++ [32] ++ c.take (j3 + 1) ++ [10]) ++ r.1, r.2)
      else .ok ([], c) := by
  rw [dumpLoop]
  by_cases h1 : (c.length : Int) + 1 > target
  · rw [if_pos h1, if_pos h1]
    by_cases h2 : target - 1 > 0
    · simp only [h2, if_true]; rfl
    · simp only [h2, if_false]; rfl
  · rw [if_neg h1, if_neg h1]; rfl

theorem dumpLoop_onlyOut (pfx : List Nat) (target : Int) :
    ∀ (fuel : Nat) (c : List Nat) (r : Trace × List Nat),
      dumpLoop pfx target fuel c = .ok r → onlyOut r.1 := by
  intro fuel
  induction fuel with
  | zero => intro c r h; simp [dumpLoop] at h
  | succ f ih =>
    intro c r h
    rw [dumpLoop_succ] at h
    by_cases h1 : (c.length : Int) + 1 > target
    · rw [if_pos h1] at h
      obtain ⟨j1, _, h⟩ := bind_eq_ok h
      generalize (if j1 = 0 then ((scanFwd (c.drop target.toNat) target.toNat : Nat) : Int)
        else j1) = j2 at h
      by_cases h2 : j2 = c.length
      · rw [if_pos h2] at h; cases h; exact onlyOut_nil
      · rw [if_neg h2] at h
        obtain ⟨j3, _, h⟩ := bind_eq_ok h
        obtain ⟨j4, _, h⟩ := bind_eq_ok h
        obtain ⟨q, hq, h⟩ := bind_eq_ok h
        cases h
        exact onlyOut_append (onlyOut_write _) (ih _ q hq)
    · rw [if_neg h1] at h; cases h; exact onlyOut_nil

theorem onlyOut_lineWrite (pfx line : List Nat) (h : pfx.isPrefixOf line = true ∨ line = []) :
    onlyOut (lineWrite pfx line) := by
  rcases h with h | h
  · simp only [lineWrite, h, if_true]; exact onlyOut_write _
  · subst h
    simp only [lineWrite, write]
    split <;> exact onlyOut_nil

/-- `dump` writes to `out` only, when its line starts with the prefix or is empty. -/
theorem dump_onlyOut (pfx line : List Nat) (target : Int) (c : List Nat) (r : Trace × List Nat)
    (hl : pfx.isPrefixOf line = true ∨ line = []) (h : dump pfx line target c = .ok r) :
    onlyOut r.1 := by
  rw [dump_line, dump_flush] at h
  obtain ⟨q, hq, h⟩ := bind_eq_ok h
  obtain ⟨q', hq', hq⟩ := bind_eq_ok hq
  cases h; cases hq
  have h1 := dumpLoop_onlyOut pfx target _ c q' hq'
  refine onlyOut_append ?_ (onlyOut_lineWrite pfx line hl)
  simp only []
  split
  · exact h1
  · exact onlyOut_append h1 (by intro w hw; simp at hw; rw [hw])

/-- The body of the loop writes to `out` only. -/
theorem processLine_onlyOut (pfx : List Nat) (target : Int) (line c : List Nat)
    (r : Trace × List Nat) (h : processLine pfx target line c = .ok r) : onlyOut r.1 := by
  cases hs : stripTrailing line with
  | error e => simp [processLine, hs, bind, Except.bind] at h
  | ok line1 =>
    rw [processLine_stripped pfx target line c line1 hs] at h
    split at h
    · rename_i hp
      exact dump_onlyOut pfx _ target c r (Or.inl (by rw [hp]; simp)) h
    · split at h
      · cases h
      · split at h
        · cases h
        · split at h
          · exact dump_onlyOut pfx _ target c r (Or.inl (by simp)) h
          · split at h
            · exact dump_onlyOut pfx _ target c r (Or.inl (by simp)) h
            · cases h; exact onlyOut_nil

/-- On lines of the comment block alone the loop writes to `out` only. -/
theorem formatLoop_onlyOut (pfx export_ : List Nat) (target : Int) (hp : pfx ≠ []) :
    ∀ (block : List (List Nat)) (c : List Nat) (r : Trace × List Nat),
      (∀ l ∈ block, hasPrefix pfx export_ l = true) →
      formatLoop pfx export_ target block c = .ok r → onlyOut r.1 := by
  intro block
  induction block with
  | nil =>
    intro c r _ h
    rw [formatLoop_nil pfx export_ target c hp] at h
    exact dump_onlyOut pfx [] target c r (Or.inr rfl) h
  | cons l bs ih =>
    intro c r hb h
    have h1 := hb l (List.mem_cons_self _ _)
    rw [formatLoop_cons] at h
    simp only [loopBody, h1, Bool.not_true, bind, Except.bind, pure, Except.pure,
      Bool.false_eq_true, if_false] at h
    cases hq : processLine pfx target l c with
    | error e => rw [hq] at h; cases h
    | ok q =>
      rw [hq] at h
      simp only [] at h
      have hq1 := processLine_onlyOut pfx target l c q hq
      split at h
      · obtain ⟨q2, hq2, h⟩ := bind_eq_ok h
        cases h
        exact onlyOut_append hq1 (dump_onlyOut pfx [] target q.2 q2 (Or.inr rfl) hq2)
      · obtain ⟨q2, hq2, h⟩ := bind_eq_ok h
        cases h
        exact onlyOut_append hq1 (ih q.2 q2 (fun l' hl' => hb l' (List.mem_cons_of_mem _ hl')) hq2)

theorem sinkBytes_append (k : Sink) (a b : Trace) :
    sinkBytes k (a ++ b) = sinkBytes k a ++ sinkBytes k b := by
  simp [sinkBytes]

theorem sinkBytes_cout_onlyOut (t : Trace) (h : onlyOut t) : sinkBytes Sink.cout t = [] := by
  induction t with
  | nil => rfl
  | cons w t ih =>
    have hw := h w (List.mem_cons_self _ _)
    have : decide (w.1 = Sink.cout) = false := by rw [hw]; decide
    simp only [sinkBytes, List.filter_cons, this]
    exact ih fun w' hw' => h w' (List.mem_cons_of_mem _ hw')

theorem sinkBytes_out_onlyOut (t : Trace) (h : onlyOut t) : sinkBytes Sink.out t = allBytes t := by
  induction t with
  | nil => rfl
  | cons w t ih =>
    have hw := h w (List.mem_cons_self _ _)
    have : decide (w.1 = Sink.out) = true := by rw [hw]; decide
    have ih' := ih fun w' hw' => h w' (List.mem_cons_of_mem _ hw')
    simp only [sinkBytes, allBytes, List.filter_cons, this, if_true, List.map_cons,
      List.flatten_cons] at ih' ⊢
    rw [ih']

/-! ## Claims on the body of the loop -/

/-- On a buffer without leading or trailing white space, at a width `W ≥ 1`, the
flush returns. -/
theorem dump_total (pfx : List Nat) (W : Nat) (hW : 1 ≤ W) (c : List Nat)
    (hc : noEdgeSpace c = true) : ∃ t, dump pfx [] (W : Int) c = .ok (t, []) := by
  obtain ⟨segs, _, hd⟩ := dump_wrapped pfx W hW c.length c (le_refl _) hc
  exact ⟨_, hd⟩

/-- `dump` called with a line that starts with the prefix: the flush, then the line. -/
theorem dump_prefixed (pfx l : List Nat) (target : Int) (c : List Nat) :
    dump pfx (pfx ++ l ++ [10]) target c =
      (dump pfx [] target c).bind fun r => .ok (r.1 ++ [(Sink.out, pfx ++ l ++ [10])], []) := by
  rw [dump_line, lineWrite_prefix]
  cases h : dump pfx [] target c with
  | error e => rfl
  | ok r =>
    have := dump_comment_nil pfx [] target c r h
    simp [Except.bind, this]

/-- C9: a comment line that equals the working prefix once its trailing white
space is stripped: the pending paragraph is flushed (`dump` on the buffer), then
`prefix + "\n"` is written on its own to `out`, and the buffer is empty afterwards,
so that a prose line after it starts a new paragraph.  On a buffer without leading
or trailing white space at a width `W ≥ 1` the step returns. -/
theorem blank_comment_line (pfx : List Nat) (target : Int) (line c : List Nat)
    (h : stripTrailing line = .ok pfx) :
    processLine pfx target line c =
        (dump pfx [] target c).bind
          (fun r => .ok (r.1 ++ [(Sink.out, pfx ++ [10])], [])) ∧
      (∀ W : Nat, 1 ≤ W → noEdgeSpace c = true →
        ∃ t, dump pfx [] (W : Int) c = .ok (t, []) ∧
          processLine pfx (W : Int) line c = .ok (t ++ [(Sink.out, pfx ++ [10])], [])) ∧
      (∀ t c1 x, processLine pfx target line c = .ok (t, c1) → appendProse c1 x = x) := by
  have key : ∀ tg : Int, processLine pfx tg line c =
      (dump pfx [] tg c).bind (fun r => .ok (r.1 ++ [(Sink.out, pfx ++ [10])], [])) := by
    intro tg
    rw [processLine_stripped pfx tg line c pfx h, if_pos rfl]
    have := dump_prefixed pfx [] tg c
    simpa using this
  refine ⟨key target, fun W hW hc => ?_, fun t c1 x hr => ?_⟩
  · obtain ⟨t, ht⟩ := dump_total pfx W hW c hc
    exact ⟨t, ht, by rw [key, ht]; rfl⟩
  · rw [key] at hr
    cases hd : dump pfx [] target c with
    | error e => rw [hd] at hr; cases hr
    | ok r =>
      rw [hd] at hr
      simp only [Except.bind, Except.ok.injEq, Prod.mk.injEq] at hr
      rw [← hr.2]
      simp [appendProse]

/-- C9, at the blank comment line `//` with trailing spaces after the paragraph `two`. -/
theorem blank_comment_line_witness :
    stripTrailing (ascii "//  \n") = .ok (ascii "//") ∧
    processLine (ascii "//") 14 (ascii "//  \n") (ascii "two") =
      (dump (ascii "//") [] 14 (ascii "two")).bind
        (fun r => .ok (r.1 ++ [(Sink.out, ascii "//" ++ [10])], [])) :=
  ⟨by decide, (blank_comment_line (ascii "//") 14 (ascii "//  \n") (ascii "two") (by decide)).1⟩

/-- C5 as stated fails: the comment line `//<tab>x<space>` is in the block and its
text starts with a tab, but what is written is the line without its trailing
space, not the bytes of the input line. -/
theorem tab_line_not_verbatim :
    hasPrefix (ascii "//") (ascii "export ") (ascii "//\tx \n") = true ∧
    processLine (ascii "//") 14 (ascii "//\tx \n") [] = .ok ([(Sink.out, ascii "//\tx\n")], []) ∧
    Format (ascii "export ") (ascii "//\tx \n") 16 [] = .ok (ascii "//\tx\n") ∧
    Format (ascii "export ") (ascii "//\tx \n") 16 [] ≠ .ok (ascii "//\tx \n") := by
  decide

/-- C5, amended: a comment line whose text after the prefix starts with a tab or
with two spaces and holds a byte that is not white space is never appended to the
buffer: the pending paragraph is flushed (`dump` on the buffer), then the prefix and
the text without its trailing white space, with a newline, are written to `out`, and
the buffer is empty afterwards.  What is written is the input line itself when the
line ends with a newline that follows a byte that is not white space.  On a buffer
without leading or trailing white space at a width `W ≥ 1` the step returns. -/
theorem indented_comment_line (pfx : List Nat) (target : Int) (text c : List Nat)
    (hstart : (∃ rest, text = 9 :: rest) ∨ (∃ rest, text = 32 :: 32 :: rest))
    (hne : ∃ b ∈ text, isspace b = false) :
    processLine pfx target (pfx ++ text) c =
        (dump pfx [] target c).bind
          (fun r => .ok (r.1 ++ [(Sink.out, pfx ++ trimRight text ++ [10])], [])) ∧
      (∀ W : Nat, 1 ≤ W → noEdgeSpace c = true →
        ∃ t, dump pfx [] (W : Int) c = .ok (t, []) ∧
          processLine pfx (W : Int) (pfx ++ text) c =
            .ok (t ++ [(Sink.out, pfx ++ trimRight text ++ [10])], [])) ∧
      (∀ u b, text = u ++ [10] → u.getLast? = some b → isspace b = false →
        pfx ++ trimRight text ++ [10] = pfx ++ text) := by
  have key : ∀ tg : Int, processLine pfx tg (pfx ++ text) c =
      (dump pfx [] tg c).bind
        (fun r => .ok (r.1 ++ [(Sink.out, pfx ++ trimRight text ++ [10])], [])) := by
    intro tg
    rcases hstart with ⟨rest, rfl⟩ | ⟨rest, rfl⟩
    · have hr : ∃ b ∈ rest, isspace b = false := by
        obtain ⟨b, hb, hf⟩ := hne
        rcases List.mem_cons.mp hb with rfl | hb
        · exact absurd hf (by decide)
        · exact ⟨b, hb, hf⟩
      rw [processLine_tab pfx tg rest c hr, dump_prefixed]
    · have hr : ∃ b ∈ rest, isspace b = false := by
        obtain ⟨b, hb, hf⟩ := hne
        rcases List.mem_cons.mp hb with rfl | hb
        · exact absurd hf (by decide)
        · rcases List.mem_cons.mp hb with rfl | hb
          · exact absurd hf (by decide)
          · exact ⟨b, hb, hf⟩
      rw [processLine_spaces pfx tg rest c hr, dump_prefixed]
  refine ⟨key target, fun W hW hc => ?_, fun u b hu hl hb => ?_⟩
  · obtain ⟨t, ht⟩ := dump_total pfx W hW c hc
    exact ⟨t, ht, by rw [key, ht]; rfl⟩
  · subst hu
    rw [trimRight_append_space u [10] (by simp; decide), trimRight_of_getLast u b hl hb]
    simp

/-- C5 amended, at the tab line of the counterexample after the paragraph `two`. -/
theorem indented_comment_line_witness :
    processLine (ascii "//") 14 (ascii "//" ++ ascii "\tx \n") (ascii "two") =
      (dump (ascii "//") [] 14 (ascii "two")).bind
        (fun r => .ok (r.1 ++ [(Sink.out, ascii "//" ++ trimRight (ascii "\tx \n") ++ [10])], [])) :=
  (indented_comment_line (ascii "//") 14 (ascii "\tx \n") (ascii "two")
    (Or.inl ⟨ascii "x \n", by decide⟩) ⟨120, by decide, by decide⟩).1

theorem appendProse_nil (x : List Nat) : appendProse [] x = x := by
  simp [appendProse]

theorem appendProse_period (b x : List Nat) (hb : b ≠ []) (h : b.getLast? = some 46) :
    appendProse b x = b ++ [32, 32] ++ x := by
  have : 0 < b.length := List.length_pos.mpr hb
  simp [appendProse, h, this]

theorem appendProse_other (b x : List Nat) (hb : b ≠ []) (h : b.getLast? ≠ some 46) :
    appendProse b x = b ++ [32] ++ x := by
  simp [appendProse, h, hb]

/-- C10: a prose line with text `x` leaves the buffer `b` equal to `x` when `b` is
empty, to `b`, two spaces and `x` when `b` ends with a period, and to `b`, one space
and `x` otherwise, and writes nothing.  Two consecutive prose lines with texts `x`
and `c`, read from an empty buffer, whose joined text is shorter than the effective
width are written as the single line `prefix + " " + x + sep + c + "\n"`. -/
theorem prose_line_appended (pfx : List Nat) (target : Int) (line x b : List Nat)
    (h : IsProse pfx line x) :
    processLine pfx target line b = .ok ([], appendProse b x) ∧
      (b = [] → appendProse b x = x) ∧
      (b ≠ [] → b.getLast? = some 46 → appendProse b x = b ++ [32, 32] ++ x) ∧
      (b ≠ [] → b.getLast? ≠ some 46 → appendProse b x = b ++ [32] ++ x) ∧
      (∀ export_ lc c, IsProse pfx lc c → pfx ≠ [] →
        hasPrefix pfx export_ line = true → hasPrefix pfx export_ lc = true →
        atEOF line = false → ((appendProse x c).length : Int) < target →
        formatLoop pfx export_ target [line, lc] [] =
          .ok ([(Sink.out, pfx ++ [32] ++ appendProse x c ++ [10])], [])) := by
  refine ⟨processLine_prose pfx target line x b h, fun hb => by rw [hb, appendProse_nil],
    appendProse_period b x, appendProse_other b x, ?_⟩
  intro export_ lc c hc hp h1 h2 h3 h4
  obtain ⟨W, rfl⟩ : ∃ W : Nat, target = (W : Int) := ⟨target.toNat, by omega⟩
  have hW : 1 ≤ W := by omega
  have hlen : (appendProse x c).length < W := by omega
  have hne : appendProse x c ≠ [] := by
    obtain ⟨_, _, _, _, ⟨b0, hb0, _⟩, _⟩ := h
    have hx : x ≠ [] := by intro hx; subst hx; cases hb0
    by_cases h46 : x.getLast? = some 46
    · rw [appendProse_period x c hx h46]; simp [hx]
    · rw [appendProse_other x c hx h46]; simp [hx]
  have hd : dump pfx [] (W : Int) (appendProse x c) =
      .ok ([(Sink.out, pfx ++ [32] ++ appendProse x c ++ [10])], []) := by
    rw [dump_short pfx _ W hW hlen, if_neg hne]; rfl
  simp only [formatLoop, loopBody, h1, h2, h3, processLine_prose pfx _ line x [] h,
    processLine_prose pfx _ lc c _ hc, appendProse_nil, hasPrefix_nil pfx export_ hp,
    bind, Except.bind, pure, Except.pure, Bool.not_true, Bool.not_false, if_true, hd, copyRest]
  by_cases he : atEOF lc = true <;> simp [he, write]

/-- C10, at the lines `// line1.` and `// line2` of the tests. -/
theorem prose_line_appended_witness :
    IsProse (ascii "//") (ascii "// line1.\n") (ascii "line1.") ∧
    processLine (ascii "//") 14 (ascii "// line1.\n") [] = .ok ([], ascii "line1.") ∧
    formatLoop (ascii "//") (ascii "export ") 20 [ascii "// line1.\n", ascii "// line2\n"] [] =
      .ok ([(Sink.out, ascii "//" ++ [32] ++ appendProse (ascii "line1.") (ascii "line2") ++ [10])],
        []) := by
  have hp1 : IsProse (ascii "//") (ascii "// line1.\n") (ascii "line1.") :=
    ⟨[32], [10], by decide, Or.inr rfl, ⟨108, by decide, by decide, by decide⟩,
      ⟨46, by decide, by decide⟩, by decide⟩
  have hp2 : IsProse (ascii "//") (ascii "// line2\n") (ascii "line2") :=
    ⟨[32], [10], by decide, Or.inr rfl, ⟨108, by decide, by decide, by decide⟩,
      ⟨50, by decide, by decide⟩, by decide⟩
  have h := prose_line_appended (ascii "//") 14 (ascii "// line1.\n") (ascii "line1.") [] hp1
  have h' := prose_line_appended (ascii "//") 20 (ascii "// line1.\n") (ascii "line1.") [] hp1
  exact ⟨hp1, by simpa [appendProse_nil] using h.1,
    h'.2.2.2.2 (ascii "export ") (ascii "// line2\n") (ascii "line2") hp2 (by decide)
      (by decide) (by decide) (by decide) (by decide)⟩

/-! ## Claims on the run of `Format2` -/

theorem hasPrefix_export (pfx export_ tail : List Nat) :
    hasPrefix pfx export_ (pfx ++ export_ ++ tail) = false := by
  simp [hasPrefix, List.append_assoc]

/-- A line that ends the comment block because it does not start with the prefix
is written to the second sink (`cout`), as the text after the block is. -/
theorem plain_line_goes_to_cout :
    Format2 (ascii "export ") [] (ascii "// a\nfoo\nbar") 16 [] =
      .ok ([(Sink.out, ascii "// a\n"), (Sink.cout, ascii "foo\n"),
        (Sink.cout, ascii "bar")], []) := by
  decide

/-- C6 fails on the code: with two sinks, the line `//export b` ends the comment
block and its bytes are written to the first sink (`out`); only the input after it
reaches the second sink (`cout`).  The closure `hasPrefix` puts the line outside
the comment block, but `dump` chooses the sink with `strings.HasPrefix(line, prefix)`
alone, which the line passes. -/
theorem export_line_not_in_cout :
    Format2 (ascii "export ") [] (ascii "// a\n//export b\nfoo") 16 [] =
      .ok ([(Sink.out, ascii "// a\n"), (Sink.out, ascii "//export b\n"),
        (Sink.cout, ascii "foo")], []) ∧
    sinkBytes Sink.out [(Sink.out, ascii "// a\n"), (Sink.out, ascii "//export b\n"),
        (Sink.cout, ascii "foo")] = ascii "// a\n//export b\n" ∧
    sinkBytes Sink.cout [(Sink.out, ascii "// a\n"), (Sink.out, ascii "//export b\n"),
        (Sink.cout, ascii "foo")] = ascii "foo" := by
  decide

/-- C6 fails on the code for every input of its shape: when a line of the input
is the working prefix followed by the export marker (and any tail) and all lines
before it are in the comment block, the run of `Format2` is the run of the loop on
the lines before it alone (which ends with the flush of the buffer), then the write
of that line, as it is, to `out`, then the copy of the input after it to `cout`.
So with two sinks the first one receives what the block gives followed by the bytes
of the line, which is not part of the block, and the second one only the input
after the line. -/
theorem export_line_goes_to_out (export_ c0 r : List Nat) (T : Int) (delim pfx : List Nat)
    (W : Int) (block : List (List Nat)) (tail : List Nat) (rest : List (List Nat))
    (hpfx : pfx = workPrefix ((splitLines r).headD []) delim)
    (hW : W = workTarget ((splitLines r).headD []) T delim)
    (hs : splitLines r = block ++ (pfx ++ export_ ++ tail) :: rest)
    (hb : ∀ l ∈ block, hasPrefix pfx export_ l = true) :
    Format2 export_ c0 r T delim =
        (formatLoop pfx export_ W block c0).bind (fun q =>
          .ok (q.1 ++ [(Sink.out, pfx ++ export_ ++ tail)] ++ write Sink.cout rest.flatten, q.2)) ∧
      ∀ t c, Format2 export_ c0 r T delim = .ok (t, c) →
        ∃ q, formatLoop pfx export_ W block c0 = .ok q ∧
          sinkBytes Sink.out t = sinkBytes Sink.out q.1 ++ (pfx ++ export_ ++ tail) ∧
          sinkBytes Sink.cout t = rest.flatten := by
  have hp : pfx ≠ [] := by rw [hpfx]; exact workPrefix_ne_nil _ _
  have hne : pfx ++ export_ ++ tail ≠ [] := by simp [hp]
  have hlw : lineWrite pfx (pfx ++ export_ ++ tail) = [(Sink.out, pfx ++ export_ ++ tail)] := by
    have : pfx.isPrefixOf (pfx ++ export_ ++ tail) = true := by simp [List.append_assoc]
    simp only [lineWrite, this, if_true, write, if_neg hne]
  have key : Format2 export_ c0 r T delim =
      (formatLoop pfx export_ W block c0).bind (fun q =>
        .ok (q.1 ++ [(Sink.out, pfx ++ export_ ++ tail)] ++ write Sink.cout rest.flatten, q.2)) := by
    simp only [Format2]
    rw [← hpfx, ← hW, hs, formatLoop_frame pfx export_ W hp _ rest
      (hasPrefix_export pfx export_ tail) block c0
      (fun l hl => ⟨hb l hl, splitLines_init r block _ rest hs l hl⟩), hlw]
    rfl
  refine ⟨key, fun t c h => ?_⟩
  rw [key] at h
  obtain ⟨q, hq, h⟩ := bind_eq_ok h
  refine ⟨q, hq, ?_⟩
  have ho := formatLoop_onlyOut pfx export_ W hp block c0 q hb hq
  simp only [Except.ok.injEq, Prod.mk.injEq] at h
  rw [← h.1, sinkBytes_append, sinkBytes_append, sinkBytes_append, sinkBytes_append,
    sinkBytes_cout_onlyOut q.1 ho]
  by_cases hr : rest.flatten = []
  · simp [sinkBytes, write, hr]
  · simp [sinkBytes, write, hr]

/-- C6 on the code, at the input `// a`, `//export b`, `foo`. -/
theorem export_line_goes_to_out_witness :
    Format2 (ascii "export ") [] (ascii "// a\n//export b\nfoo") 16 [] =
      (formatLoop (ascii "//") (ascii "export ") 14 [ascii "// a\n"] []).bind (fun q =>
        .ok (q.1 ++ [(Sink.out, ascii "//" ++ ascii "export " ++ ascii "b\n")] ++
          write Sink.cout [ascii "foo"].flatten, q.2)) :=
  (export_line_goes_to_out (ascii "export ") [] (ascii "// a\n//export b\nfoo") 16 []
    (ascii "//") 14 [ascii "// a\n"] (ascii "b\n") [ascii "foo"]
    (by decide) (by decide) (by decide) (by decide)).1

/-- With a width that is not positive `dump` panics, whatever the buffer: the
first loop leaves `j` negative and the third one reads `comment[j]`. -/
theorem dump_nonpos (pfx line : List Nat) (target : Int) (c : List Nat) (h : target ≤ 0) :
    dump pfx line target c = .error .index := by
  have h1 : (c.length : Int) + 1 > target := by omega
  have h2 : ¬ (target - 1 > 0) := by omega
  have h3 : ¬ (target - 1 = 0) := by omega
  have h4 : ¬ (target - 1 = (c.length : Int)) := by omega
  have h5 : (target - 1).toNat = 0 := by omega
  simp only [dump, bind, Except.bind]
  rw [dumpLoop_succ, if_pos h1, if_neg h2]
  simp only [Except.bind, if_neg h3, if_neg h4, h5, trimBack]

theorem processLine_error (pfx : List Nat) (target : Int) (line c : List Nat) (e : Fault)
    (ht : target ≤ 0) (h : processLine pfx target line c = .error e) : e = .index := by
  cases hs : stripTrailing line with
  | error e' =>
    rw [stripTrailing_eq] at hs
    split at hs
    · simp only [processLine, stripTrailing_eq, bind, Except.bind] at h
      rename_i h0
      rw [if_pos h0] at h
      cases h; rfl
    · cases hs
  | ok line1 =>
    rw [processLine_stripped pfx target line c line1 hs] at h
    simp only [dump_nonpos _ _ target c ht] at h
    split at h
    · cases h; rfl
    · split at h
      · cases h; rfl
      · split at h
        · cases h; rfl
        · split at h
          · cases h; rfl
          · split at h
            · cases h; rfl
            · cases h

/-- With an effective width that is not positive every run of the loop panics. -/
theorem formatLoop_nonpos (pfx export_ : List Nat) (target : Int) (ht : target ≤ 0)
    (hp : pfx ≠ []) :
    ∀ (lines : List (List Nat)) (c : List Nat),
      formatLoop pfx export_ target lines c = .error .index := by
  intro lines
  induction lines with
  | nil => intro c; rw [formatLoop_nil pfx export_ target c hp, dump_nonpos _ _ _ _ ht]
  | cons l ls ih =>
    intro c
    rw [formatLoop_cons]
    simp only [loopBody, bind, Except.bind, pure, Except.pure, dump_nonpos _ _ target _ ht]
    split
    · rfl
    · cases hq : processLine pfx target l c with
      | error e => rw [processLine_error pfx target l c e ht hq]
      | ok q =>
        simp only []
        split
        · rfl
        · rw [ih q.2]

/-- With an effective width that is not positive `Format2` panics on every input. -/
theorem Format2_nonpos (export_ c0 r : List Nat) (T : Int) (delim : List Nat)
    (h : workTarget ((splitLines r).headD []) T delim ≤ 0) :
    Format2 export_ c0 r T delim = .error .index :=
  formatLoop_nonpos _ export_ _ h (workPrefix_ne_nil _ _) _ c0

theorem allBytes_append (a b : Trace) : allBytes (a ++ b) = allBytes a ++ allBytes b := by
  simp [allBytes]

theorem allBytes_write (k : Sink) (s : List Nat) : allBytes (write k s) = s := by
  by_cases h : s = [] <;> simp [allBytes, write, h]

theorem allBytes_lineWrite (pfx line : List Nat) : allBytes (lineWrite pfx line) = line := by
  simp only [lineWrite]
  split <;> exact allBytes_write _ _

/-- The frame of a run: with `block` the lines before the first line that is not
in the comment block and `R` the input from that line on, the run is the run of the
loop on `block` alone followed by the write of `R` as it is. -/
theorem Format_frame (export_ r : List Nat) (T : Int) (delim : List Nat) :
    Format export_ r T delim =
      (fun q : Trace × List Nat => allBytes q.1 ++
          ((splitLines r).dropWhile
            (hasPrefix (workPrefix ((splitLines r).headD []) delim) export_)).flatten) <$>
        formatLoop (workPrefix ((splitLines r).headD []) delim) export_
          (workTarget ((splitLines r).headD []) T delim)
          ((splitLines r).takeWhile
            (hasPrefix (workPrefix ((splitLines r).headD []) delim) export_)) [] := by
  simp only [Format, Format2]
  generalize hpfx : workPrefix ((splitLines r).headD []) delim = pfx
  generalize workTarget ((splitLines r).headD []) T delim = W
  have hp : pfx ≠ [] := by rw [← hpfx]; exact workPrefix_ne_nil _ _
  have hsplit := List.takeWhile_append_dropWhile (hasPrefix pfx export_) (splitLines r)
  cases hd : (splitLines r).dropWhile (hasPrefix pfx export_) with
  | nil =>
    rw [hd, List.append_nil] at hsplit
    rw [hsplit]
    cases formatLoop pfx export_ W (splitLines r) [] with
    | error e => rfl
    | ok q => simp [Functor.map, Except.map]
  | cons e rest =>
    have he : hasPrefix pfx export_ e = false := by
      have := List.head_dropWhile_not (hasPrefix pfx export_) (splitLines r) (by rw [hd]; simp)
      simpa [hd] using this
    rw [hd] at hsplit
    have hb : ∀ l ∈ (splitLines r).takeWhile (hasPrefix pfx export_),
        hasPrefix pfx export_ l = true ∧ atEOF l = false := fun l hl =>
      ⟨List.mem_takeWhile_imp hl, splitLines_init r _ e rest hsplit.symm l hl⟩
    conv_lhs => rw [← hsplit]
    rw [formatLoop_frame pfx export_ W hp e rest he _ [] hb]
    cases formatLoop pfx export_ W ((splitLines r).takeWhile (hasPrefix pfx export_)) [] with
    | error e => rfl
    | ok q =>
      simp [Functor.map, Except.map, Except.bind, allBytes_append, allBytes_lineWrite,
        copyRest, allBytes_write]

/-- With a first line that is not in the comment block and an effective width of
at least 1, the output is the input. -/
theorem Format_no_comment (export_ r : List Nat) (T : Int) (delim : List Nat) (W : Nat)
    (hW : 1 ≤ W) (hT : workTarget ((splitLines r).headD []) T delim = (W : Int))
    (h : hasPrefix (workPrefix ((splitLines r).headD []) delim) export_
      ((splitLines r).headD []) = false) :
    Format export_ r T delim = .ok r := by
  rw [Format_frame, hT]
  generalize hpfx : workPrefix ((splitLines r).headD []) delim = pfx at h
  have hp : pfx ≠ [] := by rw [← hpfx]; exact workPrefix_ne_nil _ _
  cases hs : splitLines r with
  | nil =>
    have hr : r = [] := by rw [← splitLines_flatten r, hs]; rfl
    simp only [List.takeWhile_nil, List.dropWhile_nil]
    rw [formatLoop_nil pfx export_ _ [] hp, dump_short pfx [] W hW (by simp; omega)]
    simp [Functor.map, Except.map, allBytes, hr]
  | cons l ls =>
    rw [hs] at h
    simp only [List.headD_cons] at h
    simp only [List.takeWhile_cons, List.dropWhile_cons, h, Bool.false_eq_true, if_false]
    rw [formatLoop_nil pfx export_ _ [] hp, dump_short pfx [] W hW (by simp; omega)]
    have hr := splitLines_flatten r
    rw [hs] at hr
    simp [Functor.map, Except.map, allBytes, ← hr]

/-- C2 fails on the code: the effective width is 14, the comment block is the
first line, and the run panics (index out of range in `dump`) instead of writing an
output that ends with the line `rest`. -/
theorem Format_frame_panics :
    workTarget (ascii "//\r aaaaaaaaaaaaa\n") 16 (ascii "//") = 14 ∧
    (splitLines (ascii "//\r aaaaaaaaaaaaa\nrest\n")).dropWhile
      (hasPrefix (ascii "//") (ascii "export ")) = [ascii "rest\n"] ∧
    Format (ascii "export ") (ascii "//\r aaaaaaaaaaaaa\nrest\n") 16 (ascii "//") =
      Except.error Fault.index := by
  refine ⟨by decide, by decide, by decide⟩

/-- C7 fails on the code: `Format2` panics with an index out of range when the
effective width is not positive (a comment behind two tabs at target 16, or the
empty input at target 0), and also at a positive width when the text of a comment
line starts with a carriage return. -/
theorem Format2_panics :
    Format2 (ascii "export ") [] (ascii "\t\t// a\n") 16 (ascii "//") =
      Except.error Fault.index ∧
    Format2 (ascii "export ") [] [] 0 [] = Except.error Fault.index ∧
    Format2 (ascii "export ") [] (ascii "//\r aaaaaaaaaaaaa\n") 16 (ascii "//") =
      Except.error Fault.index := by
  refine ⟨by decide, by decide, by decide⟩

/-- C8 fails on the code: when only the final flush of the second sink fails
(`err3`), the deferred function assigns `err2`, which is nil, and `Format2` returns
nil. -/
theorem deferred_flush_error_lost {ε : Type} (e : ε) :
    deferredErr (none : Option ε) none none (some e) = none := by
  rfl

/-! ## Wrapping what was wrapped -/

theorem wsAt_append_left (a b : List Nat) (i : Nat) (h : i < a.length) :
    wsAt (a ++ b) i = wsAt a i := by
  simp [wsAt, List.getElem?_append_left h]

theorem wsAt_append_right (a b : List Nat) (i : Nat) (h : a.length ≤ i) :
    wsAt (a ++ b) i = wsAt b (i - a.length) := by
  simp [wsAt, List.getElem?_append_right h]

theorem wsAt_take (p : List Nat) (n i : Nat) (h : i < n) : wsAt (p.take n) i = wsAt p i := by
  simp [wsAt, List.getElem?_take, h]

theorem fw_le (l : List Nat) : fw l ≤ l.length := by
  have := (scanFwd_spec_aux l 0).2.1
  simpa [fw] using this

theorem fw_space (l : List Nat) (h : fw l < l.length) : wsAt l (fw l) = true := by
  have := (scanFwd_spec_aux l 0).2.2.1 (by simpa [fw] using h)
  simpa [fw] using this

theorem fw_word (l : List Nat) (i : Nat) (h : i < fw l) : wsAt l i = false :=
  (scanFwd_spec_aux l 0).2.2.2 i (by simpa [fw] using h)

theorem fw_unique (l : List Nat) (n : Nat) (h1 : n ≤ l.length)
    (h2 : ∀ i, i < n → wsAt l i = false) (h3 : n < l.length → wsAt l n = true) : fw l = n := by
  by_contra hne
  rcases Nat.lt_or_gt_of_ne hne with h | h
  · have := fw_space l (by omega)
    rw [h2 _ h] at this; cases this
  · have := fw_word l n h
    rw [h3 (by have := fw_le l; omega)] at this; cases this

/-- The indices around a break position: `j3` is the last byte of the text before
it and `j4` the first byte of the rest. -/
theorem break_indices (p : List Nat) (W k : Nat) (hW : 1 ≤ W) (hc : noEdgeSpace p = true)
    (hlen : W ≤ p.length) (hk : IsBreak p W k) :
    ∃ j3 j4, j3 < k ∧ k < j4 ∧ j4 < p.length ∧ wsAt p j3 = false ∧ wsAt p j4 = false ∧
      (∀ i, j3 < i → i < j4 → wsAt p i = true) ∧
      trimRight (p.take k) = p.take (j3 + 1) ∧ (p.drop k).dropWhile isspace = p.drop j4 := by
  obtain ⟨j3, j4, h3, h4, h5, h6, h7, h8, _⟩ := dumpLoop_break [] p W k hW hc hlen hk
  exact ⟨j3, j4, h3, h4, h5, h6, h7, h8,
    trimRight_take p j3 k h3 (by omega) h6 (fun i a b => h8 i a (by omega)),
    dropWhile_drop p k j4 (by omega) h5 h7 (fun i a b => h8 i (by omega) b)⟩

/-- What a break position says about the text before the gap and the first word
after it. -/
theorem gap_conditions (p : List Nat) (W k j3 j4 : Nat) (hlen : W ≤ p.length)
    (hk : IsBreak p W k) (h3 : j3 < k) (h4 : k < j4) (h5 : j4 < p.length)
    (h8 : ∀ i, j3 < i → i < j4 → wsAt p i = true) :
    (j3 + 2 ≤ W ∧ W ≤ j4 + fw (p.drop j4)) ∨
      (W ≤ j3 + 1 ∧ ∀ i, 1 ≤ i → i ≤ j3 → wsAt p i = false) := by
  rcases hk.2 with ⟨hk1, hk2, hk3⟩ | ⟨hk1, hk2⟩
  · left
    refine ⟨by omega, ?_⟩
    by_contra hn
    have hf : fw (p.drop j4) < (p.drop j4).length := by simp; omega
    have := fw_space (p.drop j4) hf
    rw [wsAt_drop] at this
    rw [hk3 _ (by omega) (by omega)] at this
    cases this
  · right
    have hj : j3 + 1 = k := by
      by_contra hne
      have a := h8 (j3 + 1) (by omega) (by omega)
      rw [hk2 (j3 + 1) (by omega) (by omega)] at a
      cases a
    exact ⟨by omega, fun i a b => hk2 i (by omega) a⟩

/-- A gap of white space that the width rule selects holds a break position. -/
theorem isBreak_of_gap (p : List Nat) (W j3 j4 : Nat) (hW : 1 ≤ W) (hg : j3 + 1 < j4)
    (h8 : ∀ i, j3 < i → i < j4 → wsAt p i = true)
    (hc : (j3 + 2 ≤ W ∧ W ≤ j4 + fw (p.drop j4)) ∨
      (W ≤ j3 + 1 ∧ ∀ i, 1 ≤ i → i ≤ j3 → wsAt p i = false)) :
    ∃ k, j3 < k ∧ k < j4 ∧ IsBreak p W k := by
  rcases hc with ⟨a, b⟩ | ⟨a, b⟩
  · refine ⟨min (j4 - 1) (W - 1), by omega, by omega, h8 _ (by omega) (by omega),
      Or.inl ⟨by omega, by omega, fun i hi1 hi2 => ?_⟩⟩
    have hi : j4 ≤ i := by omega
    have := fw_word (p.drop j4) (i - j4) (by omega)
    rw [wsAt_drop] at this
    rwa [show j4 + (i - j4) = i by omega] at this
  · exact ⟨j3 + 1, by omega, hg, h8 _ (by omega) hg,
      Or.inr ⟨a, fun i hi1 hi2 => b i hi2 (by omega)⟩⟩

theorem sepOf_space (c : List Nat) : ∀ b ∈ sepOf c, b = 32 := by
  intro b hb
  unfold sepOf at hb
  split at hb <;> simp at hb <;> exact hb

theorem sepOf_length (c : List Nat) : 1 ≤ (sepOf c).length ∧ (sepOf c).length ≤ 2 := by
  unfold sepOf; split <;> simp

theorem wsAt_sepOf (c : List Nat) (i : Nat) (h : i < (sepOf c).length) :
    wsAt (sepOf c) i = true := by
  rw [wsAt_eq h]
  have := sepOf_space c _ (List.getElem_mem h)
  rw [this]; rfl

theorem joinSegs_cons (s : List Nat) (segs : List (List Nat)) (h : segs ≠ []) :
    joinSegs (s :: segs) = s ++ sepOf s ++ joinSegs segs := by
  cases segs with
  | nil => exact absurd rfl h
  | cons t rest => rfl

/-- The facts about the text `s`, a separator and a rest `r` glued together. -/
theorem glue_facts (s sep r : List Nat) (hs : s ≠ [])
    (hsl : wsAt s (s.length - 1) = false) (hws : ∀ i, i < sep.length → wsAt sep i = true)
    (hr0 : wsAt r 0 = false) :
    (s ++ sep ++ r).take (s.length - 1 + 1) = s ∧
      (s ++ sep ++ r).drop (s.length + sep.length) = r ∧
      wsAt (s ++ sep ++ r) (s.length - 1) = false ∧
      wsAt (s ++ sep ++ r) (s.length + sep.length) = false ∧
      (∀ i, s.length - 1 < i → i < s.length + sep.length → wsAt (s ++ sep ++ r) i = true) ∧
      (∀ i, i < s.length → wsAt (s ++ sep ++ r) i = wsAt s i) := by
  have hsl0 : 0 < s.length := List.length_pos.mpr hs
  have e1 : s.length - 1 + 1 = s.length := by omega
  refine ⟨?_, ?_, ?_, ?_, ?_, ?_⟩
  · rw [e1, List.append_assoc, List.take_left']
    rfl
  · rw [← List.length_append, List.drop_left']
    rfl
  · rw [List.append_assoc, wsAt_append_left _ _ _ (by omega)]; exact hsl
  · rw [← List.length_append, wsAt_append_right _ _ _ (le_refl _), Nat.sub_self]; exact hr0
  · intro i h1 h2
    rw [List.append_assoc, wsAt_append_right _ _ _ (by omega),
      wsAt_append_left _ _ _ (by omega)]
    exact hws _ (by omega)
  · intro i hi
    rw [List.append_assoc, wsAt_append_left _ _ _ hi]

theorem noEdgeSpace_iff (p : List Nat) :
    noEdgeSpace p = true ↔ wsAt p 0 = false ∧ wsAt p (p.length - 1) = false := by
  simp [noEdgeSpace]

/-! ## Reading back what was written -/

theorem splitLines_cons (b : Nat) (bs : List Nat) :
    splitLines (b :: bs) =
      if b = 10 then [b] :: splitLines bs
      else
        match splitLines bs with
        | [] => [[b]]
        | l :: ls => (b :: l) :: ls := by
  by_cases h : b = 10
  · rw [if_pos h, splitLines, if_pos h]
  · rw [if_neg h, splitLines, if_neg h]

/-- A complete line at the head of the input is read as one line. -/
theorem splitLines_line (a rest : List Nat) (ha : 10 ∉ a) :
    splitLines (a ++ 10 :: rest) = (a ++ [10]) :: splitLines rest := by
  induction a with
  | nil => simp [splitLines]
  | cons b a ih =>
    have hb : b ≠ 10 := fun h => ha (by simp [h])
    have ha' : 10 ∉ a := fun h => ha (List.mem_cons_of_mem _ h)
    rw [List.cons_append, splitLines_cons, if_neg hb, ih ha']
    rfl

theorem splitLines_no_newline (l : List Nat) (hl : l ≠ []) (h : 10 ∉ l) : splitLines l = [l] := by
  induction l with
  | nil => exact absurd rfl hl
  | cons b a ih =>
    have hb : b ≠ 10 := fun h' => h (by simp [h'])
    have ha' : 10 ∉ a := fun h' => h (List.mem_cons_of_mem _ h')
    by_cases ha : a = []
    · subst ha; simp [splitLines, hb]
    · rw [splitLines_cons, if_neg hb, ih ha ha']

theorem atEOF_false_iff (l : List Nat) : atEOF l = false ↔ ∃ a, l = a ++ [10] := by
  constructor
  · intro h
    induction l using List.reverseRecOn with
    | nil => simp [atEOF] at h
    | append_singleton a b _ =>
      simp [atEOF] at h
      exact ⟨a, by rw [h]⟩
  · rintro ⟨a, rfl⟩
    simp [atEOF]

theorem splitLines_single (l : List Nat) (h : properLine l) : splitLines l = [l] := by
  obtain ⟨h1, h2⟩ := h
  by_cases he : atEOF l = false
  · obtain ⟨a, rfl⟩ := (atEOF_false_iff l).mp he
    simp only [List.dropLast_concat] at h2
    have := splitLines_line a [] h2
    simpa [splitLines] using this
  · apply splitLines_no_newline l h1
    intro hm
    apply he
    induction l using List.reverseRecOn with
    | nil => exact absurd rfl h1
    | append_singleton a b _ =>
      simp only [List.dropLast_concat] at h2
      rcases List.mem_append.mp hm with hm | hm
      · exact absurd hm h2
      · simp at hm; subst hm; simp [atEOF]

/-- Lines as `ReadString` returns them are read back as the same lines. -/
theorem splitLines_lines (xs : List (List Nat)) (h1 : ∀ l ∈ xs, properLine l)
    (h2 : ∀ l ∈ xs.dropLast, atEOF l = false) : splitLines xs.flatten = xs := by
  induction xs with
  | nil => rfl
  | cons l rest ih =>
    by_cases hr : rest = []
    · subst hr
      simpa using splitLines_single l (h1 l (List.mem_cons_self _ _))
    · obtain ⟨y, ys, rfl⟩ := List.exists_cons_of_ne_nil hr
      rw [List.dropLast_cons₂] at h2
      obtain ⟨a, rfl⟩ := (atEOF_false_iff l).mp (h2 l (List.mem_cons_self _ _))
      have hp := (h1 _ (List.mem_cons_self _ _)).2
      simp only [List.dropLast_concat] at hp
      have := ih (fun l' hl' => h1 l' (List.mem_cons_of_mem _ hl'))
        (fun l' hl' => h2 l' (List.mem_cons_of_mem _ hl'))
      rw [List.flatten_cons, List.append_assoc, List.singleton_append,
        splitLines_line a _ hp, this]

theorem splitLines_proper (r : List Nat) : ∀ l ∈ splitLines r, properLine l := by
  induction r with
  | nil => intro l hl; simp [splitLines] at hl
  | cons b bs ih =>
    by_cases hb : b = 10
    · simp only [splitLines, hb, if_true]
      intro l hl
      rcases List.mem_cons.mp hl with rfl | hl
      · exact ⟨by simp, by simp⟩
      · exact ih l hl
    · simp only [splitLines, hb, if_false]
      cases hs : splitLines bs with
      | nil =>
        intro l hl
        simp at hl; subst hl
        exact ⟨by simp, by simp⟩
      | cons x xs =>
        rw [hs] at ih
        intro l hl
        simp only [] at hl
        rcases List.mem_cons.mp hl with rfl | hl
        · obtain ⟨p1, p2⟩ := ih x (List.mem_cons_self _ _)
          refine ⟨by simp, ?_⟩
          obtain ⟨y, ys, rfl⟩ := List.exists_cons_of_ne_nil p1
          rw [List.dropLast_cons₂]
          intro hm
          rcases List.mem_cons.mp hm with h | h
          · exact hb h.symm
          · exact p2 h
        · exact ih l (List.mem_cons_of_mem _ hl)

/-- The trailing white space of a line holds its newline. -/
theorem trimRight_no_newline (l : List Nat) (h : 10 ∉ l.dropLast) : 10 ∉ trimRight l := by
  induction l using List.reverseRecOn with
  | nil => simp [trimRight]
  | append_singleton a b _ =>
    simp only [List.dropLast_concat] at h
    rw [trimRight_concat]
    split
    · exact fun hm => h (mem_of_mem_trimRight hm)
    · rename_i hb
      intro hm
      rcases List.mem_append.mp hm with hm | hm
      · exact h hm
      · simp at hm; subst hm; exact hb (by decide)

/-- `dump` writes the texts of a wrapping of the buffer, one line each. -/
theorem dump_of_wrapped (pfx : List Nat) (W : Nat) (hW : 1 ≤ W) {p : List Nat}
    {segs : List (List Nat)} (h : Wrapped W p segs) (hc : noEdgeSpace p = true) :
    dump pfx [] (W : Int) p = .ok (segs.map fun s => (Sink.out, textLine pfx s), []) := by
  induction h with
  | empty => rw [dump_short pfx [] W hW (by simp; omega)]; rfl
  | whole p hp hw =>
    by_cases hlen : p.length < W
    · rw [dump_short pfx p W hW hlen, if_neg hp]; rfl
    · rcases hw with hw | hw
      · exact absurd hw hlen
      · rw [dump_no_break pfx p W hW (by omega) hw]; rfl
  | brk p k segs hlen hk _ ih =>
    rw [dump_break pfx p W k hW hc hlen hk, ih (rest_after_break p W k hc hk).1]
    rfl

theorem wrapped_nil (W : Nat) (hW : 1 ≤ W) {segs : List (List Nat)} (h : Wrapped W [] segs) :
    segs = [] := by
  cases h with
  | empty => rfl
  | whole _ hp _ => exact absurd rfl hp
  | brk _ k segs hlen _ _ => simp at hlen; omega

/-- The texts of a wrapping are not empty, have no white space at their ends and
hold bytes of the buffer only. -/
theorem wrapped_segs (W : Nat) (hW : 1 ≤ W) {p : List Nat} {segs : List (List Nat)}
    (h : Wrapped W p segs) (hc : noEdgeSpace p = true) :
    ∀ s ∈ segs, s ≠ [] ∧ noEdgeSpace s = true ∧ ∀ b ∈ s, b ∈ p := by
  induction h with
  | empty => intro s hs; cases hs
  | whole p hp _ =>
    intro s hs
    rw [List.mem_singleton] at hs
    subst hs
    exact ⟨hp, hc, fun b hb => hb⟩
  | brk p k segs hlen hk _ ih =>
    obtain ⟨j3, j4, h3, h4, h5, h6, h7, h8, e1, e2⟩ := break_indices p W k hW hc hlen hk
    intro s hs
    rcases List.mem_cons.mp hs with rfl | hs
    · rw [e1]
      have hl : (p.take (j3 + 1)).length = j3 + 1 := by simp; omega
      refine ⟨by intro h0; rw [h0] at hl; simp at hl, ?_, fun b hb => List.mem_of_mem_take hb⟩
      rw [noEdgeSpace_iff, hl, Nat.add_sub_cancel, wsAt_take _ _ _ (by omega),
        wsAt_take _ _ _ (by omega)]
      exact ⟨noEdgeSpace_head hc, h6⟩
    · obtain ⟨a, b, c⟩ := ih (rest_after_break p W k hc hk).1 s hs
      exact ⟨a, b, fun x hx => by
        have := c x hx
        rw [e2] at this
        exact List.mem_of_mem_drop this⟩

theorem appendProse_eq (c x : List Nat) (hc : c ≠ []) : appendProse c x = c ++ sepOf c ++ x := by
  have hl : 0 < c.length := List.length_pos.mpr hc
  by_cases h : c.getLast? = some 46
  · simp [appendProse, sepOf, h, hl]
  · simp [appendProse, sepOf, h, hc]

theorem appendProse_nil_left (x : List Nat) : appendProse [] x = x := by
  simp [appendProse]

theorem sepOf_append (c x : List Nat) (hx : x ≠ []) : sepOf (c ++ x) = sepOf x := by
  simp [sepOf, List.getLast?_append_of_ne_nil _ hx]

theorem appendProse_ne_nil (c x : List Nat) (hx : x ≠ []) : appendProse c x ≠ [] := by
  by_cases hc : c = []
  · subst hc; rw [appendProse_nil_left]; exact hx
  · rw [appendProse_eq c x hc]; simp [hx]

/-- Reading the texts `segs` one after the other from the buffer `c` gives `c`
followed by their join. -/
theorem foldl_appendProse (segs : List (List Nat)) (hs : ∀ s ∈ segs, s ≠ []) (hne : segs ≠ [])
    (c : List Nat) : segs.foldl appendProse c = appendProse c (joinSegs segs) := by
  induction segs generalizing c with
  | nil => exact absurd rfl hne
  | cons s rest ih =>
    have hsne : s ≠ [] := hs s (List.mem_cons_self _ _)
    by_cases hr : rest = []
    · subst hr; rfl
    · rw [List.foldl_cons, ih (fun s' hs' => hs s' (List.mem_cons_of_mem _ hs')) hr,
        joinSegs_cons s rest hr, appendProse_eq _ _ (appendProse_ne_nil c s hsne)]
      by_cases hc : c = []
      · subst hc
        rw [appendProse_nil_left, appendProse_nil_left]
      · rw [appendProse_eq c s hc, appendProse_eq c _ hc, sepOf_append _ _ hsne]
        simp [List.append_assoc]

theorem foldl_appendProse_nil (segs : List (List Nat)) (hs : ∀ s ∈ segs, s ≠ []) :
    segs.foldl appendProse [] = joinSegs segs := by
  by_cases hne : segs = []
  · subst hne; rfl
  · rw [foldl_appendProse segs hs hne, appendProse_nil_left]

theorem head_of_wsAt_zero (s : List Nat) (hs : s ≠ []) (h : wsAt s 0 = false) :
    ∃ b, s.head? = some b ∧ isspace b = false := by
  cases s with
  | nil => exact absurd rfl hs
  | cons b l => exact ⟨b, rfl, by simpa [wsAt] using h⟩

theorem last_of_wsAt (s : List Nat) (hs : s ≠ []) (h : wsAt s (s.length - 1) = false) :
    ∃ b, s.getLast? = some b ∧ isspace b = false := by
  have hl : s.length - 1 < s.length := by
    have := List.length_pos.mpr hs; omega
  refine ⟨s[s.length - 1], ?_, by rw [← wsAt_eq hl]; exact h⟩
  rw [List.getLast?_eq_getElem?, List.getElem?_eq_getElem hl]

/-- A written paragraph line is a prose line with the text it was written for. -/
theorem isProse_textLine (pfx s : List Nat) (hs : s ≠ []) (hc : noEdgeSpace s = true) :
    IsProse pfx (textLine pfx s) s := by
  obtain ⟨h0, hl⟩ := (noEdgeSpace_iff s).mp hc
  obtain ⟨b, hb, hbs⟩ := head_of_wsAt_zero s hs h0
  refine ⟨[32], [10], rfl, Or.inr rfl, ⟨b, hb, ?_, ?_⟩, last_of_wsAt s hs hl, by simp; decide⟩
  · intro h; rw [h] at hbs; cases hbs
  · intro h; rw [h] at hbs; cases hbs

theorem allBytes_map_textLine (pfx : List Nat) (segs : List (List Nat)) :
    allBytes (segs.map fun s => (Sink.out, textLine pfx s)) =
      (segs.map (textLine pfx)).flatten := by
  simp [allBytes, Function.comp_def]

theorem trimRight_last (l : List Nat) (h : trimRight l ≠ []) :
    wsAt (trimRight l) ((trimRight l).length - 1) = false := by
  induction l using List.reverseRecOn with
  | nil => exact absurd rfl h
  | append_singleton a b ih =>
    rw [trimRight_concat] at h ⊢
    by_cases hb : isspace b = true
    · rw [if_pos hb] at h ⊢; exact ih h
    · rw [if_neg hb]
      rw [wsAt_append_right _ _ _ (by simp)]
      simpa [wsAt] using hb

theorem wsAt_last_drop (l : List Nat) (n : Nat) (h : n < l.length) :
    wsAt (l.drop n) ((l.drop n).length - 1) = wsAt l (l.length - 1) := by
  rw [wsAt_drop, List.length_drop]
  congr 1
  omega

theorem trimRight_idem (l : List Nat) : trimRight (trimRight l) = trimRight l := by
  by_cases h : trimRight l = []
  · rw [h]; rfl
  · have hl := trimRight_last l h
    obtain ⟨b, hb, hbs⟩ := last_of_wsAt _ h hl
    exact trimRight_of_getLast _ b hb hbs

/-- A prose line: its text is appended to the buffer. -/
theorem proseText_some (pfx line x : List Nat) (h : proseText pfx line = some x)
    (target : Int) (buf : List Nat) :
    processLine pfx target line buf = .ok ([], appendProse buf x) ∧ x ≠ [] ∧
      wsAt x (x.length - 1) = false ∧ ∀ b ∈ x, b ∈ trimRight line := by
  unfold proseText at h
  simp only [] at h
  by_cases h1 : trimRight line = pfx
  · rw [if_pos h1] at h; cases h
  · rw [if_neg h1] at h
    cases hg : (trimRight line)[pfx.length]? with
    | none => rw [hg] at h; cases h
    | some b =>
      rw [hg] at h
      simp only [] at h
      have hlt : pfx.length < (trimRight line).length := by
        by_contra hn
        rw [List.getElem?_eq_none (by omega)] at hg; cases hg
      have hne : trimRight line ≠ [] := by
        intro h0; rw [h0] at hlt; simp at hlt
      have hs : stripTrailing line = .ok (trimRight line) := by
        rw [stripTrailing_eq, if_neg hne]
      have hlast := trimRight_last line hne
      rw [processLine_stripped pfx target line buf _ hs, if_neg h1, hg]
      simp only []
      by_cases hb : b = 32
      · rw [if_pos hb] at h ⊢
        cases hl2 : (trimRight line).drop (pfx.length + 1) with
        | nil => rw [hl2] at h; cases h
        | cons a rest =>
          rw [hl2] at h
          simp only [] at h ⊢
          by_cases ha : a = 9 ∨ a = 32
          · rw [if_pos ha] at h; cases h
          · rw [if_neg ha] at h
            simp only [Option.some.injEq] at h
            have h9 : ¬ a = 9 := fun e => ha (Or.inl e)
            have h32 : ¬ a = 32 := fun e => ha (Or.inr e)
            rw [if_neg h9, if_neg h32, h]
            have hlen : pfx.length + 1 < (trimRight line).length := by
              by_contra hn
              rw [List.drop_eq_nil_of_le (by omega)] at hl2; cases hl2
            refine ⟨rfl, by rw [← h]; simp, ?_, fun y hy => ?_⟩
            · rw [← h, ← hl2, wsAt_last_drop _ _ hlen]; exact hlast
            · rw [← h, ← hl2] at hy; exact List.mem_of_mem_drop hy
      · rw [if_neg hb] at h ⊢
        cases hl2 : (trimRight line).drop pfx.length with
        | nil => rw [hl2] at h; cases h
        | cons a rest =>
          rw [hl2] at h
          simp only [] at h ⊢
          by_cases ha : a = 9 ∨ a = 32
          · rw [if_pos ha] at h; cases h
          · rw [if_neg ha] at h
            simp only [Option.some.injEq] at h
            have h9 : ¬ a = 9 := fun e => ha (Or.inl e)
            have h32 : ¬ a = 32 := fun e => ha (Or.inr e)
            rw [if_neg h9, if_neg h32, h]
            refine ⟨rfl, by rw [← h]; simp, ?_, fun y hy => ?_⟩
            · rw [← h, ← hl2, wsAt_last_drop _ _ hlt]; exact hlast
            · rw [← h, ← hl2] at hy; exact List.mem_of_mem_drop hy

theorem stableLine_of (pfx body : List Nat) (hp10 : 10 ∉ pfx) (hb10 : 10 ∉ body)
    (hproc : ∀ (buf : List Nat) (tg : Int), processLine pfx tg (pfx ++ body ++ [10]) buf =
      dump pfx (pfx ++ body ++ [10]) tg buf) :
    StableLine pfx (pfx ++ body ++ [10]) := by
  refine ⟨(atEOF_false_iff _).mpr ⟨_, rfl⟩, fun rest => ?_, ⟨body ++ [10], by simp⟩,
    fun buf tg => by rw [hproc, dump_prefixed]⟩
  · have h10 : 10 ∉ pfx ++ body := by simp [hp10, hb10]
    have := splitLines_line (pfx ++ body) rest h10
    simpa [List.append_assoc] using this

/-- A line of the comment block that is not a prose line is written on its own,
after the flush, as a line that is read back the same way. -/
theorem proseText_none (pfx line : List Nat) (hp10 : 10 ∉ pfx) (hl : properLine line)
    (h : proseText pfx line = none) (target : Int) (buf : List Nat) (q : Trace × List Nat)
    (hq : processLine pfx target line buf = .ok q) :
    ∃ L, StableLine pfx L ∧
      processLine pfx target line buf =
        (dump pfx [] target buf).bind fun r => .ok (r.1 ++ [(Sink.out, L)], []) := by
  have hne : trimRight line ≠ [] := by
    intro h0
    simp [processLine, stripTrailing_eq, h0, bind, Except.bind] at hq
  have hs : stripTrailing line = .ok (trimRight line) := by
    rw [stripTrailing_eq, if_neg hne]
  have hlast := trimRight_last line hne
  have h10 := trimRight_no_newline line hl.2
  rw [processLine_stripped pfx target line buf _ hs] at hq ⊢
  unfold proseText at h
  simp only [] at h
  by_cases h1 : trimRight line = pfx
  · rw [if_pos h1]
    refine ⟨pfx ++ [] ++ [10], stableLine_of pfx [] hp10 (by simp)
      (fun b tg => ?_), ?_⟩
    · have hs' : stripTrailing (pfx ++ [] ++ [10]) = .ok pfx := by
        have : trimRight (pfx ++ [] ++ [10]) = pfx := by
          rw [List.append_nil, trimRight_append_space pfx [10] (by simp; decide), ← h1,
            trimRight_idem]
        rw [stripTrailing_eq, this, if_neg (by rw [← h1]; exact hne)]
      rw [processLine_stripped pfx tg _ b pfx hs', if_pos rfl]
      simp
    · rw [h1]
      have := dump_prefixed pfx [] target buf
      simpa using this
  · rw [if_neg h1] at h hq ⊢
    cases hg : (trimRight line)[pfx.length]? with
    | none => rw [hg] at hq; cases hq
    | some b =>
      rw [hg] at h hq
      simp only [] at h hq ⊢
      have hlt : pfx.length < (trimRight line).length := by
        by_contra hn
        rw [List.getElem?_eq_none (by omega)] at hg; cases hg
      generalize hl2 : (if b = 32 then (trimRight line).drop (pfx.length + 1)
        else (trimRight line).drop pfx.length) = line2 at h hq ⊢
      have hsub : ∀ y ∈ line2, y ∈ trimRight line := by
        intro y hy
        rw [← hl2] at hy
        split at hy <;> exact List.mem_of_mem_drop hy
      cases line2 with
      | nil => cases hq
      | cons a rest =>
        simp only [] at h hq ⊢
        have hl2last : wsAt (a :: rest) ((a :: rest).length - 1) = false := by
          rw [← hl2]
          split
          · have hlen : pfx.length + 1 < (trimRight line).length := by
              by_contra hn
              rw [List.drop_eq_nil_of_le (by omega)] at hl2
              rename_i hb
              rw [if_pos hb] at hl2
              cases hl2
            rw [wsAt_last_drop _ _ hlen]; exact hlast
          · rw [wsAt_last_drop _ _ hlt]; exact hlast
        obtain ⟨bl, hbl, hbls⟩ := last_of_wsAt (a :: rest) (by simp) hl2last
        have h210 : 10 ∉ a :: rest := fun hm => h10 (hsub 10 hm)
        by_cases ha9 : a = 9
        · subst ha9
          rw [if_pos rfl]
          have hrest : ∃ y ∈ rest ++ [10], isspace y = false := by
            cases rest with
            | nil => simp at hbl; subst hbl; exact absurd hbls (by decide)
            | cons r0 rs =>
              refine ⟨bl, ?_, hbls⟩
              rw [List.getLast?_cons_cons] at hbl
              exact List.mem_append_left _ (List.mem_of_getLast?_eq_some hbl)
          refine ⟨pfx ++ (9 :: rest) ++ [10], stableLine_of pfx (9 :: rest) hp10 h210 (fun b' tg => ?_), by rw [dump_prefixed]⟩
          have e : pfx ++ (9 :: rest) ++ [10] = pfx ++ 9 :: (rest ++ [10]) := by simp
          have : trimRight (9 :: (rest ++ [10])) = 9 :: rest := by
            have := trimRight_append_space (9 :: rest) [10] (by simp; decide)
            rw [trimRight_of_getLast _ bl hbl hbls] at this
            simpa using this
          rw [e, processLine_tab pfx tg (rest ++ [10]) b' hrest, this]
          simp
        · rw [if_neg ha9] at hq ⊢
          have ha32 : a = 32 := by
            by_contra hn
            rw [if_neg (by rintro (e | e); exact ha9 e; exact hn e)] at h
            cases h
          subst ha32
          rw [if_pos rfl]
          have hrest : ∃ y ∈ rest ++ [10], isspace y = false := by
            cases rest with
            | nil => simp at hbl; subst hbl; exact absurd hbls (by decide)
            | cons r0 rs =>
              refine ⟨bl, ?_, hbls⟩
              rw [List.getLast?_cons_cons] at hbl
              exact List.mem_append_left _ (List.mem_of_getLast?_eq_some hbl)
          have hb10 : 10 ∉ 32 :: 32 :: rest := by
            intro hm
            rcases List.mem_cons.mp hm with e | hm
            · cases e
            · exact h210 hm
          have e0 : pfx ++ [32] ++ 32 :: rest ++ [10] = pfx ++ (32 :: 32 :: rest) ++ [10] := by
            simp
          rw [e0]
          refine ⟨pfx ++ (32 :: 32 :: rest) ++ [10],
            stableLine_of pfx (32 :: 32 :: rest) hp10 hb10 (fun b' tg => ?_),
            by rw [dump_prefixed]⟩
          have e : pfx ++ (32 :: 32 :: rest) ++ [10] = pfx ++ 32 :: 32 :: (rest ++ [10]) := by
            simp
          have : trimRight (32 :: 32 :: (rest ++ [10])) = 32 :: 32 :: rest := by
            have := trimRight_append_space (32 :: 32 :: rest) [10] (by simp; decide)
            have hbl' : (32 :: 32 :: rest).getLast? = some bl := by
              rw [List.getLast?_cons_cons]; exact hbl
            rw [trimRight_of_getLast _ bl hbl' hbls] at this
            simpa using this
          rw [e, processLine_spaces pfx tg (rest ++ [10]) b' hrest, this]
          simp

/-- The loop on a line of the comment block: the body, then the rest of the loop,
which is the flush alone when the line is the last one read. -/
theorem formatLoop_block_line (pfx export_ : List Nat) (target : Int) (hp : pfx ≠ [])
    (line : List Nat) (rest : List (List Nat)) (buf : List Nat)
    (h1 : hasPrefix pfx export_ line = true) :
    formatLoop pfx export_ target (line :: rest) buf =
      (processLine pfx target line buf).bind fun q =>
        (formatLoop pfx export_ target (if atEOF line = true then [] else rest) q.2).bind
          fun r => .ok (q.1 ++ r.1, r.2) := by
  by_cases he : atEOF line = true
  · rw [if_pos he, formatLoop_cons]
    simp only [loopBody, h1, he, Bool.not_true, bind, Except.bind, pure, Except.pure,
      Bool.false_eq_true, if_false, if_true]
    cases processLine pfx target line buf with
    | error e => rfl
    | ok q =>
      simp only []
      rw [formatLoop_nil pfx export_ target q.2 hp]
  · have he' : atEOF line = false := by simpa using he
    rw [if_neg he, formatLoop_in_block pfx export_ target line rest buf h1 he']

theorem countLead_append (c x : Nat) (ind r : List Nat) (hx : x ≠ c) :
    countLead c (ind ++ x :: r) = countLead c ind := by
  induction ind with
  | nil => simp [countLead, hx]
  | cons b ind ih =>
    by_cases hb : b = c
    · simp [countLead, hb, ih]
    · simp [countLead, hb]

/-- The indentation measured on the first line does not depend on what follows the
first byte that is neither space nor tab. -/
theorem lead_indep (ind : List Nat) (x : Nat) (r1 r2 : List Nat) (T : Int) (h32 : x ≠ 32)
    (h9 : x ≠ 9) :
    leadIndex (ind ++ x :: r1) = leadIndex (ind ++ x :: r2) ∧
      leadTarget (ind ++ x :: r1) T = leadTarget (ind ++ x :: r2) T := by
  cases ind with
  | nil => simp [leadIndex, leadTarget, h32, h9]
  | cons b ind =>
    have e1 := countLead_append 32 x (b :: ind) r1 h32
    have e2 := countLead_append 32 x (b :: ind) r2 h32
    have e3 := countLead_append 9 x (b :: ind) r1 h9
    have e4 := countLead_append 9 x (b :: ind) r2 h9
    simp only [List.cons_append] at e1 e2 e3 e4
    have hi : leadIndex (b :: ind ++ x :: r1) = leadIndex (b :: ind ++ x :: r2) := by
      simp only [List.cons_append, leadIndex, e1, e2, e3, e4]
    have hc : leadCost (b :: ind ++ x :: r1) = leadCost (b :: ind ++ x :: r2) := by
      simp only [List.cons_append] at hi
      simp only [List.cons_append, leadCost, hi]
    refine ⟨hi, ?_⟩
    rw [leadTarget_eq, leadTarget_eq, hc]

theorem take_countLead (c : Nat) (l : List Nat) : ∀ b ∈ l.take (countLead c l), b = c := by
  induction l with
  | nil => intro b hb; simp [countLead] at hb
  | cons a l ih =>
    intro b hb
    by_cases ha : a = c
    · simp only [countLead, ha, if_true, List.take_succ_cons] at hb
      rcases List.mem_cons.mp hb with h | h
      · exact h
      · exact ih b h
    · simp [countLead, ha] at hb

/-- The bytes counted as indentation are spaces or tabs. -/
theorem take_leadIndex (line : List Nat) : ∀ b ∈ line.take (leadIndex line), b = 32 ∨ b = 9 := by
  intro b hb
  cases line with
  | nil => simp at hb
  | cons a l =>
    simp only [leadIndex] at hb
    split at hb
    · exact Or.inl (take_countLead 32 _ b hb)
    · split at hb
      · exact Or.inr (take_countLead 9 _ b hb)
      · simp at hb

theorem leadIndex_pos_head (line : List Nat) (h : 0 < leadIndex line) :
    ∃ a l, line = a :: l ∧ (a = 32 ∨ a = 9) := by
  cases line with
  | nil => simp [leadIndex] at h
  | cons a l =>
    refine ⟨a, l, rfl, ?_⟩
    simp only [leadIndex] at h
    by_cases h1 : a = 32
    · exact Or.inl h1
    · by_cases h2 : a = 9
      · exact Or.inr h2
      · simp [h1, h2] at h

theorem ascii_dash_space : ascii "-- " = [45, 45, 32] := by decide
theorem ascii_dash : ascii "--" = [45, 45] := by decide
theorem ascii_slash : ascii "//" = [47, 47] := by decide
theorem ascii_hash : ascii "#" = [35] := by decide

theorem detectDelim_no_space (s delim : List Nat) (h : ∀ b ∈ delim, isspace b = false) :
    ∀ b ∈ detectDelim s delim, isspace b = false := by
  unfold detectDelim
  rw [ascii_dash_space, ascii_dash, ascii_slash, ascii_hash]
  split
  · split
    · decide
    · split
      · decide
      · split <;> decide
  · exact h

/-- The delimiter detected again on a line that starts with the detected
delimiter: the same one, except for `--` not followed by a space. -/
theorem detectDelim_again (s z delim : List Nat)
    (h : (detectDelim s delim).isPrefixOf s = true) :
    detectDelim (detectDelim s delim ++ z) delim = detectDelim s delim ∨
      (detectDelim s delim = [45, 45] ∧
        detectDelim (detectDelim s delim ++ z) delim = [47, 47]) := by
  unfold detectDelim at h ⊢
  rw [ascii_dash_space, ascii_dash, ascii_slash, ascii_hash] at h ⊢
  by_cases hd : delim = []
  · simp only [hd, if_true] at h ⊢
    by_cases h1 : List.isPrefixOf [45, 45, 32] s = true
    · simp only [h1, if_true]
      by_cases h2 : List.isPrefixOf [45, 45, 32] ([45, 45] ++ z) = true
      · left; simp only [h2, if_true]
      · right
        refine ⟨trivial, ?_⟩
        simp only [h2, if_false]
        simp [List.isPrefixOf]
    · simp only [h1, if_false] at h ⊢
      by_cases h2 : List.isPrefixOf [47, 47] s = true
      · left
        simp only [h2, if_true]
        simp [List.isPrefixOf]
      · simp only [h2, if_false] at h ⊢
        by_cases h3 : List.isPrefixOf [35] s = true
        · left
          simp only [h3, if_true]
          simp [List.isPrefixOf]
        · simp only [h3, if_false] at h
          exact absurd h h2
  · left
    simp only [hd, if_false]


/-- The shape of a first line that is in the comment block: indentation, the
delimiter, and the rest. -/
theorem workPrefix_shape (first delim export_ : List Nat)
    (hdelim : ∀ b ∈ delim, isspace b = false)
    (hin : hasPrefix (workPrefix first delim) export_ first = true) :
    ∃ ind d0 d' u, first = ind ++ d0 :: (d' ++ u) ∧ ind.length = leadIndex first ∧
      (∀ b ∈ ind, b = 32 ∨ b = 9) ∧
      detectDelim (first.drop (leadIndex first)) delim = d0 :: d' ∧
      (∀ b ∈ d0 :: d', isspace b = false) ∧
      workPrefix first delim = ind ++ d0 :: d' ∧
      (detectDelim (first.drop (leadIndex first)) delim).isPrefixOf
        (first.drop (leadIndex first)) = true := by
  have hns := detectDelim_no_space (first.drop (leadIndex first)) delim hdelim
  have hne := detectDelim_ne_nil (first.drop (leadIndex first)) delim
  have hA : (detectDelim (first.drop (leadIndex first)) delim).isPrefixOf
      (first.drop (leadIndex first)) = true := by
    by_contra hc
    have hw : workPrefix first delim = detectDelim (first.drop (leadIndex first)) delim := by
      simp only [workPrefix, hc, if_false, Bool.false_eq_true]
    rw [hw] at hin
    have hpre : (detectDelim (first.drop (leadIndex first)) delim).isPrefixOf first = true := by
      simp only [hasPrefix] at hin
      by_contra hq
      simp [hq] at hin
    by_cases hi : leadIndex first = 0
    · rw [hi, List.drop_zero] at hc
      rw [hi, List.drop_zero] at hpre
      exact hc hpre
    · obtain ⟨a, l, hal, ha⟩ := leadIndex_pos_head first (Nat.pos_of_ne_zero hi)
      cases hd : detectDelim (first.drop (leadIndex first)) delim with
      | nil => exact hne hd
      | cons d0 d' =>
        rw [hd, hal] at hpre
        rw [hd] at hns
        simp only [List.isPrefixOf, Bool.and_eq_true, beq_iff_eq] at hpre
        have h0 := hns d0 (List.mem_cons_self _ _)
        rw [hpre.1] at h0
        rcases ha with ha | ha <;> · rw [ha] at h0; exact absurd h0 (by decide)
  cases hd : detectDelim (first.drop (leadIndex first)) delim with
  | nil => exact absurd hd hne
  | cons d0 d' =>
    rw [hd] at hA hns
    obtain ⟨u, hu⟩ := List.isPrefixOf_iff_prefix.mp hA
    refine ⟨first.take (leadIndex first), d0, d', u, ?_, ?_, take_leadIndex first, rfl, hns, ?_, hA⟩
    · conv_lhs => rw [← List.take_append_drop (leadIndex first) first, ← hu]
      simp
    · rw [List.length_take]
      exact Nat.min_eq_left (leadIndex_le first)
    · simp only [workPrefix, hd, hA, if_true]

/-- The prefix and the width that a second run derives from a first line that
starts with the working prefix of the first run: the same ones, or, for `--`
followed by no space, a prefix that the line does not have. -/
theorem rework (first delim export_ z : List Nat) (T : Int)
    (hdelim : ∀ b ∈ delim, isspace b = false)
    (hin : hasPrefix (workPrefix first delim) export_ first = true) :
    (workPrefix (workPrefix first delim ++ z) delim = workPrefix first delim ∧
      workTarget (workPrefix first delim ++ z) T delim = workTarget first T delim) ∨
    hasPrefix (workPrefix (workPrefix first delim ++ z) delim) export_
        (workPrefix first delim ++ z) = false := by
  obtain ⟨ind, d0, d', u, hf, hlen, hind, hd, hns, hw, hA⟩ :=
    workPrefix_shape first delim export_ hdelim hin
  have h0 := hns d0 (List.mem_cons_self _ _)
  have h32 : d0 ≠ 32 := fun h => by rw [h] at h0; exact absurd h0 (by decide)
  have h9 : d0 ≠ 9 := fun h => by rw [h] at h0; exact absurd h0 (by decide)
  have hli := lead_indep ind d0 (d' ++ z) (d' ++ u) T h32 h9
  rw [← hf] at hli
  have hshape : workPrefix first delim ++ z = ind ++ d0 :: (d' ++ z) := by rw [hw]; simp
  have hdrop : (ind ++ d0 :: (d' ++ z)).drop (leadIndex first) = (d0 :: d') ++ z := by
    rw [← hlen]; simp
  have hpre : (d0 :: d').isPrefixOf ((d0 :: d') ++ z) = true :=
    List.isPrefixOf_iff_prefix.mpr ⟨z, rfl⟩
  have htake : (ind ++ d0 :: (d' ++ z)).take (leadIndex first) = ind := by
    rw [← hlen]; simp
  have hT : workTarget first T delim =
      wrapInt (leadTarget first T - ((d0 :: d').length : Nat)) := by
    simp only [workTarget]
    rw [if_pos hA, hd]
  rcases detectDelim_again (first.drop (leadIndex first)) z delim hA with h | ⟨h1, h2⟩
  · left
    rw [hd] at h
    rw [hshape]
    constructor
    · simp only [workPrefix, hli.1, hdrop, h, hpre, if_true, htake]
      exact hw.symm
    · simp only [workTarget, hli.1, hdrop, h, hpre, if_true, hli.2]
      exact hT.symm
  · right
    rw [hd] at h1 h2
    rw [hshape]
    have hnp : List.isPrefixOf [47, 47] (d0 :: d' ++ z) = false := by
      rw [h1]; simp [List.isPrefixOf]
    have hw2 : workPrefix (ind ++ d0 :: (d' ++ z)) delim = [47, 47] := by
      simp only [workPrefix, hli.1, hdrop, h2, hnp, if_false, Bool.false_eq_true]
    rw [hw2]
    have : List.isPrefixOf [47, 47] (ind ++ d0 :: (d' ++ z)) = false := by
      cases ind with
      | nil =>
        have e : d0 = 45 := by injection h1
        simp [List.isPrefixOf, e]
      | cons a l =>
        have ha := hind a (List.mem_cons_self _ _)
        rcases ha with ha | ha <;> simp [List.isPrefixOf, ha]
    simp [hasPrefix, this]

/-! ## The first line: indentation, delimiter, prefix and width -/

theorem takeWhile_eq_countLead (c : Nat) (p : Nat → Bool) (hp : ∀ x, p x = true ↔ x = c)
    (l : List Nat) : l.takeWhile p = List.replicate (countLead c l) c := by
  induction l with
  | nil => simp [countLead]
  | cons b bs ih =>
    by_cases hb : b = c
    · have : p b = true := (hp b).mpr hb
      rw [List.takeWhile_cons, if_pos this, ih]
      simp [countLead, hb, List.replicate_succ]
    · have : ¬ p b = true := fun h => hb ((hp b).mp h)
      simp [List.takeWhile_cons, this, countLead, hb]

theorem take_countLead_eq (c : Nat) (l : List Nat) :
    l.take (countLead c l) = List.replicate (countLead c l) c := by
  induction l with
  | nil => simp [countLead]
  | cons b bs ih =>
    by_cases hb : b = c
    · simp [countLead, hb, List.replicate_succ, ih]
    · simp [countLead, hb]

/-- The index `i` that `Format2` computes on the first line is the length of the
first run, `line[:i]` is that run, and the cost of the indentation is 1 for each
of its spaces and 8 for each of its tabs. -/
theorem leadIndex_firstRun (line : List Nat) :
    line.take (leadIndex line) = firstRun line ∧
      leadIndex line = (firstRun line).length ∧
      leadCost line = (firstRun line).count 32 + 8 * (firstRun line).count 9 := by
  cases line with
  | nil => simp [leadIndex, leadCost, firstRun]
  | cons b bs =>
    by_cases h32 : b = 32
    · subst h32
      have e : firstRun (32 :: bs) = List.replicate (countLead 32 (32 :: bs)) 32 := by
        unfold firstRun
        exact takeWhile_eq_countLead 32 _ (fun x => by
          simp only [List.head?_cons, isBlank, Bool.and_eq_true, Bool.or_eq_true, beq_iff_eq,
            Option.some.injEq]
          constructor
          · rintro ⟨_, h⟩; exact h.symm
          · intro h; exact ⟨Or.inl h, h.symm⟩) _
      rw [e]
      refine ⟨?_, ?_, ?_⟩
      · simp only [leadIndex, if_true]
        exact take_countLead_eq 32 _
      · simp [leadIndex]
      · simp [leadCost, leadIndex, List.count_replicate]
    · by_cases h9 : b = 9
      · subst h9
        have e : firstRun (9 :: bs) = List.replicate (countLead 9 (9 :: bs)) 9 := by
          unfold firstRun
          exact takeWhile_eq_countLead 9 _ (fun x => by
            simp only [List.head?_cons, isBlank, Bool.and_eq_true, Bool.or_eq_true, beq_iff_eq,
              Option.some.injEq]
            constructor
            · rintro ⟨_, h⟩; exact h.symm
            · intro h; exact ⟨Or.inr h, h.symm⟩) _
        rw [e]
        refine ⟨?_, ?_, ?_⟩
        · simp only [leadIndex, if_true]
          exact take_countLead_eq 9 _
        · simp [leadIndex]
        · simp [leadCost, leadIndex, List.count_replicate]
      · have e : firstRun (b :: bs) = [] := by
          simp [firstRun, isBlank, h32, h9]
        rw [e]
        simp [leadIndex, leadCost, h32, h9]

theorem takeWhile_blank_same (c d : Nat) (hc : isBlank c = true) (hcd : c ≠ d)
    (hbl : ∀ x, isBlank x = true → x = c ∨ x = d) (l : List Nat)
    (h : (l.takeWhile isBlank).count d = 0) :
    l.takeWhile (fun x => isBlank x && (some c == some x)) = l.takeWhile isBlank := by
  induction l with
  | nil => rfl
  | cons x xs ih =>
    by_cases hx : isBlank x = true
    · rw [List.takeWhile_cons, if_pos hx] at h
      rcases hbl x hx with e | e
      · subst e
        rw [List.count_cons_of_ne (Ne.symm hcd)] at h
        rw [List.takeWhile_cons, List.takeWhile_cons, if_pos hx, if_pos (by simp [hx]), ih h]
      · subst e
        simp at h
    · rw [List.takeWhile_cons, List.takeWhile_cons, if_neg hx, if_neg (by simp [hx])]

/-- A leading white space that does not mix spaces and tabs is the first run. -/
theorem firstRun_eq_leadingBlank (line : List Nat)
    (h : (leadingBlank line).count 32 = 0 ∨ (leadingBlank line).count 9 = 0) :
    firstRun line = leadingBlank line := by
  have hbl : ∀ x, isBlank x = true → x = 32 ∨ x = 9 := fun x hx => by
    simpa [isBlank] using hx
  cases line with
  | nil => rfl
  | cons b bs =>
    unfold firstRun leadingBlank at *
    simp only [List.head?_cons]
    by_cases hb : isBlank b = true
    · rw [List.takeWhile_cons, if_pos hb] at h
      rcases hbl b hb with e | e
      · subst e
        have h9 : (List.takeWhile isBlank (32 :: bs)).count 9 = 0 := by
          rcases h with h | h
          · simp at h
          · rw [List.takeWhile_cons, if_pos hb]; exact h
        exact takeWhile_blank_same 32 9 (by decide) (by decide) hbl _ h9
      · subst e
        have h32 : (List.takeWhile isBlank (9 :: bs)).count 32 = 0 := by
          rcases h with h | h
          · rw [List.takeWhile_cons, if_pos hb]; exact h
          · simp at h
        exact takeWhile_blank_same 9 32 (by decide) (by decide)
          (fun x hx => (hbl x hx).symm) _ h32
    · rw [List.takeWhile_cons, List.takeWhile_cons, if_neg hb, if_neg (by simp [hb])]

theorem drop_firstRun_eq_afterBlank (line : List Nat)
    (h : (leadingBlank line).count 32 = 0 ∨ (leadingBlank line).count 9 = 0) :
    line.drop (firstRun line).length = afterBlank line := by
  rw [firstRun_eq_leadingBlank line h]
  unfold leadingBlank afterBlank
  have := List.drop_left (List.takeWhile isBlank line) (List.dropWhile isBlank line)
  rwa [List.takeWhile_append_dropWhile] at this

/-- C11 as stated fails on a first line that mixes spaces and tabs: the text after
the leading white space of the line (a space and a tab) starts with `#`, yet the
delimiter chosen is the default `//`, because only the space is skipped. -/
theorem delimiter_after_mixed_indent :
    afterBlank (ascii " \t# x\n") = ascii "# x\n" ∧
    detectDelim ((ascii " \t# x\n").drop (leadIndex (ascii " \t# x\n"))) [] = ascii "//" ∧
    workPrefix (ascii " \t# x\n") [] = ascii "//" := by
  refine ⟨by decide, by decide, by decide⟩

/-- C11, amended: the delimiter is chosen from the text after the first run of the
first line, the longest prefix of bytes equal to the first byte when that is a
space or a tab.  A supplied delimiter is used unchanged; with no delimiter
supplied the choice is `--` if that text starts with `-- `, else `//` if it starts
with `//`, else `#` if it starts with `#`, else `//`.  When the leading white
space of the line does not mix spaces and tabs, that text is the text after the
leading white space. -/
theorem delimiter_choice (line delim : List Nat) :
    (delim ≠ [] → detectDelim (line.drop (leadIndex line)) delim = delim) ∧
    (delim = [] →
      (ascii "-- " <+: line.drop (firstRun line).length →
        detectDelim (line.drop (leadIndex line)) delim = ascii "--") ∧
      (¬ ascii "-- " <+: line.drop (firstRun line).length →
        ascii "//" <+: line.drop (firstRun line).length →
        detectDelim (line.drop (leadIndex line)) delim = ascii "//") ∧
      (¬ ascii "-- " <+: line.drop (firstRun line).length →
        ¬ ascii "//" <+: line.drop (firstRun line).length →
        ascii "#" <+: line.drop (firstRun line).length →
        detectDelim (line.drop (leadIndex line)) delim = ascii "#") ∧
      (¬ ascii "-- " <+: line.drop (firstRun line).length →
        ¬ ascii "//" <+: line.drop (firstRun line).length →
        ¬ ascii "#" <+: line.drop (firstRun line).length →
        detectDelim (line.drop (leadIndex line)) delim = ascii "//")) ∧
    ((leadingBlank line).count 32 = 0 ∨ (leadingBlank line).count 9 = 0 →
      line.drop (firstRun line).length = afterBlank line) := by
  have hi := (leadIndex_firstRun line).2.1
  rw [← hi]
  refine ⟨?_, ?_, ?_⟩
  · intro h
    simp only [detectDelim, h, if_false]
  · intro h
    subst h
    simp only [detectDelim, if_true, ← List.isPrefixOf_iff_prefix]
    refine ⟨?_, ?_, ?_, ?_⟩
    · intro h1
      rw [if_pos h1]
    · intro h1 h2
      rw [if_neg h1, if_pos h2]
    · intro h1 h2 h3
      rw [if_neg h1, if_neg h2, if_pos h3]
    · intro h1 h2 h3
      rw [if_neg h1, if_neg h2, if_neg h3]
  · intro h
    rw [hi]
    exact drop_firstRun_eq_afterBlank line h

/-- C12 as stated fails on a first line that mixes spaces and tabs: with one space
and one tab before `//` and target 20 the claim gives the width 20 - 1 - 8 - 2 = 9
and the prefix of space, tab and `//`; the code measures the space only, finds no
delimiter after it, and works with the width 19 and the prefix `//`. -/
theorem mixed_indent_width :
    leadingBlank (ascii " \t// x\n") = ascii " \t" ∧
    afterBlank (ascii " \t// x\n") = ascii "// x\n" ∧
    workTarget (ascii " \t// x\n") 20 [] = 19 ∧
    workPrefix (ascii " \t// x\n") [] = ascii "//" := by
  refine ⟨by decide, by decide, by decide, by decide⟩

/-- The subtractions from the target wrap around: with the target
`-9223372036854775805` and the first line `\t// a b` the exact difference
`T - 8 - 2` is below the least `int`, and the effective width of the code is
`9223372036854775801`. -/
theorem width_wraps_around :
    workTarget (ascii "\t// a b\n") (-9223372036854775805) [] = 9223372036854775801 ∧
    (-9223372036854775805 : Int) - 8 - 2 = -9223372036854775815 ∧
    wrapInt (-9223372036854775815) = 9223372036854775801 := by
  decide

/-- C12, amended: with `run` the first run of the first line (the longest prefix
of bytes equal to the first byte when that is a space or a tab), `s` the number of
its spaces, `t` the number of its tabs, `d` the delimiter and `T` the target, a
value of `int`: the effective width is `T - s - 8*t`, reduced by `len(d)` exactly
when the text after `run` starts with `d`, in the 64-bit arithmetic of `int`; it is
that number itself when that number is not below the least `int`.  When the text
after `run` starts with `d` the working prefix is `run` followed by `d`, otherwise
it is `d` alone.  When the leading white space of the line does not mix spaces and
tabs, `run` is the leading white space. -/
theorem width_and_prefix (line delim : List Nat) (T : Int) (hlo : minInt ≤ T)
    (hhi : T ≤ maxInt) :
    workTarget line T delim =
      wrapInt (T - ((firstRun line).count 32 : Nat) - 8 * ((firstRun line).count 9 : Nat) -
        (if (detectDelim (line.drop (firstRun line).length) delim).isPrefixOf
            (line.drop (firstRun line).length) = true
          then ((detectDelim (line.drop (firstRun line).length) delim).length : Int) else 0)) ∧
    (minInt ≤ T - ((firstRun line).count 32 : Nat) - 8 * ((firstRun line).count 9 : Nat) -
        (if (detectDelim (line.drop (firstRun line).length) delim).isPrefixOf
            (line.drop (firstRun line).length) = true
          then ((detectDelim (line.drop (firstRun line).length) delim).length : Int) else 0) →
      workTarget line T delim =
        T - ((firstRun line).count 32 : Nat) - 8 * ((firstRun line).count 9 : Nat) -
          (if (detectDelim (line.drop (firstRun line).length) delim).isPrefixOf
              (line.drop (firstRun line).length) = true
            then ((detectDelim (line.drop (firstRun line).length) delim).length : Int)
            else 0)) ∧
    workPrefix line delim =
      (if (detectDelim (line.drop (firstRun line).length) delim).isPrefixOf
          (line.drop (firstRun line).length) = true
        then firstRun line ++ detectDelim (line.drop (firstRun line).length) delim
        else detectDelim (line.drop (firstRun line).length) delim) ∧
    ((leadingBlank line).count 32 = 0 ∨ (leadingBlank line).count 9 = 0 →
      firstRun line = leadingBlank line ∧
        line.drop (firstRun line).length = afterBlank line) := by
  obtain ⟨h1, h2, h3⟩ := leadIndex_firstRun line
  have hcost : ((widthCost line delim : Nat) : Int) =
      ((firstRun line).count 32 : Nat) + 8 * ((firstRun line).count 9 : Nat) +
        (if (detectDelim (line.drop (firstRun line).length) delim).isPrefixOf
            (line.drop (firstRun line).length) = true
          then ((detectDelim (line.drop (firstRun line).length) delim).length : Int) else 0) := by
    rw [← h2]
    simp only [widthCost, h3]
    split
    · push_cast
      ring
    · push_cast
      ring
  have hw : workTarget line T delim = wrapInt (T - (widthCost line delim : Nat)) := by
    rw [workTarget_eq]
    by_cases h0 : widthCost line delim = 0
    · rw [if_pos h0, h0]
      simp only [Nat.cast_zero, sub_zero]
      exact (wrapInt_of_range hlo hhi).symm
    · rw [if_neg h0]
  have he : ∀ a b c : Int, T - a - b - c = T - (a + b + c) := fun a b c => by ring
  refine ⟨?_, ?_, ?_, ?_⟩
  · rw [hw, hcost, he]
  · intro hge
    rw [hw, hcost, he]
    rw [he] at hge
    refine wrapInt_of_range hge ?_
    have : (0 : Int) ≤ ((widthCost line delim : Nat) : Int) := Int.ofNat_nonneg _
    rw [hcost] at this
    omega
  · rw [← h2, ← h1]
    simp only [workPrefix]
  · intro h
    exact ⟨firstRun_eq_leadingBlank line h, drop_firstRun_eq_afterBlank line h⟩

/-- C12, amended, at the first line `\t\t// x` with target 80: the width is
80 - 16 - 2 and the prefix is the two tabs and `//`. -/
theorem width_and_prefix_witness :
    minInt ≤ 80 ∧ (80 : Int) ≤ maxInt ∧
    workTarget (ascii "\t\t// x\n") 80 [] = 62 ∧
    workPrefix (ascii "\t\t// x\n") [] = ascii "\t\t//" := by
  have h := width_and_prefix (ascii "\t\t// x\n") [] 80 (by decide) (by decide)
  refine ⟨by decide, by decide, ?_, ?_⟩
  · rw [h.2.1 (by decide)]
    decide
  · rw [h.2.2.1]
    decide

/-! ## The two sinks -/

theorem onlyCout_write (s : List Nat) : onlyCout (write Sink.cout s) := by
  intro w hw
  unfold write at hw
  split at hw
  · simp at hw
  · simp at hw; rw [hw]

theorem sinkBytes_out_onlyCout (t : Trace) (h : onlyCout t) : sinkBytes Sink.out t = [] := by
  induction t with
  | nil => rfl
  | cons w t ih =>
    have hw : w.1 = Sink.cout := h w (List.mem_cons_self _ _)
    have ht : onlyCout t := fun x hx => h x (List.mem_cons_of_mem _ hx)
    have := ih ht
    simp only [sinkBytes] at this ⊢
    simp [List.filter_cons, hw, this]

theorem sinkBytes_cout_onlyCout (t : Trace) (h : onlyCout t) :
    sinkBytes Sink.cout t = allBytes t := by
  induction t with
  | nil => rfl
  | cons w t ih =>
    have hw : w.1 = Sink.cout := h w (List.mem_cons_self _ _)
    have ht : onlyCout t := fun x hx => h x (List.mem_cons_of_mem _ hx)
    have := ih ht
    simp only [sinkBytes, allBytes] at this ⊢
    simp [List.filter_cons, hw, this]

theorem allBytes_outThenCout (t : Trace) (h : OutThenCout t) :
    allBytes t = sinkBytes Sink.out t ++ sinkBytes Sink.cout t := by
  obtain ⟨t1, t2, rfl, h1, h2⟩ := h
  rw [sinkBytes_append, sinkBytes_append, sinkBytes_out_onlyOut t1 h1,
    sinkBytes_cout_onlyOut t1 h1, sinkBytes_out_onlyCout t2 h2, sinkBytes_cout_onlyCout t2 h2,
    allBytes_append]
  simp

theorem outThenCout_of_onlyOut {t : Trace} (h : onlyOut t) : OutThenCout t :=
  ⟨t, [], by simp, h, fun _ hw => by simp at hw⟩

theorem outThenCout_append {a t : Trace} (ha : onlyOut a) (h : OutThenCout t) :
    OutThenCout (a ++ t) := by
  obtain ⟨t1, t2, rfl, h1, h2⟩ := h
  exact ⟨a ++ t1, t2, by simp, onlyOut_append ha h1, h2⟩

/-- In a run of the loop all writes to `out` come before the writes to `cout`. -/
theorem formatLoop_outThenCout (pfx export_ : List Nat) (target : Int) (hp : pfx ≠ []) :
    ∀ (lines : List (List Nat)) (c : List Nat) (r : Trace × List Nat),
      formatLoop pfx export_ target lines c = .ok r → OutThenCout r.1 := by
  intro lines
  induction lines with
  | nil =>
    intro c r h
    rw [formatLoop_nil pfx export_ target c hp] at h
    exact outThenCout_of_onlyOut (dump_onlyOut pfx [] target c r (Or.inr rfl) h)
  | cons line rest ih =>
    intro c r h
    by_cases hin : hasPrefix pfx export_ line = true
    · rw [formatLoop_block_line pfx export_ target hp line rest c hin] at h
      obtain ⟨q, hq, h⟩ := bind_eq_ok h
      obtain ⟨r2, hr2, h⟩ := bind_eq_ok h
      injection h with h
      rw [← h]
      have hq1 := processLine_onlyOut pfx target line c q hq
      by_cases he : atEOF line = true
      · rw [if_pos he, formatLoop_nil pfx export_ target _ hp] at hr2
        exact outThenCout_append hq1
          (outThenCout_of_onlyOut (dump_onlyOut pfx [] target _ r2 (Or.inr rfl) hr2))
      · rw [if_neg he] at hr2
        exact outThenCout_append hq1 (ih _ _ hr2)
    · have hin' : hasPrefix pfx export_ line = false := by simpa using hin
      rw [formatLoop_not_in_block pfx export_ target line rest c hin'] at h
      obtain ⟨q, hq, h⟩ := bind_eq_ok h
      injection h with h
      rw [← h]
      have hq1 := dump_onlyOut pfx [] target c q (Or.inr rfl) hq
      show OutThenCout (q.1 ++ lineWrite pfx line ++ copyRest rest)
      by_cases hl : pfx.isPrefixOf line = true
      · refine ⟨q.1 ++ lineWrite pfx line, copyRest rest, rfl, ?_, onlyCout_write _⟩
        apply onlyOut_append hq1
        simp only [lineWrite, hl, if_true]
        exact onlyOut_write _
      · refine ⟨q.1, lineWrite pfx line ++ copyRest rest, by simp, hq1, ?_⟩
        simp only [lineWrite, hl, if_false, Bool.false_eq_true]
        intro w hw
        rcases List.mem_append.mp hw with hw | hw
        · exact onlyCout_write _ w hw
        · exact onlyCout_write _ w hw

/-- C14: the bytes that `Format` writes to its single sink are the bytes that
`Format2` writes to `out` followed by the bytes that it writes to `cout` (both
runs end the same way, by returning or by a panic); in a run of `Format2`, with
any value of the buffer at its start, no write to `out` comes after a write to
`cout`. -/
theorem Format_eq_sinks (export_ r : List Nat) (T : Int) (delim : List Nat) :
    Format export_ r T delim =
        (fun p => sinkBytes Sink.out p.1 ++ sinkBytes Sink.cout p.1) <$>
          Format2 export_ [] r T delim ∧
      ∀ c0 t c, Format2 export_ c0 r T delim = .ok (t, c) →
        ∃ t1 t2, t = t1 ++ t2 ∧ onlyOut t1 ∧ onlyCout t2 := by
  have key : ∀ c0 q, Format2 export_ c0 r T delim = .ok q → OutThenCout q.1 := fun c0 q h =>
    formatLoop_outThenCout _ export_ _ (workPrefix_ne_nil _ _) _ c0 q h
  constructor
  · unfold Format
    cases h : Format2 export_ [] r T delim with
    | error e => rfl
    | ok q =>
      show Except.ok (allBytes q.1) = Except.ok _
      rw [allBytes_outThenCout q.1 (key [] q h)]
  · intro c0 t c h
    exact key c0 (t, c) h

/-! ## The iterations of the loop of `dump` -/

theorem wrapStep_eq (target : Int) (c : List Nat) :
    wrapStep target c =
      if (c.length : Int) + 1 > target then
        (if target - 1 > 0 then (fun n : Nat => (n : Int)) <$> scanBack c (target - 1).toNat
          else .ok (target - 1)).bind fun j1 =>
          if (if j1 = 0 then ((scanFwd (c.drop target.toNat) target.toNat : Nat) : Int) else j1)
              = c.length then .ok none
          else
            (trimBack c (if j1 = 0 then ((scanFwd (c.drop target.toNat) target.toNat : Nat) : Int)
              else j1).toNat).bind fun j3 =>
              (skipFwd (c.drop (j3 + 1)) (j3 + 1)).bind fun j4 => .ok (some (j3, j4))
      else .ok none := by
  rw [wrapStep]
  by_cases h1 : (c.length : Int) + 1 > target
  · rw [if_pos h1, if_pos h1]
    by_cases h2 : target - 1 > 0
    · simp only [h2, if_true]; rfl
    · simp only [h2, if_false]; rfl
  · rw [if_neg h1, if_neg h1]; rfl

/-- The loop of `dump` is the iteration of `wrapStep`. -/
theorem dumpLoop_step (pfx : List Nat) (target : Int) (fuel : Nat) (c : List Nat) :
    dumpLoop pfx target (fuel + 1) c =
      (wrapStep target c).bind fun o =>
        match o with
        | none => .ok ([], c)
        | some (j3, j4) =>
          (dumpLoop pfx target fuel (c.drop j4)).bind fun r =>
            .ok (write Sink.out (pfx ++ [32] ++ c.take (j3 + 1) ++ [10]) ++ r.1, r.2) := by
  rw [dumpLoop_succ, wrapStep_eq]
  by_cases h1 : (c.length : Int) + 1 > target
  · rw [if_pos h1, if_pos h1]
    cases (if target - 1 > 0 then (fun n : Nat => (n : Int)) <$> scanBack c (target - 1).toNat
        else Except.ok (target - 1)) with
    | error e => rfl
    | ok j1 =>
      simp only [Except.bind]
      generalize (if j1 = 0 then ((scanFwd (c.drop target.toNat) target.toNat : Nat) : Int)
        else j1) = j2
      by_cases hj : j2 = c.length
      · rw [if_pos hj, if_pos hj]
      · rw [if_neg hj, if_neg hj]
        cases trimBack c j2.toNat with
        | error e => rfl
        | ok j3 =>
          dsimp only
          cases skipFwd (c.drop (j3 + 1)) (j3 + 1) with
          | error e => rfl
          | ok j4 => rfl
  · rw [if_neg h1, if_neg h1]; rfl

theorem wrapStep_nat (p : List Nat) (W : Nat) (hW : 1 ≤ W) :
    wrapStep (W : Int) p =
      if W ≤ p.length then
        (scanBack p (W - 1)).bind fun j1 =>
          if (if j1 = 0 then scanFwd (p.drop W) W else j1) = p.length then .ok none
          else (trimBack p (if j1 = 0 then scanFwd (p.drop W) W else j1)).bind fun j3 =>
            (skipFwd (p.drop (j3 + 1)) (j3 + 1)).bind fun j4 => .ok (some (j3, j4))
      else .ok none := by
  rw [wrapStep]
  have h1 : ((p.length : Int) + 1 > (W : Int)) ↔ W ≤ p.length := by omega
  simp only [h1]
  split
  · have hW1 : (W : Int).toNat = W := by omega
    by_cases h2 : 2 ≤ W
    · have h3 : ((W : Int) - 1 > 0) := by omega
      have h4 : ((W : Int) - 1).toNat = W - 1 := by omega
      simp only [h3, if_true, h4, hW1]
      cases hsb : scanBack p (W - 1) with
      | error e => rfl
      | ok j1 =>
        simp only [Functor.map, Except.map, bind, Except.bind, pure, Except.pure]
        by_cases hj : j1 = 0 <;> simp [hj]
    · have hW2 : W = 1 := by omega
      subst hW2
      simp [scanBack, bind, Except.bind, pure, Except.pure]
  · rfl

/-- On a buffer without white space at its ends, at a width of at least 1, one
iteration of the loop of `dump` does not fault: it leaves the loop, or it emits
`p[:j3+1]` and goes on with `p[j4:]`, where `j3 < j4 < len(p)` and neither
`p[j3]` nor `p[j4]` is white space. -/
theorem wrapStep_good (p : List Nat) (W : Nat) (hW : 1 ≤ W) (hc : noEdgeSpace p = true) :
    wrapStep (W : Int) p = .ok none ∨
      ∃ j3 j4, wrapStep (W : Int) p = .ok (some (j3, j4)) ∧ j3 < j4 ∧ j4 < p.length ∧
        wsAt p j3 = false ∧ wsAt p j4 = false := by
  rw [wrapStep_nat p W hW]
  by_cases hlen : W ≤ p.length
  · rw [if_pos hlen]
    by_cases hex : ∃ k, IsBreak p W k
    · obtain ⟨k, hk⟩ := hex
      right
      obtain ⟨j1, hj1, hj2⟩ := scan_of_isBreak p W k hW hlen hk
      have hkws : wsAt p k = true := hk.1
      have hklt : k < p.length := wsAt_lt hkws
      have hk0 : 1 ≤ k := by
        rcases hk.2 with ⟨h, _⟩ | ⟨h, _⟩ <;> omega
      obtain ⟨j3, t1, t2, t3, t4⟩ :=
        trimBack_spec p k (by omega) ⟨0, by omega, noEdgeSpace_head hc⟩
      have hlast := noEdgeSpace_last hc
      have hkl : k ≠ p.length - 1 := by
        intro h; rw [← h, hkws] at hlast; cases hlast
      obtain ⟨j4, s1, s2, s3, s4, s5⟩ :=
        skipFwd_spec p (j3 + 1) ⟨p.length - 1, by omega, hlast, by omega⟩
      refine ⟨j3, j4, ?_, by omega, s3, t3, s4⟩
      rw [hj1]
      simp only [Except.bind, hj2]
      rw [if_neg (by omega), t1]
      simp only [Except.bind, s1]
    · left
      obtain ⟨j1, hj1, hj2⟩ := scan_of_no_break p W hW hlen (fun k hk => hex ⟨k, hk⟩)
      rw [hj1]
      simp only [Except.bind, hj2, if_true]
  · left
    rw [if_neg hlen]
theorem iter_good (p p' : List Nat) (W : Nat) (hW : 1 ≤ W) (hc : noEdgeSpace p = true)
    (h : Iter (W : Int) p p') :
    p' ≠ [] ∧ p'.length < p.length ∧ p' <:+ p ∧ noEdgeSpace p' = true := by
  obtain ⟨j3, j4, hs, rfl⟩ := h
  rcases wrapStep_good p W hW hc with h0 | ⟨i3, i4, h1, h2, h3, h4, h5⟩
  · rw [h0] at hs; cases hs
  · rw [h1] at hs
    injection hs with hs
    injection hs with hs
    injection hs with e3 e4
    subst e3 e4
    refine ⟨?_, ?_, List.drop_suffix _ _, noEdgeSpace_drop p i4 hc h3 h5⟩
    · intro h
      have := congrArg List.length h
      simp at this
      omega
    · simp; omega

/-- C18: on a buffer `p` without white space at its ends, at a width `W` of at
least 1, the loop of `dump` returns, within `len(p)` iterations and without an
index out of range; and in every buffer `c` that the iterations reach from `p`
the next evaluation of the loop does not fault, `c` has no white space at its
ends, and an iteration that emits a line replaces `c` by a non-empty, strictly
shorter suffix of `c` that again has no white space at its ends. -/
theorem wrap_loop_terminates (pfx p : List Nat) (W : Nat) (hW : 1 ≤ W)
    (hc : noEdgeSpace p = true) :
    (∃ r, ∀ fuel, p.length < fuel → dumpLoop pfx (W : Int) fuel p = .ok r) ∧
      ∀ c, Relation.ReflTransGen (Iter (W : Int)) p c →
        noEdgeSpace c = true ∧ (∃ o, wrapStep (W : Int) c = .ok o) ∧
          ∀ c', Iter (W : Int) c c' →
            c' ≠ [] ∧ c'.length < c.length ∧ c' <:+ c ∧ noEdgeSpace c' = true := by
  constructor
  · obtain ⟨t, ht⟩ := dump_total pfx W hW p hc
    rw [dump_flush] at ht
    obtain ⟨r, hr, _⟩ := bind_eq_ok ht
    refine ⟨r, fun fuel hf => ?_⟩
    rw [← hr]
    exact dumpLoop_fuel pfx W hW p.length p (Nat.le_refl _) hc fuel (p.length + 1) hf
      (Nat.lt_succ_self _)
  · intro c hreach
    have hgood : noEdgeSpace c = true := by
      induction hreach with
      | refl => exact hc
      | tail _ hstep ih => exact (iter_good _ _ W hW ih hstep).2.2.2
    refine ⟨hgood, ?_, fun c' hc' => iter_good c c' W hW hgood hc'⟩
    rcases wrapStep_good c W hW hgood with h0 | ⟨j3, j4, h1, _⟩
    · exact ⟨_, h0⟩
    · exact ⟨_, h1⟩

theorem wrap_loop_terminates_witness :
    1 ≤ 8 ∧ noEdgeSpace (ascii "aaa  bbb cc") = true ∧
      (∃ r, ∀ fuel, (ascii "aaa  bbb cc").length < fuel →
        dumpLoop (ascii "//") ((8 : Nat) : Int) fuel (ascii "aaa  bbb cc") = .ok r) ∧
      ∀ c, Relation.ReflTransGen (Iter ((8 : Nat) : Int)) (ascii "aaa  bbb cc") c →
        noEdgeSpace c = true ∧ (∃ o, wrapStep ((8 : Nat) : Int) c = .ok o) ∧
          ∀ c', Iter ((8 : Nat) : Int) c c' →
            c' ≠ [] ∧ c'.length < c.length ∧ c' <:+ c ∧ noEdgeSpace c' = true :=
  ⟨by decide, by decide,
    wrap_loop_terminates (ascii "//") (ascii "aaa  bbb cc") 8 (by decide) (by decide)⟩

/-! ## The buffer holds no newline -/

theorem mem_appendProse {c x : List Nat} {b : Nat} (h : b ∈ appendProse c x) :
    b ∈ c ∨ b = 32 ∨ b ∈ x := by
  unfold appendProse at h
  by_cases hp : c.length > 0 ∧ c.getLast? = some 46
  · simp only [hp, and_self, if_true] at h
    split at h
    · exact Or.inr (Or.inr h)
    · simp only [List.mem_append, List.mem_singleton] at h
      rcases h with ((h | h) | h) | h
      · exact Or.inl h
      · exact Or.inr (Or.inl h)
      · exact Or.inr (Or.inl h)
      · exact Or.inr (Or.inr h)
  · simp only [hp, if_false] at h
    split at h
    · exact Or.inr (Or.inr h)
    · simp only [List.mem_append, List.mem_singleton] at h
      rcases h with (h | h) | h
      · exact Or.inl h
      · exact Or.inr (Or.inl h)
      · exact Or.inr (Or.inr h)

/-- The body of the loop of `Format2` on a line as `ReadString` returns it keeps
the newline out of the buffer. -/
theorem processLine_no_newline (pfx : List Nat) (target : Int) (l c : List Nat)
    (q : Trace × List Nat) (hl : properLine l) (hc : 10 ∉ c)
    (h : processLine pfx target l c = .ok q) : 10 ∉ q.2 := by
  have hs := stripTrailing_eq l
  by_cases he : trimRight l = []
  · rw [if_pos he] at hs
    simp [processLine, hs, bind, Except.bind] at h
  · rw [if_neg he] at hs
    have h10 : 10 ∉ trimRight l := trimRight_no_newline l hl.2
    rw [processLine_stripped pfx target l c _ hs] at h
    split at h
    · rw [dump_comment_nil _ _ _ _ _ h]; simp
    · split at h
      · cases h
      · rename_i b hb
        split at h
        · cases h
        · rename_i x xs hx
          have hsub : ∀ y ∈ x :: xs, y ∈ trimRight l := by
            intro y hy
            rw [← hx] at hy
            split at hy
            · exact List.mem_of_mem_drop hy
            · exact List.mem_of_mem_drop hy
          split at h
          · rw [dump_comment_nil _ _ _ _ _ h]; simp
          · split at h
            · rw [dump_comment_nil _ _ _ _ _ h]; simp
            · injection h with h
              rw [← h]
              intro hm
              rcases mem_appendProse hm with h1 | h1 | h1
              · exact hc h1
              · omega
              · exact h10 (hsub 10 h1)

/-- C17: every value that the paragraph buffer takes holds no newline. -/
theorem buffer_no_newline (c : List Nat) (h : Reach c) : 10 ∉ c := by
  induction h with
  | start => simp
  | wrap target c j3 j4 _ _ ih => exact fun hm => ih (List.mem_of_mem_drop hm)
  | flush c _ _ => simp
  | period c _ _ _ ih =>
    intro hm
    rcases List.mem_append.mp hm with h | h
    · exact ih h
    · simp at h
  | line pfx target l c t c' _ hl hp ih =>
    exact processLine_no_newline pfx target l c (t, c') hl ih hp

theorem buffer_no_newline_witness :
    Reach (ascii "bbb cc") ∧ 10 ∉ ascii "bbb cc" :=
  have h1 : Reach (ascii "aaa  bbb") :=
    Reach.line (ascii "//") 10 (ascii "// aaa  bbb\n") [] [] _ Reach.start
      ⟨by decide, by decide⟩ (by decide)
  have h2 : Reach (ascii "aaa  bbb cc") :=
    Reach.line (ascii "//") 10 (ascii "// cc\n") _ [] _ h1 ⟨by decide, by decide⟩ (by decide)
  have h3 : Reach (ascii "bbb cc") :=
    Reach.wrap 8 _ 2 5 h2 (by decide)
  ⟨h3, buffer_no_newline _ h3⟩

/-- The loop of `dump` moves the buffer through reachable values only. -/
theorem dumpLoop_reach (pfx : List Nat) (target : Int) :
    ∀ (fuel : Nat) (c : List Nat) (r : Trace × List Nat), Reach c →
      dumpLoop pfx target fuel c = .ok r → Reach r.2 := by
  intro fuel
  induction fuel with
  | zero => intro c r _ h; cases h
  | succ n ih =>
    intro c r hc h
    rw [dumpLoop_step] at h
    obtain ⟨o, ho, h⟩ := bind_eq_ok h
    cases o with
    | none => injection h with h; rw [← h]; exact hc
    | some p =>
      obtain ⟨j3, j4⟩ := p
      obtain ⟨r2, hr2, h⟩ := bind_eq_ok h
      injection h with h
      rw [← h]
      exact ih _ r2 (Reach.wrap target c j3 j4 hc ho) hr2

/-! ## No white space at the end of the lines of the block -/

theorem trimBack_ok (p : List Nat) : ∀ n j, trimBack p n = .ok j →
    j < n ∧ j < p.length ∧ wsAt p j = false := by
  intro n
  induction n with
  | zero => intro j h; cases h
  | succ n ih =>
    intro j h
    rw [trimBack] at h
    cases hc : p[n]? with
    | none => rw [hc] at h; cases h
    | some r =>
      rw [hc] at h
      dsimp only at h
      by_cases hr : isspace r = true
      · rw [if_pos hr] at h
        obtain ⟨h1, h2, h3⟩ := ih j h
        exact ⟨by omega, h2, h3⟩
      · rw [if_neg hr] at h
        injection h with h
        subst h
        have hlt : n < p.length := by
          by_contra hn
          rw [List.getElem?_eq_none (by omega)] at hc
          cases hc
        refine ⟨by omega, hlt, ?_⟩
        simp only [wsAt, hc]
        simpa using hr

theorem skipFwd_ok : ∀ (rest : List Nat) (j0 j : Nat), skipFwd rest j0 = .ok j →
    j0 ≤ j ∧ j - j0 < rest.length ∧ wsAt rest (j - j0) = false := by
  intro rest
  induction rest with
  | nil => intro j0 j h; cases h
  | cons r rest ih =>
    intro j0 j h
    rw [skipFwd] at h
    by_cases hr : isspace r = true
    · rw [if_pos hr] at h
      obtain ⟨h1, h2, h3⟩ := ih (j0 + 1) j h
      refine ⟨by omega, by simp; omega, ?_⟩
      have e : j - j0 = (j - (j0 + 1)) + 1 := by omega
      rw [e]
      simpa [wsAt] using h3
    · rw [if_neg hr] at h
      injection h with h
      subst h
      refine ⟨Nat.le_refl _, by simp, ?_⟩
      simp only [Nat.sub_self, wsAt, List.getElem?_cons_zero]
      simpa using hr

/-- An iteration of the loop of `dump` that emits a line: the emitted text ends
with a byte that is not white space and the new buffer is a non-empty suffix. -/
theorem wrapStep_ok (target : Int) (c : List Nat) (j3 j4 : Nat)
    (h : wrapStep target c = .ok (some (j3, j4))) :
    j3 < c.length ∧ wsAt c j3 = false ∧ j3 < j4 ∧ j4 < c.length ∧ wsAt c j4 = false := by
  rw [wrapStep_eq] at h
  by_cases h1 : (c.length : Int) + 1 > target
  · rw [if_pos h1] at h
    obtain ⟨j1, _, h⟩ := bind_eq_ok h
    generalize (if j1 = 0 then ((scanFwd (c.drop target.toNat) target.toNat : Nat) : Int)
      else j1) = j2 at h
    by_cases hj : j2 = c.length
    · rw [if_pos hj] at h; cases h
    · rw [if_neg hj] at h
      obtain ⟨i3, h3, h⟩ := bind_eq_ok h
      obtain ⟨i4, h4, h⟩ := bind_eq_ok h
      injection h with h
      injection h with h
      injection h with e3 e4
      subst e3 e4
      obtain ⟨_, a2, a3⟩ := trimBack_ok c _ _ h3
      obtain ⟨b1, b2, b3⟩ := skipFwd_ok _ _ _ h4
      rw [wsAt_drop] at b3
      rw [List.length_drop] at b2
      have e : i3 + 1 + (i4 - (i3 + 1)) = i4 := by omega
      rw [e] at b3
      exact ⟨a2, a3, by omega, by omega, b3⟩
  · rw [if_neg h1] at h; cases h

theorem trimmedLine_append (a s : List Nat) (ha : 10 ∉ a) (hs : s ≠ []) (h10 : 10 ∉ s)
    (hl : wsAt s (s.length - 1) = false) : TrimmedLine (a ++ s ++ [10]) := by
  obtain ⟨b, hb, hbs⟩ := last_of_wsAt s hs hl
  have hsplit : s = s.dropLast ++ [b] := by
    have := List.dropLast_append_getLast? b hb
    exact this.symm
  refine ⟨a ++ s.dropLast, b, ?_, hbs, ?_⟩
  · conv_lhs => rw [hsplit]
    simp
  · intro hm
    rcases List.mem_append.mp hm with h | h
    · exact ha h
    · exact h10 (List.mem_of_mem_dropLast h)

theorem tidyBuf_nil : TidyBuf [] := ⟨by simp, rfl⟩

theorem wsAt_last_take (c : List Nat) (j : Nat) (hj : j < c.length) :
    wsAt (c.take (j + 1)) ((c.take (j + 1)).length - 1) = wsAt c j := by
  have : (c.take (j + 1)).length = j + 1 := by
    rw [List.length_take]; omega
  rw [this, wsAt_take _ _ _ (by omega)]
  rfl

/-- The lines that the loop of `dump` writes from a tidy buffer have no white
space before their newline, and the buffer that the loop leaves is tidy. -/
theorem dumpLoop_trimmed (pfx : List Nat) (target : Int) (hp : 10 ∉ pfx) :
    ∀ (fuel : Nat) (c : List Nat) (r : Trace × List Nat), TidyBuf c →
      dumpLoop pfx target fuel c = .ok r → (∀ w ∈ r.1, TrimmedLine w.2) ∧ TidyBuf r.2 := by
  intro fuel
  induction fuel with
  | zero => intro c r _ h; cases h
  | succ n ih =>
    intro c r hc h
    rw [dumpLoop_step] at h
    obtain ⟨o, ho, h⟩ := bind_eq_ok h
    cases o with
    | none =>
      injection h with h
      rw [← h]
      exact ⟨fun w hw => by simp at hw, hc⟩
    | some p =>
      obtain ⟨j3, j4⟩ := p
      obtain ⟨r2, hr2, h⟩ := bind_eq_ok h
      injection h with h
      rw [← h]
      obtain ⟨a1, a2, a3, a4, a5⟩ := wrapStep_ok target c j3 j4 ho
      have hc' : TidyBuf (c.drop j4) := by
        refine ⟨fun hm => hc.1 (List.mem_of_mem_drop hm), ?_⟩
        rw [wsAt_last_drop c j4 a4]
        exact hc.2
      obtain ⟨i1, i2⟩ := ih _ r2 hc' hr2
      refine ⟨?_, i2⟩
      intro w hw
      rcases List.mem_append.mp hw with hw | hw
      · have hne : c.take (j3 + 1) ≠ [] := by
          have hlen : (c.take (j3 + 1)).length = j3 + 1 := by
            rw [List.length_take]; omega
          intro he
          rw [he] at hlen
          simp at hlen
        have hT : TrimmedLine (pfx ++ [32] ++ c.take (j3 + 1) ++ [10]) :=
          trimmedLine_append (pfx ++ [32]) _
            (by intro hm; rcases List.mem_append.mp hm with h | h
                · exact hp h
                · simp at h) hne
            (fun hm => hc.1 (List.mem_of_mem_take hm))
            (by rw [wsAt_last_take c j3 a1]; exact a2)
        rw [write_ne_nil _ _ (by simp)] at hw
        simp only [List.mem_singleton] at hw
        rw [hw]
        exact hT
      · exact i1 w hw

/-- The flush of a tidy buffer writes lines without white space before their
newline. -/
theorem dump_trimmed (pfx : List Nat) (target : Int) (hp : 10 ∉ pfx) (c : List Nat)
    (r : Trace × List Nat) (hc : TidyBuf c) (h : dump pfx [] target c = .ok r) :
    ∀ w ∈ r.1, TrimmedLine w.2 := by
  rw [dump_flush] at h
  obtain ⟨q, hq, h⟩ := bind_eq_ok h
  injection h with h
  rw [← h]
  obtain ⟨h1, h2⟩ := dumpLoop_trimmed pfx target hp _ c q hc hq
  dsimp only
  split
  · exact h1
  · rename_i hne
    intro w hw
    rcases List.mem_append.mp hw with hw | hw
    · exact h1 w hw
    · simp only [List.mem_singleton] at hw
      rw [hw]
      exact trimmedLine_append (pfx ++ [32]) _
        (by intro hm; rcases List.mem_append.mp hm with h | h
            · exact hp h
            · simp at h) hne h2.1 h2.2

/-- The flush of the empty buffer writes nothing. -/
theorem dump_nil_buffer (pfx : List Nat) (target : Int) (r : Trace × List Nat)
    (h : dump pfx [] target [] = .ok r) : r.1 = [] := by
  by_cases ht : target ≤ 0
  · rw [dump_nonpos pfx [] target [] ht] at h; cases h
  · obtain ⟨W, hW⟩ : ∃ W : Nat, target = (W : Int) := ⟨target.toNat, by omega⟩
    subst hW
    rw [dump_short pfx [] W (by omega) (by simp; omega)] at h
    injection h with h
    rw [← h]
    rfl
theorem trimRight_initial (l : List Nat) : trimRight l <+: l := by
  have := trimRight_suffix l
  rw [List.reverse_suffix] at this
  exact this

theorem appendProse_suffix (c x : List Nat) : ∃ a, appendProse c x = a ++ x := by
  unfold appendProse
  by_cases hp : c.length > 0 ∧ c.getLast? = some 46
  · simp only [hp, and_self, if_true]
    split
    · exact ⟨[], rfl⟩
    · exact ⟨_, rfl⟩
  · simp only [hp, if_false]
    split
    · exact ⟨[], rfl⟩
    · exact ⟨_, rfl⟩

theorem wsAt_last_append (a x : List Nat) (hx : x ≠ []) :
    wsAt (a ++ x) ((a ++ x).length - 1) = wsAt x (x.length - 1) := by
  have := List.length_pos.mpr hx
  rw [wsAt_append_right _ _ _ (by simp; omega)]
  congr 1
  simp; omega

/-- The body of the loop of `Format2` on a line of the block: when it returns the
prefix holds no newline, the lines written have no white space before their
newline, and the buffer stays tidy. -/
theorem processLine_trimmed (pfx export_ : List Nat) (target : Int) (l c : List Nat)
    (q : Trace × List Nat) (hl : properLine l) (hin : hasPrefix pfx export_ l = true)
    (hc : TidyBuf c) (h : processLine pfx target l c = .ok q) :
    10 ∉ pfx ∧ (∀ w ∈ q.1, TrimmedLine w.2) ∧ TidyBuf q.2 := by
  have hpre : pfx <+: l := by
    apply List.isPrefixOf_iff_prefix.mp
    unfold hasPrefix at hin
    by_contra hq
    simp [hq] at hin
  have hs := stripTrailing_eq l
  by_cases he : trimRight l = []
  · rw [if_pos he] at hs
    simp [processLine, hs, bind, Except.bind] at h
  · rw [if_neg he] at hs
    have h10 : 10 ∉ trimRight l := trimRight_no_newline l hl.2
    have hlast := trimRight_last l he
    rw [processLine_stripped pfx target l c _ hs] at h
    by_cases h1 : trimRight l = pfx
    · rw [if_pos h1] at h
      have hp10 : 10 ∉ pfx := h1 ▸ h10
      have e : trimRight l ++ [10] = pfx ++ [] ++ [10] := by rw [h1]; simp
      rw [e, dump_prefixed] at h
      obtain ⟨r, hr, h⟩ := bind_eq_ok h
      injection h with h
      rw [← h]
      refine ⟨hp10, ?_, tidyBuf_nil⟩
      intro w hw
      rcases List.mem_append.mp hw with hw | hw
      · exact dump_trimmed pfx target hp10 c r hc hr w hw
      · simp only [List.mem_singleton] at hw
        rw [hw]
        have := trimmedLine_append [] pfx (by simp) (h1 ▸ he) hp10 (h1 ▸ hlast)
        simpa using this
    · rw [if_neg h1] at h
      cases hb : (trimRight l)[pfx.length]? with
      | none => rw [hb] at h; cases h
      | some b =>
        rw [hb] at h
        dsimp only at h
        have hplen : pfx.length < (trimRight l).length := by
          by_contra hn
          rw [List.getElem?_eq_none (by omega)] at hb
          cases hb
        have hpre1 : pfx <+: trimRight l :=
          List.prefix_of_prefix_length_le hpre (trimRight_initial l) (by omega)
        have hp10 : 10 ∉ pfx := fun hm => h10 (hpre1.subset hm)
        obtain ⟨k, hk, hline2⟩ : ∃ k, k ≤ (trimRight l).length ∧
            (if b = 32 then (trimRight l).drop (pfx.length + 1) else (trimRight l).drop pfx.length)
              = (trimRight l).drop k := by
          by_cases hb32 : b = 32
          · exact ⟨pfx.length + 1, by omega, by rw [if_pos hb32]⟩
          · exact ⟨pfx.length, by omega, by rw [if_neg hb32]⟩
        rw [hline2] at h
        cases hx : (trimRight l).drop k with
        | nil => rw [hx] at h; cases h
        | cons x xs =>
          rw [hx] at h
          dsimp only at h
          have hklt : k < (trimRight l).length := by
            by_contra hn
            rw [List.drop_eq_nil_of_le (by omega)] at hx
            cases hx
          have hxl : wsAt (x :: xs) ((x :: xs).length - 1) = false := by
            rw [← hx, wsAt_last_drop _ _ hklt]; exact hlast
          have hx10 : 10 ∉ x :: xs := by
            rw [← hx]; exact fun hm => h10 (List.mem_of_mem_drop hm)
          by_cases h9 : x = 9
          · rw [if_pos h9, dump_prefixed] at h
            obtain ⟨r, hr, h⟩ := bind_eq_ok h
            injection h with h
            rw [← h]
            refine ⟨hp10, ?_, tidyBuf_nil⟩
            intro w hw
            rcases List.mem_append.mp hw with hw | hw
            · exact dump_trimmed pfx target hp10 c r hc hr w hw
            · simp only [List.mem_singleton] at hw
              rw [hw]
              exact trimmedLine_append pfx _ hp10 (by simp) hx10 hxl
          · rw [if_neg h9] at h
            by_cases h32 : x = 32
            · rw [if_pos h32] at h
              have e : pfx ++ [32] ++ (x :: xs) ++ [10] = pfx ++ (32 :: x :: xs) ++ [10] := by
                simp
              rw [e, dump_prefixed] at h
              obtain ⟨r, hr, h⟩ := bind_eq_ok h
              injection h with h
              rw [← h]
              refine ⟨hp10, ?_, tidyBuf_nil⟩
              intro w hw
              rcases List.mem_append.mp hw with hw | hw
              · exact dump_trimmed pfx target hp10 c r hc hr w hw
              · simp only [List.mem_singleton] at hw
                rw [hw, ← e]
                exact trimmedLine_append (pfx ++ [32]) _
                  (by intro hm; rcases List.mem_append.mp hm with h | h
                      · exact hp10 h
                      · simp at h) (by simp) hx10 hxl
            · rw [if_neg h32] at h
              injection h with h
              rw [← h]
              refine ⟨hp10, fun w hw => by simp at hw, ?_, ?_⟩
              · intro hm
                rcases mem_appendProse hm with h1 | h1 | h1
                · exact hc.1 h1
                · omega
                · exact hx10 h1
              · obtain ⟨a, ha⟩ := appendProse_suffix c (x :: xs)
                show wsAt (appendProse c (x :: xs)) ((appendProse c (x :: xs)).length - 1) = false
                rw [ha, wsAt_last_append a _ (by simp)]
                exact hxl

theorem formatLoop_trimmed_nil (pfx export_ : List Nat) (target : Int) (hp : pfx ≠ [])
    (c : List Nat) (r : Trace × List Nat) (hc : TidyBuf c) (h0 : c = [] ∨ 10 ∉ pfx)
    (h : formatLoop pfx export_ target [] c = .ok r) : ∀ w ∈ r.1, TrimmedLine w.2 := by
  rw [formatLoop_nil pfx export_ target c hp] at h
  rcases h0 with h0 | h0
  · subst h0
    rw [dump_nil_buffer pfx target r h]
    intro w hw; simp at hw
  · exact dump_trimmed pfx target h0 c r hc h

/-- The lines that the loop of `Format2` writes for the lines of the block have no
white space before their newline. -/
theorem formatLoop_trimmed (pfx export_ : List Nat) (target : Int) (hp : pfx ≠ []) :
    ∀ (lines : List (List Nat)) (c : List Nat) (r : Trace × List Nat),
      (∀ l ∈ lines, properLine l ∧ hasPrefix pfx export_ l = true) → TidyBuf c →
      (c = [] ∨ 10 ∉ pfx) → formatLoop pfx export_ target lines c = .ok r →
      ∀ w ∈ r.1, TrimmedLine w.2 := by
  intro lines
  induction lines with
  | nil => intro c r _ hc h0 h; exact formatLoop_trimmed_nil pfx export_ target hp c r hc h0 h
  | cons l rest ih =>
    intro c r hall hc _ h
    have hl := hall l (List.mem_cons_self _ _)
    rw [formatLoop_block_line pfx export_ target hp l rest c hl.2] at h
    obtain ⟨q, hq, h⟩ := bind_eq_ok h
    obtain ⟨r2, hr2, h⟩ := bind_eq_ok h
    injection h with h
    rw [← h]
    obtain ⟨hp10, hw1, hq2⟩ := processLine_trimmed pfx export_ target l c q hl.1 hl.2 hc hq
    intro w hw
    rcases List.mem_append.mp hw with hw | hw
    · exact hw1 w hw
    · by_cases he : atEOF l = true
      · rw [if_pos he] at hr2
        exact formatLoop_trimmed_nil pfx export_ target hp _ r2 hq2 (Or.inr hp10) hr2 w hw
      · rw [if_neg he] at hr2
        exact ih _ r2 (fun x hx => hall x (List.mem_cons_of_mem _ hx)) hq2 (Or.inr hp10) hr2 w hw

/-- C13: the output of `Format` is a sequence of lines without white space before
their newline, written for the comment block, followed by the input from the
first line on that is not in the comment block, as it is. -/
theorem block_lines_trimmed (export_ x : List Nat) (T : Int) (delim y : List Nat)
    (h : Format export_ x T delim = .ok y) :
    ∃ ws : List (List Nat), (∀ w ∈ ws, TrimmedLine w) ∧
      y = ws.flatten ++ ((splitLines x).dropWhile
        (hasPrefix (workPrefix ((splitLines x).headD []) delim) export_)).flatten := by
  rw [Format_frame] at h
  cases hq : formatLoop (workPrefix ((splitLines x).headD []) delim) export_
      (workTarget ((splitLines x).headD []) T delim)
      ((splitLines x).takeWhile
        (hasPrefix (workPrefix ((splitLines x).headD []) delim) export_)) [] with
  | error e => rw [hq] at h; cases h
  | ok q =>
    rw [hq] at h
    simp only [Functor.map, Except.map, Except.ok.injEq] at h
    refine ⟨q.1.map Prod.snd, ?_, ?_⟩
    · intro w hw
      obtain ⟨a, ha, rfl⟩ := List.mem_map.mp hw
      refine formatLoop_trimmed _ export_ _ (workPrefix_ne_nil _ _) _ [] q ?_ tidyBuf_nil
        (Or.inl rfl) hq a ha
      intro l hl
      exact ⟨splitLines_proper x l ((List.takeWhile_prefix _).subset hl), List.mem_takeWhile_imp hl⟩
    · rw [← h]; rfl

theorem block_lines_trimmed_witness :
    Format (ascii "exp") (ascii "// one two \t\n//\t\n//  x  \nrest  \n") 9 [] =
        Except.ok (ascii "// one\n// two\n//\n//  x\nrest  \n") ∧
      ∃ ws : List (List Nat), (∀ w ∈ ws, TrimmedLine w) ∧
        ascii "// one\n// two\n//\n//  x\nrest  \n" = ws.flatten ++
          ((splitLines (ascii "// one two \t\n//\t\n//  x  \nrest  \n")).dropWhile
            (hasPrefix (workPrefix ((splitLines
              (ascii "// one two \t\n//\t\n//  x  \nrest  \n")).headD []) []) (ascii "exp"))).flatten :=
  ⟨by decide, block_lines_trimmed (ascii "exp") (ascii "// one two \t\n//\t\n//  x  \nrest  \n")
    9 [] _ (by decide)⟩

/-! ## Wrapping removes white space only -/

theorem words_cons_space (b : Nat) (bs : List Nat) (h : isspace b = true) :
    words (b :: bs) = words bs := by
  cases bs with
  | nil => simp [words, h]
  | cons b' r => rw [words, if_pos h]

theorem words_space_append (g r : List Nat) (h : ∀ b ∈ g, isspace b = true) :
    words (g ++ r) = words r := by
  induction g with
  | nil => rfl
  | cons b g ih =>
    rw [List.cons_append, words_cons_space _ _ (h b (List.mem_cons_self _ _))]
    exact ih fun x hx => h x (List.mem_cons_of_mem _ hx)

theorem words_ne_nil (b : Nat) (bs : List Nat) (h : isspace b = false) : words (b :: bs) ≠ [] := by
  cases bs with
  | nil => simp [words, h]
  | cons b' r =>
    rw [words]
    simp only [h, Bool.false_eq_true, if_false]
    split
    · simp
    · split <;> simp

/-- The words of a text are the words before a white space byte followed by the
words from it on. -/
theorem words_append (s r : List Nat) (g : Nat) (hg : isspace g = true) :
    words (s ++ g :: r) = words s ++ words (g :: r) := by
  induction s with
  | nil => rfl
  | cons b s ih =>
    by_cases hb : isspace b = true
    · rw [List.cons_append, words_cons_space _ _ hb, words_cons_space _ _ hb, ih]
    · cases s with
      | nil =>
        show words (b :: g :: r) = words [b] ++ words (g :: r)
        conv_lhs => rw [words, if_neg hb, if_pos hg]
        simp [words, hb]
      | cons b' s' =>
        show words (b :: b' :: (s' ++ g :: r)) = words (b :: b' :: s') ++ words (g :: r)
        conv_lhs => rw [words, if_neg hb]
        conv_rhs => rw [words, if_neg hb]
        simp only [List.cons_append] at ih
        by_cases hb2 : isspace b' = true
        · rw [if_pos hb2, if_pos hb2, ih]
          rfl
        · rw [if_neg hb2, if_neg hb2, ih]
          have hne := words_ne_nil b' s' (by simpa using hb2)
          cases hw : words (b' :: s') with
          | nil => exact absurd hw hne
          | cons w ws => rfl

theorem covers_words {p : List Nat} {segs : List (List Nat)} (h : Covers p segs) :
    (segs.map words).flatten = words p := by
  induction h with
  | nil => rfl
  | last s _ => simp
  | cons s gap rest segs hne hws _ ih =>
    cases gap with
    | nil => exact absurd rfl hne
    | cons g gs =>
      have hg := hws g (List.mem_cons_self _ _)
      rw [List.map_cons, List.flatten_cons, ih, List.append_assoc, List.cons_append,
        words_append s (gs ++ rest) g hg]
      congr 1
      rw [← List.cons_append]
      exact (words_space_append (g :: gs) rest hws).symm

theorem trimRight_split (l : List Nat) :
    ∃ t, l = trimRight l ++ t ∧ ∀ b ∈ t, isspace b = true := by
  induction l using List.reverseRecOn with
  | nil => exact ⟨[], rfl, fun b hb => by simp at hb⟩
  | append_singleton a x ih =>
    rw [trimRight_concat]
    by_cases hx : isspace x = true
    · rw [if_pos hx]
      obtain ⟨t, ht, hws⟩ := ih
      refine ⟨t ++ [x], ?_, ?_⟩
      · conv_lhs => rw [ht]
        simp
      · intro b hb
        rcases List.mem_append.mp hb with h | h
        · exact hws b h
        · simp at h; rw [h]; exact hx
    · rw [if_neg hx]
      exact ⟨[], by simp, fun b hb => by simp at hb⟩

/-- The texts of a wrapping cover the buffer. -/
theorem wrapped_covers (W : Nat) {p : List Nat} {segs : List (List Nat)}
    (h : Wrapped W p segs) (hc : noEdgeSpace p = true) : Covers p segs := by
  induction h with
  | empty => exact Covers.nil
  | whole p hp _ => exact Covers.last p hp
  | brk p k segs hlen hk _ ih =>
    obtain ⟨h1, _, _, _⟩ := rest_after_break p W k hc hk
    have hcov := ih h1
    obtain ⟨t, ht, hws⟩ := trimRight_split (p.take k)
    have hkws : wsAt p k = true := hk.1
    have hklt : k < p.length := wsAt_lt hkws
    have hd : p.drop k = (p.drop k).takeWhile isspace ++ (p.drop k).dropWhile isspace :=
      (List.takeWhile_append_dropWhile _ _).symm
    have hne : (p.drop k).takeWhile isspace ≠ [] := by
      rw [List.drop_eq_getElem_cons hklt, List.takeWhile_cons]
      rw [wsAt_eq hklt] at hkws
      simp [hkws]
    have hp : p = trimRight (p.take k) ++ (t ++ (p.drop k).takeWhile isspace) ++
        (p.drop k).dropWhile isspace := by
      conv_lhs => rw [← List.take_append_drop k p, ht, hd]
      simp
    have key := Covers.cons (trimRight (p.take k)) (t ++ (p.drop k).takeWhile isspace)
      ((p.drop k).dropWhile isspace) segs
      (fun he => hne (List.append_eq_nil.mp he).2)
      (fun b hb => by
        rcases List.mem_append.mp hb with h | h
        · exact hws b h
        · exact (List.mem_takeWhile_imp h)) hcov
    rwa [← hp] at key

/-- C19: on a buffer `p` without white space at its ends, at a width `W` of at
least 1, `dump` returns and the texts of the lines it writes are consecutive
pieces of `p` in their order; the bytes of `p` in no piece are white space; and
the words of the emitted texts, in their order, are the words of `p`. -/
theorem wrap_keeps_words (pfx p : List Nat) (W : Nat) (hW : 1 ≤ W)
    (hc : noEdgeSpace p = true) :
    ∃ segs, dump pfx [] (W : Int) p = .ok (segs.map fun s => (Sink.out, textLine pfx s), []) ∧
      Covers p segs ∧ (segs.map words).flatten = words p := by
  obtain ⟨segs, hw, hd⟩ := dump_wrapped pfx W hW p.length p (Nat.le_refl _) hc
  have hcov := wrapped_covers W hw hc
  exact ⟨segs, hd, hcov, covers_words hcov⟩

theorem wrap_keeps_words_witness :
    1 ≤ 8 ∧ noEdgeSpace (ascii "aaa  bbb\tcc dddddddddd e") = true ∧
      ∃ segs, dump (ascii "//") [] ((8 : Nat) : Int) (ascii "aaa  bbb\tcc dddddddddd e") =
          .ok (segs.map fun s => (Sink.out, textLine (ascii "//") s), []) ∧
        Covers (ascii "aaa  bbb\tcc dddddddddd e") segs ∧
        (segs.map words).flatten = words (ascii "aaa  bbb\tcc dddddddddd e") :=
  ⟨by decide, by decide,
    wrap_keeps_words (ascii "//") (ascii "aaa  bbb\tcc dddddddddd e") 8 (by decide) (by decide)⟩

/-! ## A last line without newline -/

theorem isPrefixOf_newline (p s : List Nat) (hp : 10 ∉ p) :
    p.isPrefixOf (s ++ [10]) = p.isPrefixOf s := by
  rw [Bool.eq_iff_iff, List.isPrefixOf_iff_prefix, List.isPrefixOf_iff_prefix]
  constructor
  · intro h
    by_cases hlen : p.length ≤ s.length
    · exact List.prefix_of_prefix_length_le h (List.prefix_append s [10]) hlen
    · obtain ⟨t, ht⟩ := h
      have hl := congrArg List.length ht
      simp only [List.length_append, List.length_singleton] at hl
      have ht0 : t = [] := List.eq_nil_of_length_eq_zero (by omega)
      subst ht0
      rw [List.append_nil] at ht
      exact absurd (by rw [ht]; simp) hp
  · intro h
    exact h.trans (List.prefix_append _ _)

theorem stripTrailing_newline (l : List Nat) : stripTrailing (l ++ [10]) = stripTrailing l := by
  simp [stripTrailing, stripRev, isspace]

theorem processLine_newline (pfx : List Nat) (target : Int) (l c : List Nat) :
    processLine pfx target (l ++ [10]) c = processLine pfx target l c := by
  unfold processLine
  rw [stripTrailing_newline]

theorem hasPrefix_newline (pfx export_ l : List Nat) (hexp : 10 ∉ export_)
    (h : hasPrefix pfx export_ l = true) : hasPrefix pfx export_ (l ++ [10]) = true := by
  unfold hasPrefix at h ⊢
  have hpre : pfx.isPrefixOf l = true := by
    by_contra hq
    simp [hq] at h
  have hpre' : pfx <+: l := List.isPrefixOf_iff_prefix.mp hpre
  have hpre2 : pfx.isPrefixOf (l ++ [10]) = true :=
    List.isPrefixOf_iff_prefix.mpr (hpre'.trans (List.prefix_append _ _))
  simp only [hpre, hpre2, Bool.not_true, Bool.false_eq_true, if_false] at h ⊢
  have hlen : pfx.length ≤ l.length := hpre'.length_le
  rw [List.drop_append_of_le_length hlen, isPrefixOf_newline _ _ hexp]
  exact h

/-- The loop reads a last line of the block the same way with and without its
newline. -/
theorem formatLoop_newline (pfx export_ : List Nat) (target : Int) (hp : pfx ≠ [])
    (hexp : 10 ∉ export_) (l : List Nat) (hl : hasPrefix pfx export_ l = true) :
    ∀ (init : List (List Nat)) (c : List Nat),
      (∀ b ∈ init, hasPrefix pfx export_ b = true ∧ atEOF b = false) →
      formatLoop pfx export_ target (init ++ [l ++ [10]]) c =
        formatLoop pfx export_ target (init ++ [l]) c := by
  intro init
  induction init with
  | nil =>
    intro c _
    rw [List.nil_append, List.nil_append,
      formatLoop_block_line pfx export_ target hp _ [] c (hasPrefix_newline _ _ _ hexp hl),
      formatLoop_block_line pfx export_ target hp _ [] c hl, processLine_newline]
    simp
  | cons b init ih =>
    intro c hall
    have hb := hall b (List.mem_cons_self _ _)
    rw [List.cons_append, List.cons_append,
      formatLoop_in_block pfx export_ target b _ c hb.1 hb.2,
      formatLoop_in_block pfx export_ target b _ c hb.1 hb.2]
    congr 1
    funext q
    rw [ih q.2 fun x hx => hall x (List.mem_cons_of_mem _ hx)]

/-- The lines of an input that does not end with a newline, and the lines of the
input with a newline added. -/
theorem splitLines_newline (x : List Nat) (hx : x ≠ []) (hlast : x.getLast? ≠ some 10) :
    ∃ init l, splitLines x = init ++ [l] ∧ l ≠ [] ∧ 10 ∉ l ∧
      splitLines (x ++ [10]) = init ++ [l ++ [10]] := by
  have hne : splitLines x ≠ [] := by
    intro h
    have := splitLines_flatten x
    rw [h] at this
    exact hx this.symm
  obtain ⟨init, l, hs⟩ : ∃ init l, splitLines x = init ++ [l] :=
    ⟨(splitLines x).dropLast, (splitLines x).getLast hne,
      (List.dropLast_append_getLast hne).symm⟩
  have hprop := splitLines_proper x
  have hl : properLine l := hprop l (by rw [hs]; simp)
  have hflat := splitLines_flatten x
  rw [hs] at hflat
  simp only [List.flatten_append, List.flatten_cons, List.flatten_nil, List.append_nil] at hflat
  have hll : l.getLast? ≠ some 10 := by
    rw [← hflat, List.getLast?_append_of_ne_nil _ hl.1] at hlast
    exact hlast
  have h10 : 10 ∉ l := by
    intro hm
    have hsplit := List.dropLast_append_getLast hl.1
    rw [← hsplit] at hm
    rcases List.mem_append.mp hm with h | h
    · exact hl.2 h
    · simp only [List.mem_singleton] at h
      apply hll
      rw [List.getLast?_eq_getLast _ hl.1, ← h]
  refine ⟨init, l, hs, hl.1, h10, ?_⟩
  have hinit : ∀ b ∈ init, atEOF b = false := by
    intro b hb
    apply splitLines_dropLast x
    rw [hs]
    simpa using hb
  have hx' : x ++ [10] = (init ++ [l ++ [10]]).flatten := by
    rw [← hflat]; simp
  rw [hx']
  apply splitLines_lines
  · intro b hb
    rcases List.mem_append.mp hb with h | h
    · exact hprop b (by rw [hs]; exact List.mem_append_left _ h)
    · simp only [List.mem_singleton] at h
      subst h
      exact ⟨by simp, by simpa using h10⟩
  · intro b hb
    rw [List.dropLast_concat] at hb
    exact hinit b hb

theorem countLead_newline (c : Nat) (hc : c ≠ 10) (l : List Nat) :
    countLead c (l ++ [10]) = countLead c l := by
  have := countLead_append c 10 l [] (Ne.symm hc)
  exact this

theorem lead_newline (l : List Nat) (T : Int) :
    leadIndex (l ++ [10]) = leadIndex l ∧ leadTarget (l ++ [10]) T = leadTarget l T := by
  cases l with
  | nil => simp [leadIndex, leadTarget]
  | cons b bs =>
    have e1 := countLead_newline 32 (by decide) (b :: bs)
    have e2 := countLead_newline 9 (by decide) (b :: bs)
    simp only [List.cons_append] at e1 e2
    have hi : leadIndex (b :: bs ++ [10]) = leadIndex (b :: bs) := by
      simp only [List.cons_append, leadIndex, e1, e2]
    have hc : leadCost (b :: bs ++ [10]) = leadCost (b :: bs) := by
      simp only [List.cons_append] at hi
      simp only [List.cons_append, leadCost, hi]
    refine ⟨hi, ?_⟩
    rw [leadTarget_eq, leadTarget_eq, hc]

theorem detectDelim_newline (s delim : List Nat) :
    detectDelim (s ++ [10]) delim = detectDelim s delim := by
  unfold detectDelim
  rw [ascii_dash_space, ascii_slash, ascii_hash,
    isPrefixOf_newline _ s (by decide), isPrefixOf_newline _ s (by decide),
    isPrefixOf_newline _ s (by decide)]

/-- A first line that is in the comment block gets the same prefix and the same
width with and without its newline. -/
theorem work_newline (l delim export_ : List Nat) (T : Int) (h10 : 10 ∉ l)
    (hin : hasPrefix (workPrefix l delim) export_ l = true) :
    workPrefix (l ++ [10]) delim = workPrefix l delim ∧
      workTarget (l ++ [10]) T delim = workTarget l T delim := by
  have hpre : workPrefix l delim <+: l := by
    apply List.isPrefixOf_iff_prefix.mp
    unfold hasPrefix at hin
    by_contra hq
    simp [hq] at hin
  have hp10 : 10 ∉ workPrefix l delim := fun hm => h10 (hpre.subset hm)
  have hd10 : 10 ∉ detectDelim (l.drop (leadIndex l)) delim := by
    intro hm
    apply hp10
    unfold workPrefix
    dsimp only
    split
    · exact List.mem_append_right _ hm
    · exact hm
  obtain ⟨e1, e2⟩ := lead_newline l T
  have hdrop : (l ++ [10]).drop (leadIndex l) = l.drop (leadIndex l) ++ [10] :=
    List.drop_append_of_le_length (leadIndex_le l)
  have htake : (l ++ [10]).take (leadIndex l) = l.take (leadIndex l) :=
    List.take_append_of_le_length (leadIndex_le l)
  unfold workPrefix workTarget
  dsimp only
  rw [e1, e2, hdrop, detectDelim_newline, isPrefixOf_newline _ _ hd10, htake]
  exact ⟨rfl, rfl⟩
theorem dumpLoop_ne_nil (pfx : List Nat) (target : Int) :
    ∀ (fuel : Nat) (c : List Nat) (r : Trace × List Nat), c ≠ [] →
      dumpLoop pfx target fuel c = .ok r → r.2 ≠ [] := by
  intro fuel
  induction fuel with
  | zero => intro c r _ h; cases h
  | succ n ih =>
    intro c r hc h
    rw [dumpLoop_step] at h
    obtain ⟨o, ho, h⟩ := bind_eq_ok h
    cases o with
    | none => injection h with h; rw [← h]; exact hc
    | some p =>
      obtain ⟨j3, j4⟩ := p
      obtain ⟨r2, hr2, h⟩ := bind_eq_ok h
      injection h with h
      rw [← h]
      obtain ⟨_, _, _, a4, _⟩ := wrapStep_ok target c j3 j4 ho
      refine ih _ r2 ?_ hr2
      intro he
      have := congrArg List.length he
      simp at this
      omega

/-- The flush of a buffer that is not empty writes a line. -/
theorem dump_writes (pfx : List Nat) (target : Int) (c : List Nat) (r : Trace × List Nat)
    (hc : c ≠ []) (h : dump pfx [] target c = .ok r) : r.1 ≠ [] := by
  rw [dump_flush] at h
  obtain ⟨q, hq, h⟩ := bind_eq_ok h
  injection h with h
  rw [← h]
  have := dumpLoop_ne_nil pfx target _ c q hc hq
  simp [this]

/-- The body of the loop of `Format2` writes a line or leaves a buffer that is not
empty. -/
theorem processLine_progress (pfx : List Nat) (target : Int) (l c : List Nat)
    (q : Trace × List Nat) (h : processLine pfx target l c = .ok q) : q.1 ≠ [] ∨ q.2 ≠ [] := by
  have hs := stripTrailing_eq l
  by_cases he : trimRight l = []
  · rw [if_pos he] at hs
    simp [processLine, hs, bind, Except.bind] at h
  · rw [if_neg he] at hs
    rw [processLine_stripped pfx target l c _ hs] at h
    have hdump : ∀ line, pfx.isPrefixOf line = true → line ≠ [] →
        dump pfx line target c = .ok q → q.1 ≠ [] := by
      intro line hpre hne hd
      rw [dump_line] at hd
      obtain ⟨r, _, hd⟩ := bind_eq_ok hd
      injection hd with hd
      rw [← hd]
      simp [lineWrite, hpre, write, hne]
    by_cases h1 : trimRight l = pfx
    · rw [if_pos h1] at h
      exact Or.inl (hdump _ (by rw [h1]; exact isPrefixOf_append_self _ _) (by simp) h)
    · rw [if_neg h1] at h
      cases hb : (trimRight l)[pfx.length]? with
      | none => rw [hb] at h; cases h
      | some b =>
        rw [hb] at h
        dsimp only at h
        split at h
        · cases h
        · rename_i x xs _
          by_cases h9 : x = 9
          · rw [if_pos h9] at h
            refine Or.inl (hdump _ ?_ (by simp) h)
            rw [List.append_assoc]; exact isPrefixOf_append_self _ _
          · rw [if_neg h9] at h
            by_cases h32 : x = 32
            · rw [if_pos h32] at h
              refine Or.inl (hdump _ ?_ (by simp) h)
              rw [List.append_assoc, List.append_assoc]; exact isPrefixOf_append_self _ _
            · rw [if_neg h32] at h
              injection h with h
              rw [← h]
              exact Or.inr (appendProse_ne_nil c _ (by simp))

/-- The loop writes a line when it starts with a buffer that is not empty or reads
a line of the block. -/
theorem formatLoop_writes (pfx export_ : List Nat) (target : Int) (hp : pfx ≠ []) :
    ∀ (lines : List (List Nat)) (c : List Nat) (r : Trace × List Nat),
      (∀ l ∈ lines, hasPrefix pfx export_ l = true) → (c ≠ [] ∨ lines ≠ []) →
      formatLoop pfx export_ target lines c = .ok r → r.1 ≠ [] := by
  intro lines
  induction lines with
  | nil =>
    intro c r _ h0 h
    rw [formatLoop_nil pfx export_ target c hp] at h
    rcases h0 with h0 | h0
    · exact dump_writes pfx target c r h0 h
    · exact absurd rfl h0
  | cons l rest ih =>
    intro c r hall _ h
    have hl := hall l (List.mem_cons_self _ _)
    rw [formatLoop_block_line pfx export_ target hp l rest c hl] at h
    obtain ⟨q, hq, h⟩ := bind_eq_ok h
    obtain ⟨r2, hr2, h⟩ := bind_eq_ok h
    injection h with h
    rw [← h]
    rcases processLine_progress pfx target l c q hq with h1 | h1
    · simp [h1]
    · have : r2.1 ≠ [] := by
        by_cases he : atEOF l = true
        · rw [if_pos he, formatLoop_nil pfx export_ target _ hp] at hr2
          exact dump_writes pfx target _ r2 h1 hr2
        · rw [if_neg he] at hr2
          exact ih _ r2 (fun x hx => hall x (List.mem_cons_of_mem _ hx)) (Or.inl h1) hr2
      simp [this]

theorem allBytes_last_newline (t : Trace) (ht : t ≠ []) (h : ∀ w ∈ t, TrimmedLine w.2) :
    (allBytes t).getLast? = some 10 := by
  induction t using List.reverseRecOn with
  | nil => exact absurd rfl ht
  | append_singleton t' w _ =>
    obtain ⟨body, b, hw, _, _⟩ := h w (by simp)
    rw [allBytes_append]
    have : allBytes [w] = body ++ [b, 10] := by simp [allBytes, hw]
    rw [this]
    have e : allBytes t' ++ (body ++ [b, 10]) = (allBytes t' ++ body ++ [b]) ++ [10] := by simp
    rw [e, List.getLast?_append_of_ne_nil _ (by simp)]
    rfl

/-- C15: for an input that does not end with a newline and an export marker that
holds no newline: if its last line is in the comment block (every line is), the
result is the result for the input with the newline added, and an output ends
with a newline; if the last line is the first line that is not in the comment
block, the output is the output for the lines of the block followed by that line
as it is, which does not end with a newline. -/
theorem last_line_without_newline (export_ x : List Nat) (T : Int) (delim : List Nat)
    (hx : x ≠ []) (hlast : x.getLast? ≠ some 10) (hexp : 10 ∉ export_) :
    ((∀ l ∈ splitLines x,
          hasPrefix (workPrefix ((splitLines x).headD []) delim) export_ l = true) →
        Format export_ x T delim = Format export_ (x ++ [10]) T delim ∧
          ∀ y, Format export_ x T delim = .ok y → y.getLast? = some 10) ∧
      ∀ block l, splitLines x = block ++ [l] →
        (∀ b ∈ block,
          hasPrefix (workPrefix ((splitLines x).headD []) delim) export_ b = true) →
        hasPrefix (workPrefix ((splitLines x).headD []) delim) export_ l = false →
        l ≠ [] ∧ l.getLast? ≠ some 10 ∧
          Format export_ x T delim =
            (fun q : Trace × List Nat => allBytes q.1 ++ l) <$>
              formatLoop (workPrefix ((splitLines x).headD []) delim) export_
                (workTarget ((splitLines x).headD []) T delim) block [] := by
  obtain ⟨init, l, hs, hl, h10, hs'⟩ := splitLines_newline x hx hlast
  have hp := workPrefix_ne_nil ((splitLines x).headD []) delim
  constructor
  · intro hall
    have hinl : hasPrefix (workPrefix ((splitLines x).headD []) delim) export_ l = true :=
      hall l (by rw [hs]; simp)
    have hinit : ∀ b ∈ init,
        hasPrefix (workPrefix ((splitLines x).headD []) delim) export_ b = true ∧
          atEOF b = false := by
      intro b hb
      refine ⟨hall b (by rw [hs]; exact List.mem_append_left _ hb), ?_⟩
      apply splitLines_dropLast x
      rw [hs]
      simpa using hb
    have hwork : workPrefix ((splitLines (x ++ [10])).headD []) delim =
          workPrefix ((splitLines x).headD []) delim ∧
        workTarget ((splitLines (x ++ [10])).headD []) T delim =
          workTarget ((splitLines x).headD []) T delim := by
      rw [hs', hs]
      cases init with
      | nil =>
        simp only [List.nil_append, List.headD_cons]
        rw [hs] at hinl
        simp only [List.nil_append, List.headD_cons] at hinl
        exact work_newline l delim export_ T h10 hinl
      | cons b bs => exact ⟨rfl, rfl⟩
    constructor
    · unfold Format Format2
      dsimp only
      rw [hwork.1, hwork.2, hs', formatLoop_newline _ export_ _ hp hexp l hinl init [] hinit,
        ← hs]
    · intro y hy
      unfold Format Format2 at hy
      dsimp only at hy
      cases hq : formatLoop (workPrefix ((splitLines x).headD []) delim) export_
          (workTarget ((splitLines x).headD []) T delim) (splitLines x) [] with
      | error e => rw [hq] at hy; cases hy
      | ok q =>
        rw [hq] at hy
        simp only [Functor.map, Except.map, Except.ok.injEq] at hy
        rw [← hy]
        apply allBytes_last_newline
        · exact formatLoop_writes _ export_ _ hp _ [] q hall
            (Or.inr (by rw [hs]; simp)) hq
        · exact formatLoop_trimmed _ export_ _ hp _ [] q
            (fun b hb => ⟨splitLines_proper x b hb, hall b hb⟩) tidyBuf_nil (Or.inl rfl) hq
  · intro block l' hs2 hblock hl'
    have hbl : block = init ∧ l' = l := by
      have := hs.symm.trans hs2
      have h1 := List.append_inj' this (by simp)
      exact ⟨h1.1.symm, by simpa using h1.2.symm⟩
    obtain ⟨rfl, rfl⟩ := hbl
    have hll : l'.getLast? ≠ some 10 := by
      have hflat := splitLines_flatten x
      rw [hs] at hflat
      simp only [List.flatten_append, List.flatten_cons, List.flatten_nil,
        List.append_nil] at hflat
      rw [← hflat, List.getLast?_append_of_ne_nil _ hl] at hlast
      exact hlast
    refine ⟨hl, hll, ?_⟩
    rw [Format_frame]
    generalize workPrefix ((splitLines x).headD []) delim = pfx at hblock hl'
    generalize workTarget ((splitLines x).headD []) T delim = W
    rw [hs, List.takeWhile_append_of_pos hblock, List.dropWhile_append_of_pos hblock]
    simp [List.takeWhile_cons, List.dropWhile_cons, hl']

theorem last_line_without_newline_witness :
    ascii "// a b\n// c" ≠ [] ∧ (ascii "// a b\n// c").getLast? ≠ some 10 ∧
      10 ∉ ascii "exp" ∧
      (∀ l ∈ splitLines (ascii "// a b\n// c"),
        hasPrefix (workPrefix ((splitLines (ascii "// a b\n// c")).headD []) [])
          (ascii "exp") l = true) ∧
      Format (ascii "exp") (ascii "// a b\n// c") 16 [] = Except.ok (ascii "// a b c\n") ∧
      Format (ascii "exp") (ascii "// a b\n// c") 16 [] =
        Format (ascii "exp") (ascii "// a b\n// c" ++ [10]) 16 [] ∧
      ∀ y, Format (ascii "exp") (ascii "// a b\n// c") 16 [] = .ok y → y.getLast? = some 10 :=
  ⟨by decide, by decide, by decide, by decide, by decide,
    (last_line_without_newline (ascii "exp") (ascii "// a b\n// c") 16 []
      (by decide) (by decide) (by decide)).1 (by decide)⟩

/-! ## The buffer between runs -/

/-- The loop of `Format2` leaves the buffer empty whenever it returns. -/
theorem formatLoop_comment_nil (pfx export_ : List Nat) (target : Int) (hp : pfx ≠ []) :
    ∀ (lines : List (List Nat)) (c : List Nat) (r : Trace × List Nat),
      formatLoop pfx export_ target lines c = .ok r → r.2 = [] := by
  intro lines
  induction lines with
  | nil =>
    intro c r h
    rw [formatLoop_nil pfx export_ target c hp] at h
    exact dump_comment_nil _ _ _ _ _ h
  | cons l rest ih =>
    intro c r h
    by_cases hin : hasPrefix pfx export_ l = true
    · rw [formatLoop_block_line pfx export_ target hp l rest c hin] at h
      obtain ⟨q, _, h⟩ := bind_eq_ok h
      obtain ⟨r2, hr2, h⟩ := bind_eq_ok h
      injection h with h
      rw [← h]
      show r2.2 = []
      by_cases he : atEOF l = true
      · rw [if_pos he, formatLoop_nil pfx export_ target _ hp] at hr2
        exact dump_comment_nil _ _ _ _ r2 hr2
      · rw [if_neg he] at hr2
        exact ih _ r2 hr2
    · rw [formatLoop_not_in_block pfx export_ target l rest c (by simpa using hin)] at h
      obtain ⟨q, hq, h⟩ := bind_eq_ok h
      injection h with h
      rw [← h]
      exact dump_comment_nil _ _ _ _ q hq

/-- A run of `Format2` that returns without a failed write leaves the buffer
empty, whatever the buffer held at its start. -/
theorem Format2_comment_nil (export_ c0 r : List Nat) (T : Int) (delim : List Nat)
    (t : Trace) (c : List Nat) (h : Format2 export_ c0 r T delim = .ok (t, c)) : c = [] :=
  formatLoop_comment_nil _ export_ _ (workPrefix_ne_nil _ _) _ c0 (t, c) h

theorem writeOut_ok (room : Nat) (s c : List Nat) (h : s.length ≤ room) :
    writeOut room s c = .ok (room - s.length) := by
  rw [writeOut, if_pos h]

theorem dumpLoopF_succ (pfx : List Nat) (target : Int) (fuel room : Nat) (c : List Nat) :
    dumpLoopF pfx target (fuel + 1) room c =
      if (c.length : Int) + 1 > target then
        (liftFault c (if target - 1 > 0 then
            (fun n : Nat => (n : Int)) <$> scanBack c (target - 1).toNat
          else .ok (target - 1))).bind fun j1 =>
          if (if j1 = 0 then ((scanFwd (c.drop target.toNat) target.toNat : Nat) : Int) else j1)
              = c.length then .ok (room, c)
          else
            (liftFault c (trimBack c (if j1 = 0 then
                ((scanFwd (c.drop target.toNat) target.toNat : Nat) : Int) else j1).toNat)).bind
              fun j3 =>
                (writeOut room (pfx ++ [32] ++ c.take (j3 + 1) ++ [10]) c).bind fun room1 =>
                  (liftFault c (skipFwd (c.drop (j3 + 1)) (j3 + 1))).bind fun j4 =>
                    dumpLoopF pfx target fuel room1 (c.drop j4)
      else .ok (room, c) := by
  rw [dumpLoopF]
  by_cases h1 : (c.length : Int) + 1 > target
  · rw [if_pos h1, if_pos h1]
    by_cases h2 : target - 1 > 0
    · simp only [h2, if_true]; rfl
    · simp only [h2, if_false]; rfl
  · rw [if_neg h1, if_neg h1]; rfl
theorem sinkBytes_out_write (s : List Nat) : sinkBytes Sink.out (write Sink.out s) = s := by
  by_cases h : s = [] <;> simp [sinkBytes, write, h]

theorem sinkBytes_out_write_cout (s : List Nat) : sinkBytes Sink.out (write Sink.cout s) = [] := by
  by_cases h : s = [] <;> simp [sinkBytes, write, h]

/-- When the first sink has room for all that the loop of `dump` writes to it, the
loop runs as it does on a sink that takes every write. -/
theorem dumpLoopF_sim (pfx : List Nat) (target : Int) :
    ∀ (fuel room : Nat) (c : List Nat) (r : Trace × List Nat),
      dumpLoop pfx target fuel c = .ok r → (sinkBytes Sink.out r.1).length ≤ room →
      dumpLoopF pfx target fuel room c = .ok (room - (sinkBytes Sink.out r.1).length, r.2) := by
  intro fuel
  induction fuel with
  | zero => intro room c r h; cases h
  | succ n ih =>
    intro room c r h hroom
    rw [dumpLoop_succ] at h
    rw [dumpLoopF_succ]
    by_cases h1 : (c.length : Int) + 1 > target
    · rw [if_pos h1] at h ⊢
      obtain ⟨j1, hj1, h⟩ := bind_eq_ok h
      rw [hj1]
      simp only [liftFault, Except.bind]
      generalize (if j1 = 0 then ((scanFwd (c.drop target.toNat) target.toNat : Nat) : Int)
        else j1) = j2 at h ⊢
      by_cases hj : j2 = c.length
      · rw [if_pos hj] at h ⊢
        injection h with h
        rw [← h]
        rfl
      · rw [if_neg hj] at h ⊢
        obtain ⟨j3, h3, h⟩ := bind_eq_ok h
        obtain ⟨j4, h4, h⟩ := bind_eq_ok h
        obtain ⟨r2, hr2, h⟩ := bind_eq_ok h
        injection h with h
        rw [← h] at hroom ⊢
        rw [sinkBytes_append, sinkBytes_out_write, List.length_append] at hroom
        rw [h3]
        dsimp only
        rw [writeOut_ok _ _ _ (by omega), h4]
        dsimp only
        rw [ih _ _ r2 hr2 (by omega)]
        have e : (sinkBytes Sink.out
            (write Sink.out (pfx ++ [32] ++ c.take (j3 + 1) ++ [10]) ++ r2.1)).length =
            (pfx ++ [32] ++ c.take (j3 + 1) ++ [10]).length +
              (sinkBytes Sink.out r2.1).length := by
          rw [sinkBytes_append, sinkBytes_out_write, List.length_append]
        show Except.ok _ = Except.ok _
        rw [e, Nat.sub_sub]
    · rw [if_neg h1] at h ⊢
      injection h with h
      rw [← h]
      rfl

theorem dump_unfold (pfx line : List Nat) (target : Int) (c : List Nat) :
    dump pfx line target c =
      (dumpLoop pfx target (c.length + 1) c).bind fun q =>
        .ok (if pfx.isPrefixOf line = true then
              (if q.2 ≠ [] then q.1 ++ write Sink.out (pfx ++ [32] ++ q.2 ++ [10]) else q.1) ++
                write Sink.out line
            else if line ≠ [] then
              (if q.2 ≠ [] then q.1 ++ write Sink.out (pfx ++ [32] ++ q.2 ++ [10]) else q.1) ++
                write Sink.cout line
            else (if q.2 ≠ [] then q.1 ++ write Sink.out (pfx ++ [32] ++ q.2 ++ [10]) else q.1),
          if q.2 ≠ [] then [] else q.2) := by
  simp only [dump, bind, Except.bind, pure, Except.pure]

theorem dumpF_unfold (pfx line : List Nat) (target : Int) (room : Nat) (c : List Nat) :
    dumpF pfx line target room c =
      (dumpLoopF pfx target (c.length + 1) room c).bind fun q =>
        (if q.2 ≠ [] then writeOut q.1 (pfx ++ [32] ++ q.2 ++ [10]) q.2
          else .ok q.1).bind fun room2 =>
          (if pfx.isPrefixOf line = true then
              writeOut room2 line (if q.2 ≠ [] then [] else q.2)
            else .ok room2).bind fun room3 =>
            .ok (room3, if q.2 ≠ [] then [] else q.2) := by
  simp only [dumpF, bind, Except.bind, pure, Except.pure]
  cases dumpLoopF pfx target (c.length + 1) room c with
  | error e => rfl
  | ok q =>
    dsimp only
    by_cases hq2 : q.2 = []
    · simp only [hq2, ne_eq, not_true_eq_false, if_false]
      by_cases hpre : pfx.isPrefixOf line = true
      · simp only [hpre, if_true]
      · simp only [hpre, if_false, Bool.false_eq_true]
    · simp only [hq2, ne_eq, not_false_eq_true, if_true]
      cases writeOut q.1 (pfx ++ [32] ++ q.2 ++ [10]) q.2 with
      | error e => rfl
      | ok v =>
        dsimp only
        by_cases hpre : pfx.isPrefixOf line = true
        · simp only [hpre, if_true]
        · simp only [hpre, if_false, Bool.false_eq_true]

theorem ok_room_congr {a b : Nat} (c : List Nat) (h : a = b) :
    (Except.ok (a, c) : Except Halt (Nat × List Nat)) = .ok (b, c) := by rw [h]

/-- When the first sink has room for all that `dump` writes to it, `dump` runs as
it does on a sink that takes every write. -/
theorem dumpF_sim (pfx line : List Nat) (target : Int) (room : Nat) (c : List Nat)
    (r : Trace × List Nat) (h : dump pfx line target c = .ok r)
    (hroom : (sinkBytes Sink.out r.1).length ≤ room) :
    dumpF pfx line target room c = .ok (room - (sinkBytes Sink.out r.1).length, r.2) := by
  rw [dump_unfold] at h
  obtain ⟨q, hq, h⟩ := bind_eq_ok h
  injection h with h
  rw [dumpF_unfold]
  rw [← h] at hroom ⊢
  dsimp only at hroom ⊢
  by_cases hq2 : q.2 = []
  · simp only [hq2, ne_eq, not_true_eq_false, if_false] at hroom ⊢
    by_cases hpre : pfx.isPrefixOf line = true
    · simp only [hpre, if_true] at hroom ⊢
      have e : (sinkBytes Sink.out (q.1 ++ write Sink.out line)).length =
          (sinkBytes Sink.out q.1).length + line.length := by
        rw [sinkBytes_append, sinkBytes_out_write, List.length_append]
      rw [e] at hroom ⊢
      rw [dumpLoopF_sim pfx target _ room c q hq (by omega)]
      have hw := writeOut_ok (room - (sinkBytes Sink.out q.1).length) line [] (by omega)
      simp only [Except.bind, hq2, ne_eq, not_true_eq_false, if_false, hw]
      exact ok_room_congr _ (by omega)
    · simp only [hpre, if_false, Bool.false_eq_true] at hroom ⊢
      by_cases hl : line = []
      · simp only [hl, ne_eq, not_true_eq_false, if_false] at hroom ⊢
        rw [dumpLoopF_sim pfx target _ room c q hq hroom]
        simp only [Except.bind, hq2, ne_eq, not_true_eq_false, if_false]
      · simp only [hl, ne_eq, not_false_eq_true, if_true] at hroom ⊢
        have e : (sinkBytes Sink.out (q.1 ++ write Sink.cout line)).length =
            (sinkBytes Sink.out q.1).length := by
          rw [sinkBytes_append, sinkBytes_out_write_cout, List.append_nil]
        rw [e] at hroom ⊢
        rw [dumpLoopF_sim pfx target _ room c q hq hroom]
        simp only [Except.bind, hq2, ne_eq, not_true_eq_false, if_false]
  · simp only [hq2, ne_eq, not_false_eq_true, if_true] at hroom ⊢
    have hS : (sinkBytes Sink.out (q.1 ++ write Sink.out (pfx ++ [32] ++ q.2 ++ [10]))).length =
        (sinkBytes Sink.out q.1).length + (pfx ++ [32] ++ q.2 ++ [10]).length := by
      rw [sinkBytes_append, sinkBytes_out_write, List.length_append]
    by_cases hpre : pfx.isPrefixOf line = true
    · simp only [hpre, if_true] at hroom ⊢
      have e : (sinkBytes Sink.out (q.1 ++ write Sink.out (pfx ++ [32] ++ q.2 ++ [10]) ++
          write Sink.out line)).length =
          (sinkBytes Sink.out q.1).length + (pfx ++ [32] ++ q.2 ++ [10]).length +
            line.length := by
        rw [sinkBytes_append, sinkBytes_out_write, List.length_append, hS]
      rw [e] at hroom ⊢
      rw [dumpLoopF_sim pfx target _ room c q hq (by omega)]
      have hw1 := writeOut_ok (room - (sinkBytes Sink.out q.1).length)
        (pfx ++ [32] ++ q.2 ++ [10]) q.2 (by omega)
      have hw2 := writeOut_ok (room - (sinkBytes Sink.out q.1).length -
        (pfx ++ [32] ++ q.2 ++ [10]).length) line [] (by omega)
      simp only [Except.bind, hq2, ne_eq, not_false_eq_true, if_true, hw1, hw2]
      exact ok_room_congr _ (by omega)
    · simp only [hpre, if_false, Bool.false_eq_true] at hroom ⊢
      by_cases hl : line = []
      · simp only [hl, ne_eq, not_true_eq_false, if_false] at hroom ⊢
        rw [hS] at hroom ⊢
        rw [dumpLoopF_sim pfx target _ room c q hq (by omega)]
        have hw1 := writeOut_ok (room - (sinkBytes Sink.out q.1).length)
          (pfx ++ [32] ++ q.2 ++ [10]) q.2 (by omega)
        simp only [Except.bind, hq2, ne_eq, not_false_eq_true, if_true, hw1]
        exact ok_room_congr _ (by omega)
      · simp only [hl, ne_eq, not_false_eq_true, if_true] at hroom ⊢
        have e : (sinkBytes Sink.out (q.1 ++ write Sink.out (pfx ++ [32] ++ q.2 ++ [10]) ++
            write Sink.cout line)).length =
            (sinkBytes Sink.out q.1).length + (pfx ++ [32] ++ q.2 ++ [10]).length := by
          rw [sinkBytes_append, sinkBytes_out_write_cout, List.append_nil, hS]
        rw [e] at hroom ⊢
        rw [dumpLoopF_sim pfx target _ room c q hq (by omega)]
        have hw1 := writeOut_ok (room - (sinkBytes Sink.out q.1).length)
          (pfx ++ [32] ++ q.2 ++ [10]) q.2 (by omega)
        simp only [Except.bind, hq2, ne_eq, not_false_eq_true, if_true, hw1]
        exact ok_room_congr _ (by omega)
theorem processLineF_sim (pfx : List Nat) (target : Int) (line : List Nat) (room : Nat)
    (c : List Nat) (r : Trace × List Nat) (h : processLine pfx target line c = .ok r)
    (hroom : (sinkBytes Sink.out r.1).length ≤ room) :
    processLineF pfx target line room c =
      .ok (room - (sinkBytes Sink.out r.1).length, r.2) := by
  cases hs : stripTrailing line with
  | error e => simp [processLine, hs, bind, Except.bind] at h
  | ok line1 =>
    rw [processLine_stripped pfx target line c line1 hs] at h
    simp only [processLineF, hs, liftFault, bind, Except.bind, pure, Except.pure]
    by_cases h1 : line1 = pfx
    · rw [if_pos h1] at h ⊢
      exact dumpF_sim _ _ _ _ _ r h hroom
    · rw [if_neg h1] at h ⊢
      cases hb : line1[pfx.length]? with
      | none => rw [hb] at h; cases h
      | some b =>
        rw [hb] at h
        dsimp only at h ⊢
        generalize (if b = 32 then line1.drop (pfx.length + 1) else line1.drop pfx.length)
          = line2 at h ⊢
        cases line2 with
        | nil => cases h
        | cons x xs =>
          dsimp only at h ⊢
          by_cases h9 : x = 9
          · rw [if_pos h9] at h ⊢
            exact dumpF_sim _ _ _ _ _ r h hroom
          · rw [if_neg h9] at h ⊢
            by_cases h32 : x = 32
            · rw [if_pos h32] at h ⊢
              exact dumpF_sim _ _ _ _ _ r h hroom
            · rw [if_neg h32] at h ⊢
              injection h with h
              rw [← h]
              rfl

theorem loopBodyF_sim (pfx export_ : List Nat) (target : Int) (line : List Nat) (eof : Bool)
    (rest : List (List Nat)) (cont : List Nat → Except Fault (Trace × List Nat))
    (contF : Nat → List Nat → Except Halt (Nat × List Nat))
    (hcont : ∀ room c r, cont c = .ok r → (sinkBytes Sink.out r.1).length ≤ room →
      contF room c = .ok (room - (sinkBytes Sink.out r.1).length, r.2))
    (room : Nat) (c : List Nat) (r : Trace × List Nat)
    (h : loopBody pfx export_ target line eof rest c cont = .ok r)
    (hroom : (sinkBytes Sink.out r.1).length ≤ room) :
    loopBodyF pfx export_ target line eof room c contF =
      .ok (room - (sinkBytes Sink.out r.1).length, r.2) := by
  unfold loopBody at h
  unfold loopBodyF
  by_cases hin : hasPrefix pfx export_ line = true
  · simp only [hin, Bool.not_true, Bool.false_eq_true, if_false, bind] at h ⊢
    obtain ⟨q, hq, h⟩ := bind_eq_ok h
    have happ : ∀ r2 : Trace × List Nat, (sinkBytes Sink.out (q.1 ++ r2.1)).length =
        (sinkBytes Sink.out q.1).length + (sinkBytes Sink.out r2.1).length := fun r2 => by
      rw [sinkBytes_append, List.length_append]
    by_cases he : eof = true
    · simp only [he, if_true] at h ⊢
      obtain ⟨r2, hr2, h⟩ := bind_eq_ok h
      injection h with h
      rw [← h] at hroom ⊢
      dsimp only at hroom ⊢
      rw [happ] at hroom ⊢
      rw [processLineF_sim pfx target line room c q hq (by omega)]
      simp only [Except.bind]
      rw [dumpF_sim pfx [] target _ q.2 r2 hr2 (by omega)]
      exact ok_room_congr _ (by omega)
    · simp only [he, if_false, Bool.false_eq_true] at h ⊢
      obtain ⟨r2, hr2, h⟩ := bind_eq_ok h
      injection h with h
      rw [← h] at hroom ⊢
      dsimp only at hroom ⊢
      rw [happ] at hroom ⊢
      rw [processLineF_sim pfx target line room c q hq (by omega)]
      simp only [Except.bind]
      rw [hcont _ q.2 r2 hr2 (by omega)]
      exact ok_room_congr _ (by omega)
  · simp only [hin, Bool.not_false, if_true, bind] at h ⊢
    obtain ⟨q, hq, h⟩ := bind_eq_ok h
    injection h with h
    rw [← h] at hroom ⊢
    dsimp only at hroom ⊢
    have e : (sinkBytes Sink.out (q.1 ++ copyRest rest)).length =
        (sinkBytes Sink.out q.1).length := by
      rw [sinkBytes_append, copyRest, sinkBytes_out_write_cout, List.append_nil]
    rw [e] at hroom ⊢
    exact dumpF_sim _ _ _ _ _ q hq hroom

/-- When the first sink has room for all that the run writes to it, the run on the
failing sink is the run on a sink that takes every write. -/
theorem formatLoopF_sim (pfx export_ : List Nat) (target : Int) :
    ∀ (lines : List (List Nat)) (room : Nat) (c : List Nat) (r : Trace × List Nat),
      formatLoop pfx export_ target lines c = .ok r →
      (sinkBytes Sink.out r.1).length ≤ room →
      formatLoopF pfx export_ target lines room c =
        .ok (room - (sinkBytes Sink.out r.1).length, r.2) := by
  intro lines
  induction lines with
  | nil =>
    intro room c r h hroom
    refine loopBodyF_sim pfx export_ target [] true [] _ _ ?_ room c r h hroom
    intro room c r h _
    injection h with h
    rw [← h]
    rfl
  | cons l rest ih =>
    intro room c r h hroom
    exact loopBodyF_sim pfx export_ target l (atEOF l) rest _ _ ih room c r h hroom

theorem Format2F_sim (export_ c0 r : List Nat) (T : Int) (delim : List Nat) (room : Nat)
    (t : Trace) (c : List Nat) (h : Format2 export_ c0 r T delim = .ok (t, c))
    (hroom : (sinkBytes Sink.out t).length ≤ room) :
    Format2F export_ c0 r T delim room = .ok (room - (sinkBytes Sink.out t).length, c) :=
  formatLoopF_sim _ export_ _ _ room c0 (t, c) h hroom
theorem wsAt_false_of_all (w : List Nat) (h : ∀ b ∈ w, isspace b = false) (i : Nat) :
    wsAt w i = false := by
  unfold wsAt
  cases hi : w[i]? with
  | none => rfl
  | some b => exact h b (List.getElem?_mem hi)

/-- The flush of a buffer that is one word, on a first sink that has no room for
the line: the write fails and the buffer keeps the word. -/
theorem dumpF_word (pfx w : List Nat) (W room : Nat) (hW : 1 ≤ W) (hw : w ≠ [])
    (hws : ∀ b ∈ w, isspace b = false) (hroom : room < (pfx ++ [32] ++ w ++ [10]).length) :
    dumpF pfx [] (W : Int) room w = .error ⟨.write, w⟩ := by
  have hloop : dumpLoop pfx (W : Int) (w.length + 1) w = .ok ([], w) := by
    by_cases hlen : w.length < W
    · exact dumpLoop_short pfx w W _ hW hlen
    · exact dumpLoop_no_break pfx w W _ hW (by omega) (fun k hk => by
        have := wsAt_false_of_all w hws k
        rw [hk.1] at this
        cases this)
  have hF := dumpLoopF_sim pfx (W : Int) _ room w ([], w) hloop (by simp [sinkBytes])
  rw [dumpF_unfold, hF]
  simp only [Except.bind, ne_eq, hw, not_false_eq_true, if_true]
  have e : (sinkBytes Sink.out ([] : Trace)).length = 0 := rfl
  rw [e, Nat.sub_zero, writeOut, if_neg (by omega)]

/-- The stale buffer after a failed write, for a fresh `bufio.Writer` (`room` is
4096) as for any other room: on the input `// w` with a word `w` of at least
`room - 3` bytes the run stops in the write of the flush, `Format2` returns the
error, and the buffer still holds `w`. -/
theorem write_error_keeps_buffer (w : List Nat) (T : Int) (room : Nat) (hw : w ≠ [])
    (hws : ∀ b ∈ w, isspace b = false) (hT : 3 ≤ T) (hmax : T ≤ maxInt)
    (hroom : room < w.length + 4) :
    Format2F (ascii "export ") [] (ascii "// " ++ w ++ [10]) T [] room =
      .error ⟨.write, w⟩ := by
  have h10 : 10 ∉ ascii "// " ++ w := by
    intro hm
    rcases List.mem_append.mp hm with h | h
    · revert h; decide
    · exact absurd (hws 10 h) (by decide)
  have hsplit : splitLines (ascii "// " ++ w ++ [10]) = [ascii "// " ++ w ++ [10]] := by
    have := splitLines_line (ascii "// " ++ w) [] h10
    simpa [splitLines] using this
  obtain ⟨x, xs, rfl⟩ : ∃ x xs, w = x :: xs := by
    cases w with
    | nil => exact absurd rfl hw
    | cons x xs => exact ⟨x, xs, rfl⟩
  have hx : isspace x = false := hws x (List.mem_cons_self _ _)
  have hx9 : x ≠ 9 := fun h => by rw [h] at hx; exact absurd hx (by decide)
  have hx32 : x ≠ 32 := fun h => by rw [h] at hx; exact absurd hx (by decide)
  have e3 : ascii "// " = [47, 47, 32] := by decide
  have eexp : ascii "export " = [101, 120, 112, 111, 114, 116, 32] := by decide
  have hpfx : workPrefix (ascii "// " ++ (x :: xs) ++ [10]) [] = [47, 47] := by
    rw [e3]
    simp [workPrefix, leadIndex, detectDelim, ascii_dash_space, ascii_slash, ascii_hash,
      ascii_dash, List.isPrefixOf]
  have htgt : workTarget (ascii "// " ++ (x :: xs) ++ [10]) T [] = T - 2 := by
    rw [e3]
    have hr : wrapInt (T - 2) = T - 2 :=
      wrapInt_of_range (by unfold minInt; omega) (by omega)
    simp [workTarget, leadIndex, leadTarget, detectDelim, ascii_dash_space, ascii_slash,
      ascii_hash, ascii_dash, List.isPrefixOf, hr]
  obtain ⟨W, hW⟩ : ∃ W : Nat, T - 2 = (W : Int) := ⟨(T - 2).toNat, by omega⟩
  have hW1 : 1 ≤ W := by omega
  have hin : hasPrefix [47, 47] (ascii "export ") (ascii "// " ++ (x :: xs) ++ [10]) = true := by
    rw [e3, eexp]
    simp [hasPrefix, List.isPrefixOf]
  have hstrip : stripTrailing (ascii "// " ++ (x :: xs) ++ [10]) =
      .ok ([47, 47, 32] ++ (x :: xs)) := by
    rw [stripTrailing_newline, stripTrailing_eq, e3]
    have hlast : ∃ b, ([47, 47, 32] ++ (x :: xs)).getLast? = some b ∧ isspace b = false := by
      refine ⟨(x :: xs).getLast (by simp), ?_, hws _ (List.getLast_mem _)⟩
      rw [List.getLast?_append_of_ne_nil _ (by simp), List.getLast?_eq_getLast]
    obtain ⟨b, hb, hbs⟩ := hlast
    rw [trimRight_of_getLast _ b hb hbs, if_neg (by simp)]
  have hproc : processLineF [47, 47] (W : Int) (ascii "// " ++ (x :: xs) ++ [10]) room [] =
      .ok (room, x :: xs) := by
    simp only [processLineF, hstrip, liftFault, bind, Except.bind, pure, Except.pure]
    simp [hx9, hx32, appendProse_nil]
  have hnl : atEOF (ascii "// " ++ (x :: xs) ++ [10]) = false :=
    (atEOF_false_iff _).mpr ⟨_, rfl⟩
  unfold Format2F
  dsimp only
  rw [hsplit]
  simp only [List.headD_cons]
  rw [hpfx, htgt, hW]
  simp only [formatLoopF, loopBodyF, hin, hnl, hproc, bind, Except.bind, Bool.not_true,
    Bool.false_eq_true, if_false, hasPrefix_nil [47, 47] _ (by simp), Bool.not_false, if_true]
  refine dumpF_word [47, 47] (x :: xs) W room hW1 (by simp) hws ?_
  simp only [List.length_append, List.length_cons, List.length_nil] at hroom ⊢
  omega

theorem write_error_keeps_buffer_witness :
    List.replicate 4093 97 ≠ [] ∧ (∀ b ∈ List.replicate 4093 97, isspace b = false) ∧
      (3 : Int) ≤ 80 ∧ 4096 < (List.replicate 4093 97).length + 4 ∧
      Format2F (ascii "export ") [] (ascii "// " ++ List.replicate 4093 97 ++ [10]) 80 [] 4096 =
        .error ⟨.write, List.replicate 4093 97⟩ :=
  have h1 : List.replicate 4093 97 ≠ [] := fun h =>
    absurd ((List.length_replicate 4093 97).symm.trans (congrArg List.length h)) (by decide)
  have h2 : ∀ b ∈ List.replicate 4093 97, isspace b = false := fun b hb => by
    rw [List.eq_of_mem_replicate hb]; decide
  have h4 : 4096 < (List.replicate 4093 97).length + 4 := by
    rw [List.length_replicate]; decide
  ⟨h1, h2, by decide, h4,
    write_error_keeps_buffer (List.replicate 4093 97) 80 4096 h1 h2 (by decide) (by decide) h4⟩

/-- C16 fails on the code: nothing resets the buffer when a run stops early.
A run of `Format2` on `// a` whose first sink takes no byte (a `*bufio.Writer` in
its error state) stops in the first write, returns the error, and leaves `a` in the
buffer; so does a run with the target 2 (effective width 0), which panics.  The
next run, on the input `x` with working sinks, then writes the line `// a` that is
not in its input, where a run from the empty buffer writes the input only; and on
the input `// b` it writes `// a b`. -/
theorem stale_buffer_after_failed_run :
    Format2F (ascii "export ") [] (ascii "// a\n") 80 [] 0 =
        Except.error ⟨Cause.write, ascii "a"⟩ ∧
      Format2F (ascii "export ") [] (ascii "// a\n") 2 [] 4096 =
        Except.error ⟨Cause.fault Fault.index, ascii "a"⟩ ∧
      Format2 (ascii "export ") (ascii "a") (ascii "x\n") 80 [] =
        Except.ok ([(Sink.out, ascii "// a\n"), (Sink.cout, ascii "x\n")], []) ∧
      Format2 (ascii "export ") [] (ascii "x\n") 80 [] =
        Except.ok ([(Sink.cout, ascii "x\n")], []) ∧
      Format2 (ascii "export ") (ascii "a") (ascii "// b\n") 80 [] =
        Except.ok ([(Sink.out, ascii "// a b\n")], []) := by
  refine ⟨by decide, by decide, by decide, by decide, by decide⟩

/-! ## `unique` -/

/-- The loop of `unique` computes the words kept, in the first `h+1` places of the
slice. -/
theorem uniqueLoop_spec : ∀ (rest kept mid arr : List (List Nat)) (h x : Nat),
    arr = kept ++ mid ++ rest → kept.length = h + 1 → (kept ++ mid).length = x →
    (uniqueLoop rest.length x h arr).2.take ((uniqueLoop rest.length x h arr).1 + 1) =
        rest.foldl keepStep kept ∧
      (uniqueLoop rest.length x h arr).1 + 1 ≤ (uniqueLoop rest.length x h arr).2.length := by
  intro rest
  induction rest with
  | nil =>
    intro kept mid arr h x harr hk hx
    subst harr
    simp only [List.length_nil, uniqueLoop, List.append_nil, List.foldl_nil]
    refine ⟨?_, by simp; omega⟩
    rw [← hk, List.take_left]
  | cons w rest ih =>
    intro kept mid arr h x harr hk hx
    have hax : arr[x]? = some w := by
      rw [harr, List.getElem?_append_right (by omega)]
      simp [hx]
    have hx0 : x ≠ 0 := by
      rw [← hx, List.length_append]; omega
    have hah : arr[h]? = kept.getLast? := by
      rw [harr, List.append_assoc, List.getElem?_append_left (by omega),
        List.getLast?_eq_getElem?]
      congr 1
      omega
    simp only [List.length_cons, uniqueLoop, hax, hx0, false_or, hah, List.foldl_cons]
    by_cases hl : kept.getLast? = some w
    · rw [if_pos hl]
      have := ih kept (mid ++ [w]) arr h (x + 1) (by rw [harr]; simp) hk
        (by rw [← hx]; simp [Nat.add_assoc])
      rw [keepStep, if_pos hl]
      exact this
    · rw [if_neg hl]
      have hset : ∃ mid', arr.set (h + 1) w = (kept ++ [w]) ++ mid' ++ rest ∧
          (kept ++ [w] ++ mid').length = x + 1 := by
        cases mid with
        | nil =>
          refine ⟨[], ?_, by rw [← hx]; simp⟩
          rw [harr, List.append_nil, List.set_append, if_neg (by omega)]
          simp [hk]
        | cons m ms =>
          refine ⟨ms ++ [w], ?_, by rw [← hx]; simp [Nat.add_assoc]⟩
          rw [harr, List.append_assoc, List.set_append, if_neg (by omega)]
          simp [hk]
      obtain ⟨mid', hs, hl'⟩ := hset
      have := ih (kept ++ [w]) mid' (arr.set (h + 1) w) (h + 1) (x + 1) hs (by simp [hk]) hl'
      rw [keepStep, if_neg hl]
      exact this
theorem le_last_of_sorted (kept : List (List Nat)) (l : List Nat)
    (hs : kept.Sorted (· < ·)) (hl : kept.getLast? = some l) : ∀ a ∈ kept, a ≤ l := by
  have hsplit : kept = kept.dropLast ++ [l] := (List.dropLast_append_getLast? l hl).symm
  rw [hsplit] at hs
  have h3 := (List.pairwise_append.mp hs).2.2
  intro a ha
  rw [hsplit] at ha
  rcases List.mem_append.mp ha with h | h
  · exact le_of_lt (h3 a h l (by simp))
  · simp only [List.mem_singleton] at h
    rw [h]

/-- The words kept from an ascending list are strictly ascending and are the words
of the list. -/
theorem keep_sorted : ∀ (rest kept : List (List Nat)), kept ≠ [] → kept.Sorted (· < ·) →
    rest.Sorted (· ≤ ·) → (∀ a ∈ kept, ∀ w ∈ rest, a ≤ w) →
    (rest.foldl keepStep kept).Sorted (· < ·) ∧
      ∀ w, w ∈ rest.foldl keepStep kept ↔ w ∈ kept ∨ w ∈ rest := by
  intro rest
  induction rest with
  | nil => intro kept _ hs _ _; exact ⟨hs, fun w => by simp⟩
  | cons v rest ih =>
    intro kept hne hs hr hb
    have hr' : rest.Sorted (· ≤ ·) := (List.sorted_cons.mp hr).2
    have hv : ∀ w ∈ rest, v ≤ w := (List.sorted_cons.mp hr).1
    rw [List.foldl_cons]
    by_cases hl : kept.getLast? = some v
    · rw [keepStep, if_pos hl]
      obtain ⟨h1, h2⟩ := ih kept hne hs hr' (fun a ha w hw => hb a ha w (List.mem_cons_of_mem _ hw))
      refine ⟨h1, fun w => ?_⟩
      rw [h2 w, List.mem_cons]
      constructor
      · rintro (h | h)
        · exact Or.inl h
        · exact Or.inr (Or.inr h)
      · rintro (h | h | h)
        · exact Or.inl h
        · exact Or.inl (h ▸ List.mem_of_getLast?_eq_some hl)
        · exact Or.inr h
    · rw [keepStep, if_neg hl]
      obtain ⟨l, hlast⟩ : ∃ l, kept.getLast? = some l :=
        ⟨kept.getLast hne, List.getLast?_eq_getLast _ hne⟩
      have hlt : ∀ a ∈ kept, a < v := by
        intro a ha
        have h1 : a ≤ l := le_last_of_sorted kept l hs hlast a ha
        have h2 : l ≤ v := hb l (List.mem_of_getLast?_eq_some hlast) v (List.mem_cons_self _ _)
        have h3 : l ≠ v := fun h => hl (h ▸ hlast)
        exact lt_of_le_of_lt h1 (lt_of_le_of_ne h2 h3)
      have hs' : (kept ++ [v]).Sorted (· < ·) := by
        apply List.pairwise_append.mpr
        refine ⟨hs, List.pairwise_singleton _ _, fun a ha b hb' => ?_⟩
        simp only [List.mem_singleton] at hb'
        rw [hb']
        exact hlt a ha
      obtain ⟨h1, h2⟩ := ih (kept ++ [v]) (by simp) hs' hr' (fun a ha w hw => by
        rcases List.mem_append.mp ha with h | h
        · exact hb a h w (List.mem_cons_of_mem _ hw)
        · simp only [List.mem_singleton] at h
          rw [h]
          exact hv w hw)
      refine ⟨h1, fun w => ?_⟩
      rw [h2 w, List.mem_append, List.mem_singleton, List.mem_cons, or_assoc]

/-- On a list of words that is not empty `unique` returns the words of the list in
strictly ascending order, each one once. -/
theorem unique_spec (words spare : List (List Nat)) (hne : words ≠ []) :
    ∃ res, unique words spare = .ok res ∧ res.Sorted (· < ·) ∧ res.Nodup ∧
      ∀ w, w ∈ res ↔ w ∈ words := by
  have hperm := List.perm_insertionSort (· ≤ ·) words
  have hsorted := List.sorted_insertionSort (· ≤ ·) words
  cases hsrt : words.insertionSort (· ≤ ·) with
  | nil =>
    rw [hsrt] at hperm
    exact absurd hperm.symm.eq_nil hne
  | cons a t =>
    rw [hsrt] at hperm hsorted
    have hfirst : uniqueLoop (a :: t).length 0 0 (a :: t) = uniqueLoop t.length 1 0 (a :: t) := by
      simp [uniqueLoop]
    obtain ⟨s1, s2⟩ := uniqueLoop_spec t [a] [] (a :: t) 0 1 rfl rfl rfl
    obtain ⟨k1, k2⟩ := keep_sorted t [a] (by simp) (List.sorted_singleton a)
      (List.sorted_cons.mp hsorted).2 (fun x hx w hw => by
        simp only [List.mem_singleton] at hx
        rw [hx]
        exact (List.sorted_cons.mp hsorted).1 w hw)
    refine ⟨t.foldl keepStep [a], ?_, k1, k1.nodup, fun w => ?_⟩
    · unfold unique
      dsimp only
      rw [hsrt, hfirst, if_pos (by omega), List.take_append_of_le_length s2, s1]
    · rw [k2 w, ← hperm.mem_iff, List.mem_singleton, List.mem_cons]

theorem unique_spec_witness :
    [ascii "b", ascii "a", ascii "b"] ≠ [] ∧
      unique [ascii "b", ascii "a", ascii "b"] [] = Except.ok [ascii "a", ascii "b"] ∧
      ∃ res, unique [ascii "b", ascii "a", ascii "b"] [] = .ok res ∧ res.Sorted (· < ·) ∧
        res.Nodup ∧ ∀ w, w ∈ res ↔ w ∈ [ascii "b", ascii "a", ascii "b"] :=
  ⟨by decide, by decide, unique_spec [ascii "b", ascii "a", ascii "b"] [] (by decide)⟩

/-- C20 fails on the code for the empty list: `h` is 0 after the loop and
`words[:1]` is out of range for a slice of capacity 0 (as `strings.Fields` returns
it for a text without words), so `unique` panics; with a spare element in the
backing array it returns that element, a list of one word.  In neither case is the
result the empty list. -/
theorem unique_empty_panics :
    unique [] [] = Except.error Fault.index ∧ unique [] [ascii ""] = Except.ok [ascii ""] := by
  refine ⟨by decide, by decide⟩

/-! ## Formatting twice -/

/-- One iteration of the loop of `dump` at a break position, as `wrapStep` gives
it. -/
theorem wrapStep_break (p : List Nat) (W k : Nat) (hW : 1 ≤ W) (hc : noEdgeSpace p = true)
    (hlen : W ≤ p.length) (hk : IsBreak p W k) :
    ∃ j3 j4, j3 < k ∧ k < j4 ∧ j4 < p.length ∧ wsAt p j3 = false ∧ wsAt p j4 = false ∧
      (∀ i, j3 < i → i < j4 → wsAt p i = true) ∧
      trimRight (p.take k) = p.take (j3 + 1) ∧ (p.drop k).dropWhile isspace = p.drop j4 ∧
      wrapStep (W : Int) p = .ok (some (j3, j4)) := by
  obtain ⟨j1, hj1, hj2⟩ := scan_of_isBreak p W k hW hlen hk
  have hkws : wsAt p k = true := hk.1
  have hklt : k < p.length := wsAt_lt hkws
  have hk0 : 1 ≤ k := by
    rcases hk.2 with ⟨h, _⟩ | ⟨h, _⟩ <;> omega
  obtain ⟨j3, t1, t2, t3, t4⟩ := trimBack_spec p k (by omega) ⟨0, by omega, noEdgeSpace_head hc⟩
  have hlast := noEdgeSpace_last hc
  have hkl : k ≠ p.length - 1 := by
    intro h; rw [← h, hkws] at hlast; cases hlast
  obtain ⟨j4, s1, s2, s3, s4, s5⟩ := skipFwd_spec p (j3 + 1) ⟨p.length - 1, by omega, hlast, by omega⟩
  have hkj4 : k < j4 := by
    by_contra hn
    have : wsAt p j4 = true := by
      by_cases he : j4 = k
      · rw [he]; exact hkws
      · exact t4 j4 (by omega) (by omega)
    rw [s4] at this; cases this
  have h8 : ∀ i, j3 < i → i < j4 → wsAt p i = true := fun i h1 h2 => s5 i (by omega) h2
  refine ⟨j3, j4, t2, hkj4, s3, t3, s4, h8,
    trimRight_take p j3 k t2 (by omega) t3 (fun i a b => h8 i a (by omega)),
    dropWhile_drop p k j4 (by omega) s3 s4 (fun i a b => h8 i (by omega) b), ?_⟩
  rw [wrapStep_nat p W hW, if_pos hlen, hj1]
  simp only [Except.bind, hj2]
  rw [if_neg (by omega), t1]
  simp only [Except.bind, s1]

theorem fullLoop_step (W fuel : Nat) (p : List Nat) (j3 j4 : Nat)
    (hs : wrapStep (W : Int) p = .ok (some (j3, j4)))
    (h : fullLoop (W : Int) (fuel + 1) p = true) :
    W ≤ j3 + 1 + (sepOf (p.take (j3 + 1))).length + fw (p.drop j4) ∧
      fullLoop (W : Int) fuel (p.drop j4) = true := by
  simp only [fullLoop, hs, Bool.and_eq_true, decide_eq_true_eq] at h
  exact ⟨by exact_mod_cast h.1, h.2⟩

/-- The core of idempotence: the texts of a wrapping into full lines, joined again
the way `Format2` joins prose lines, wrap into the same texts; and so do the first
`j` of them, for every `j`. -/
theorem wrapped_join_take (W : Nat) (hW : 1 ≤ W) {p : List Nat} {segs : List (List Nat)}
    (h : Wrapped W p segs) (hc : noEdgeSpace p = true)
    (ht : ∃ fuel, p.length < fuel ∧ fullLoop (W : Int) fuel p = true) (hne : p ≠ []) :
    segs ≠ [] ∧ ∀ j, 1 ≤ j → j ≤ segs.length →
      Wrapped W (joinSegs (segs.take j)) (segs.take j) ∧
      noEdgeSpace (joinSegs (segs.take j)) = true ∧
      fw (joinSegs (segs.take j)) = fw p := by
  induction h with
  | empty => exact absurd rfl hne
  | whole p hp hw =>
    refine ⟨by simp, fun j h1 h2 => ?_⟩
    have hj : j = 1 := by simp at h2; omega
    subst hj
    exact ⟨Wrapped.whole p hp hw, hc, rfl⟩
  | brk p k segs hlen hk hrest ih =>
    obtain ⟨j3, j4, h3, h4, h5, h6, h7, h8, e1, e2, hstep⟩ :=
      wrapStep_break p W k hW hc hlen hk
    obtain ⟨r1, r2, _, _⟩ := rest_after_break p W k hc hk
    rw [e2] at ih hrest r1 r2
    obtain ⟨fuel, hf1, hf2⟩ := ht
    obtain ⟨f', rfl⟩ : ∃ f', fuel = f' + 1 := ⟨fuel - 1, by omega⟩
    obtain ⟨hgap, ht'⟩ := fullLoop_step W f' p j3 j4 hstep hf2
    obtain ⟨i1, ih'⟩ := ih r1 ⟨f', by simp; omega, ht'⟩ r2
    rw [e1]
    set s := p.take (j3 + 1) with hs
    have hslen : s.length = j3 + 1 := by simp [hs]; omega
    have hsne : s ≠ [] := by intro h0; rw [h0] at hslen; simp at hslen
    have hsl : wsAt s (s.length - 1) = false := by
      rw [hslen, hs, Nat.add_sub_cancel, wsAt_take _ _ _ (by omega)]; exact h6
    have hs0 : wsAt s 0 = false := by
      rw [hs, wsAt_take _ _ _ (by omega)]; exact noEdgeSpace_head hc
    have hsi : ∀ i, i < s.length → wsAt s i = wsAt p i := fun i hi => by
      rw [hs, wsAt_take _ _ _ (by omega)]
    have hcond := gap_conditions p W k j3 j4 hlen hk h3 h4 h5 h8
    have hfle : fw p ≤ j3 + 1 := by
      by_contra hn
      have := fw_word p (j3 + 1) (by omega)
      rw [h8 (j3 + 1) (by omega) (by omega)] at this
      cases this
    refine ⟨by simp, fun j hj1 hj2 => ?_⟩
    by_cases hj : j = 1
    · subst hj
      simp only [List.take_succ_cons, List.take_zero, joinSegs]
      refine ⟨Wrapped.whole s hsne ?_, (noEdgeSpace_iff s).mpr ⟨hs0, hsl⟩, ?_⟩
      · rcases hcond with ⟨a, _⟩ | ⟨a, b⟩
        · left; omega
        · right
          intro k' hk'
          have hk'ws := hk'.1
          have hk'lt : k' < s.length := wsAt_lt hk'ws
          have hk'1 : 1 ≤ k' := by
            rcases hk'.2 with ⟨h, _⟩ | ⟨h, _⟩ <;> omega
          rw [hsi k' hk'lt, b k' hk'1 (by omega)] at hk'ws
          cases hk'ws
      · apply fw_unique
        · omega
        · intro i hi
          rw [hsi i (by omega)]
          exact fw_word p i hi
        · intro hlt
          rw [hsi _ hlt]
          exact fw_space p (by omega)
    · obtain ⟨j', rfl⟩ : ∃ j', j = j' + 1 := ⟨j - 1, by omega⟩
      have hj'1 : 1 ≤ j' := by omega
      have hj'2 : j' ≤ segs.length := by simpa using hj2
      obtain ⟨i2, i3, i4⟩ := ih' j' hj'1 hj'2
      have htne : segs.take j' ≠ [] := by
        intro h0
        have := congrArg List.length h0
        simp at this
        rcases this with h | h
        · omega
        · exact i1 h
      rw [List.take_succ_cons, joinSegs_cons _ _ htne]
      set r' := joinSegs (segs.take j') with hr'
      have hr0 : wsAt r' 0 = false := ((noEdgeSpace_iff r').mp i3).1
      have hr'ne : r' ≠ [] := by
        intro h0
        rw [h0] at i2
        exact htne (wrapped_nil W hW i2)
      have hr'len : 1 ≤ r'.length := by
        have := List.length_pos.mpr hr'ne; omega
      have hsep := sepOf_length s
      obtain ⟨g1, g2, g3, g4, g5, g6⟩ :=
        glue_facts s (sepOf s) r' hsne hsl (wsAt_sepOf s) hr0
      rw [hslen] at g1 g2 g3 g4 g5 g6
      simp only [Nat.add_sub_cancel] at g1 g3 g5
      set p' := s ++ sepOf s ++ r' with hp'
      have hp'len : p'.length = j3 + 1 + (sepOf s).length + r'.length := by
        simp [hp', hslen]; omega
      have hfr : fw (p.drop j4) ≤ r'.length := by rw [← i4]; exact fw_le r'
      have hcond' : (j3 + 2 ≤ W ∧ W ≤ j3 + 1 + (sepOf s).length +
            fw (p'.drop (j3 + 1 + (sepOf s).length))) ∨
          (W ≤ j3 + 1 ∧ ∀ i, 1 ≤ i → i ≤ j3 → wsAt p' i = false) := by
        rcases hcond with ⟨a, b⟩ | ⟨a, b⟩
        · left
          rw [g2, i4]
          exact ⟨a, hgap⟩
        · right
          refine ⟨a, fun i a1 a2 => ?_⟩
          rw [g6 i (by omega), hsi i (by omega)]
          exact b i a1 a2
      have hWlen : W ≤ p'.length := by
        rcases hcond' with ⟨_, b⟩ | ⟨a, _⟩
        · rw [g2, i4] at b; omega
        · omega
      obtain ⟨k', k1, k2, k3⟩ := isBreak_of_gap p' W j3 (j3 + 1 + (sepOf s).length) hW
        (by omega) g5 hcond'
      have t1 : trimRight (p'.take k') = s := by
        rw [trimRight_take p' j3 k' k1 (by omega) g3 (fun i a b => g5 i a (by omega))]
        exact g1
      have t2 : (p'.drop k').dropWhile isspace = r' := by
        rw [dropWhile_drop p' k' (j3 + 1 + (sepOf s).length) (by omega) (by omega) g4
          (fun i a b => g5 i (by omega) b)]
        exact g2
      have hw' := Wrapped.brk p' k' (segs.take j') hWlen k3 (by rw [t2]; exact i2)
      rw [t1] at hw'
      refine ⟨hw', ?_, ?_⟩
      · rw [noEdgeSpace_iff]
        refine ⟨?_, ?_⟩
        · rw [g6 0 (by omega)]; exact hs0
        · rw [hp', wsAt_append_right _ _ _ (by simp; omega)]
          have : (s ++ sepOf s ++ r').length - 1 - (s ++ sepOf s).length = r'.length - 1 := by
            simp; omega
          rw [this]
          exact ((noEdgeSpace_iff r').mp i3).2
      · apply fw_unique
        · omega
        · intro i hi
          rw [g6 i (by omega), hsi i (by omega)]
          exact fw_word p i hi
        · intro _
          by_cases hf : fw p = j3 + 1
          · rw [hf]; exact g5 _ (by omega) (by omega)
          · rw [g6 _ (by omega), hsi _ (by omega)]
            exact fw_space p (by omega)

/-- Reading self-written lines back, whatever the export marker: the loop writes
the flush of its buffer, the lines, and the rest of the input. -/
theorem reread (pfx export_ : List Nat) (target : Int) (hp : pfx ≠ []) :
    ∀ (Y : List (List Nat)) (b : List Nat) (R : List (List Nat)) (t0 : Trace),
      SelfWritten pfx target Y b → dump pfx [] target b = .ok (t0, []) →
      (R = [] ∨ ∃ l ls, R = l :: ls ∧ hasPrefix pfx export_ l = false) →
      ∃ r, formatLoop pfx export_ target (Y ++ R) b = .ok r ∧
        allBytes r.1 = allBytes t0 ++ Y.flatten ++ R.flatten := by
  intro Y
  induction Y with
  | nil =>
    intro b R t0 _ hd hR
    rcases hR with rfl | ⟨l, ls, rfl, hl⟩
    · refine ⟨(t0, []), ?_, by simp⟩
      rw [List.append_nil, formatLoop_nil pfx export_ target b hp, hd]
    · refine ⟨(t0 ++ lineWrite pfx l ++ copyRest ls, []), ?_, ?_⟩
      · rw [List.nil_append, formatLoop_not_in_block pfx export_ target l ls b hl, hd]
        rfl
      · simp [allBytes_append, allBytes_lineWrite, copyRest, allBytes_write]
  | cons L Y ih =>
    intro b R t0 hs hd hR
    obtain ⟨h1, h2, t, b', t0', t1, hq, hd0, hd1, hbytes, hrest⟩ := hs
    rw [hd] at hd0
    cases hd0
    by_cases hin : hasPrefix pfx export_ L = true
    · obtain ⟨r', hr', hb'⟩ := ih b' R t1 hrest hd1 hR
      refine ⟨(t ++ r'.1, r'.2), ?_, ?_⟩
      · rw [List.cons_append, formatLoop_in_block pfx export_ target L _ b hin h2, hq]
        simp only [Except.bind]
        rw [hr']
      · simp only [allBytes_append, hb', List.flatten_cons]
        rw [← List.append_assoc, ← List.append_assoc, ← hbytes]
        simp [List.append_assoc]
    · have hin' : hasPrefix pfx export_ L = false := by simpa using hin
      refine ⟨(t0 ++ lineWrite pfx L ++ copyRest (Y ++ R), []), ?_, ?_⟩
      · rw [List.cons_append, formatLoop_not_in_block pfx export_ target L _ b hin', hd]
        rfl
      · simp [allBytes_append, allBytes_lineWrite, copyRest, allBytes_write]

theorem joinSegs_concat (segs : List (List Nat)) (s : List Nat)
    (hs : ∀ s' ∈ segs, s' ≠ []) (hne : s ≠ []) :
    joinSegs (segs ++ [s]) = appendProse (joinSegs segs) s := by
  have h1 : ∀ s' ∈ segs ++ [s], s' ≠ [] := by
    intro s' hm
    rcases List.mem_append.mp hm with h | h
    · exact hs s' h
    · simp only [List.mem_singleton] at h; rw [h]; exact hne
  rw [← foldl_appendProse_nil _ h1, List.foldl_append, foldl_appendProse_nil _ hs]
  rfl

theorem take_succ_concat {α : Type} (l : List α) (j : Nat) (h : j < l.length) :
    l.take (j + 1) = l.take j ++ [l[j]] := by
  rw [List.take_succ, List.getElem?_eq_getElem h]
  rfl

/-- The flush of a buffer without white space at its ends into full lines: the
texts written, joined again, are flushed into the same lines, and so are the first
`j` of them, for every `j`. -/
theorem flush_full (pfx : List Nat) (W : Nat) (hW : 1 ≤ W) (c : List Nat)
    (hc : noEdgeSpace c = true)
    (ht : ∃ fuel, c.length < fuel ∧ fullLoop (W : Int) fuel c = true) :
    ∃ segs, dump pfx [] (W : Int) c = .ok (segs.map fun s => (Sink.out, textLine pfx s), []) ∧
      (∀ s ∈ segs, s ≠ [] ∧ noEdgeSpace s = true ∧ ∀ b ∈ s, b ∈ c) ∧
      (c ≠ [] → segs ≠ []) ∧
      ∀ j, j ≤ segs.length →
        dump pfx [] (W : Int) (joinSegs (segs.take j)) =
          .ok ((segs.take j).map fun s => (Sink.out, textLine pfx s), []) ∧
        (1 ≤ j → noEdgeSpace (joinSegs (segs.take j)) = true ∧
          fw (joinSegs (segs.take j)) = fw c) := by
  obtain ⟨segs, hw, hd⟩ := dump_wrapped pfx W hW c.length c (le_refl _) hc
  have hsegs := wrapped_segs W hW hw hc
  refine ⟨segs, hd, hsegs, fun hne h0 => ?_, fun j hj => ?_⟩
  · rw [h0] at hw
    cases hw
    exact hne rfl
  · by_cases hj0 : j = 0
    · subst hj0
      rw [List.take_zero]
      have := dump_short pfx [] W hW (by simp; omega)
      exact ⟨by simpa [joinSegs] using this, fun h => absurd h (by omega)⟩
    · have hcne : c ≠ [] := by
        intro h0
        subst h0
        have := wrapped_nil W hW hw
        rw [this] at hj
        simp at hj
        exact hj0 hj
      obtain ⟨_, hall⟩ := wrapped_join_take W hW hw hc ht hcne
      obtain ⟨a, b, d⟩ := hall j (by omega) hj
      exact ⟨dump_of_wrapped pfx W hW a b, fun _ => ⟨b, d⟩⟩

theorem isProse_of_ends (pfx s : List Nat) (hh : ∃ b, s.head? = some b ∧ b ≠ 32 ∧ b ≠ 9)
    (hl : ∃ b, s.getLast? = some b ∧ isspace b = false) : IsProse pfx (textLine pfx s) s :=
  ⟨[32], [10], rfl, Or.inr rfl, hh, hl, by simp; decide⟩

theorem ends_of_noEdgeSpace (s : List Nat) (hs : s ≠ []) (hc : noEdgeSpace s = true) :
    (∃ b, s.head? = some b ∧ b ≠ 32 ∧ b ≠ 9) ∧ ∃ b, s.getLast? = some b ∧ isspace b = false := by
  obtain ⟨h0, hl⟩ := (noEdgeSpace_iff s).mp hc
  obtain ⟨b, hb, hbs⟩ := head_of_wsAt_zero s hs h0
  refine ⟨⟨b, hb, ?_, ?_⟩, last_of_wsAt s hs hl⟩
  · intro h; rw [h] at hbs; cases hbs
  · intro h; rw [h] at hbs; cases hbs

/-- Texts whose joins are flushed into the texts themselves are written as lines
that the loop writes back as they are. -/
theorem selfWritten_of_flushes (pfx : List Nat) (target : Int) (segs : List (List Nat))
    (hsegs : ∀ s ∈ segs, s ≠ [] ∧ IsProse pfx (textLine pfx s) s)
    (hD : ∀ j, j ≤ segs.length → dump pfx [] target (joinSegs (segs.take j)) =
      .ok ((segs.take j).map fun s => (Sink.out, textLine pfx s), []))
    (tail : List (List Nat)) (htail : SelfWritten pfx target tail (joinSegs segs)) :
    SelfWritten pfx target (segs.map (textLine pfx) ++ tail) [] := by
  have hsne : ∀ s ∈ segs, s ≠ [] := fun s hs => (hsegs s hs).1
  have hfull : segs.take segs.length = segs := List.take_length segs
  have key : ∀ n j, j + n = segs.length →
      SelfWritten pfx target ((segs.drop j).map (textLine pfx) ++ tail)
        (joinSegs (segs.take j)) := by
    intro n
    induction n with
    | zero =>
      intro j hj
      have hj' : j = segs.length := by omega
      subst hj'
      rw [List.drop_length, hfull]
      exact htail
    | succ n ih =>
      intro j hj
      have hlt : j < segs.length := by omega
      have hmem : segs[j] ∈ segs := List.getElem_mem hlt
      obtain ⟨s1, s2⟩ := hsegs _ hmem
      rw [List.drop_eq_getElem_cons hlt, List.map_cons, List.cons_append]
      have hjoin : joinSegs (segs.take (j + 1)) =
          appendProse (joinSegs (segs.take j)) segs[j] := by
        rw [take_succ_concat segs j hlt]
        exact joinSegs_concat _ _ (fun s' hs' => hsne s' (List.mem_of_mem_take hs')) s1
      refine ⟨by simp [textLine, List.append_assoc], (atEOF_false_iff _).mpr ⟨_, rfl⟩,
        [], appendProse (joinSegs (segs.take j)) segs[j],
        (segs.take j).map (fun s => (Sink.out, textLine pfx s)),
        (segs.take (j + 1)).map (fun s => (Sink.out, textLine pfx s)),
        processLine_prose pfx _ _ segs[j] _ s2,
        hD j (by omega), ?_, ?_, ?_⟩
      · rw [← hjoin]
        exact hD (j + 1) (by omega)
      · rw [take_succ_concat segs j hlt, List.map_append, allBytes_append]
        simp only [allBytes, List.map_cons, List.map_nil, List.flatten_cons, List.flatten_nil,
          List.append_nil, List.nil_append]
      · rw [← hjoin]
        exact ih (j + 1) (by omega)
  have := key segs.length 0 (by omega)
  simpa [joinSegs] using this

/-- An iteration of the loop of `dump` that writes a line is at a break position,
between the last byte of the text written and the first byte of the rest. -/
theorem wrapStep_isBreak (c : List Nat) (W : Nat) (hW : 1 ≤ W) (j3 j4 : Nat)
    (h : wrapStep (W : Int) c = .ok (some (j3, j4))) :
    W ≤ c.length ∧ ∃ k, IsBreak c W k ∧ j3 < k ∧ k < j4 ∧ j4 < c.length ∧
      wsAt c j3 = false ∧ wsAt c j4 = false ∧ ∀ i, j3 < i → i < j4 → wsAt c i = true := by
  rw [wrapStep_nat c W hW] at h
  by_cases hlen : W ≤ c.length
  · rw [if_pos hlen] at h
    refine ⟨hlen, ?_⟩
    by_cases hex : ∃ k, IsBreak c W k
    · obtain ⟨k, hk⟩ := hex
      obtain ⟨j1, hj1, hj2⟩ := scan_of_isBreak c W k hW hlen hk
      have hklt := wsAt_lt hk.1
      rw [hj1] at h
      simp only [Except.bind, hj2] at h
      rw [if_neg (by omega)] at h
      cases htb : trimBack c k with
      | error e => rw [htb] at h; cases h
      | ok j =>
        obtain ⟨b1, b2, b3⟩ := trimBack_ok c k j htb
        obtain ⟨j', t1, t2, t3, t4⟩ := trimBack_spec c k (by omega) ⟨j, b1, b3⟩
        rw [htb] at t1
        cases t1
        rw [htb] at h
        simp only [] at h
        cases hsk : skipFwd (c.drop (j + 1)) (j + 1) with
        | error e => rw [hsk] at h; cases h
        | ok j5 =>
          obtain ⟨c1, c2, c3⟩ := skipFwd_ok _ _ _ hsk
          have c4 : wsAt c j5 = false := by
            rw [wsAt_drop] at c3
            rwa [show j + 1 + (j5 - (j + 1)) = j5 by omega] at c3
          have c5 : j5 < c.length := by simp at c2; omega
          obtain ⟨j6, s1, s2, s3, s4, s5⟩ := skipFwd_spec c (j + 1) ⟨j5, c1, c4, c5⟩
          rw [hsk] at s1
          cases s1
          rw [hsk] at h
          simp only [Except.ok.injEq, Option.some.injEq, Prod.mk.injEq] at h
          obtain ⟨rfl, rfl⟩ := h
          have hkj : k < j5 := by
            by_contra hn
            have : wsAt c j5 = true := by
              by_cases he : j5 = k
              · rw [he]; exact hk.1
              · exact t4 j5 (by omega) (by omega)
            rw [c4] at this; cases this
          exact ⟨k, hk, t2, hkj, c5, t3, c4, fun i h1 h2 => s5 i (by omega) h2⟩
    · obtain ⟨j1, hj1, hj2⟩ := scan_of_no_break c W hW hlen (fun k hk => hex ⟨k, hk⟩)
      rw [hj1] at h
      simp only [Except.bind, hj2, if_true] at h
      cases h
  · rw [if_neg hlen] at h
    cases h

/-- The flush of a buffer whose first iteration writes a line: that line, and the
flush of the rest. -/
theorem dump_step (pfx : List Nat) (target : Int) (c : List Nat) (j3 j4 : Nat)
    (hs : wrapStep target c = .ok (some (j3, j4)))
    (hf : dumpLoop pfx target c.length (c.drop j4) =
      dumpLoop pfx target ((c.drop j4).length + 1) (c.drop j4)) :
    dump pfx [] target c = (dump pfx [] target (c.drop j4)).bind fun r =>
      .ok ((Sink.out, textLine pfx (c.take (j3 + 1))) :: r.1, r.2) := by
  rw [dump_flush, dump_flush, dumpLoop_step, hs]
  simp only [Except.bind]
  rw [hf]
  cases dumpLoop pfx target ((c.drop j4).length + 1) (c.drop j4) with
  | error e => rfl
  | ok r =>
    simp only [write_textLine]
    by_cases hr : r.2 = [] <;> simp [hr]

theorem joinSegs_ne_nil (segs : List (List Nat)) (hne : segs ≠ []) (hs : ∀ s ∈ segs, s ≠ []) :
    joinSegs segs ≠ [] := by
  cases segs with
  | nil => exact absurd rfl hne
  | cons s rest =>
    have h1 := hs s (List.mem_cons_self _ _)
    cases rest with
    | nil => simpa [joinSegs] using h1
    | cons t rest' =>
      rw [joinSegs_cons _ _ (by simp)]
      simp [h1]

/-- A line that the loop of `dump` breaks off at a gap of white space no longer
than the separator of `Format2` (one byte, or at most two after a period) is
full. -/
theorem full_of_short_gap (c : List Nat) (W : Nat) (hW : 1 ≤ W) (j3 j4 : Nat)
    (h : wrapStep (W : Int) c = .ok (some (j3, j4)))
    (hg : j4 ≤ j3 + 1 + (sepOf (c.take (j3 + 1))).length) :
    W ≤ j3 + 1 + (sepOf (c.take (j3 + 1))).length + fw (c.drop j4) := by
  obtain ⟨hlen, k, hk, h3, h4, h5, _, _, h8⟩ := wrapStep_isBreak c W hW j3 j4 h
  rcases gap_conditions c W k j3 j4 hlen hk h3 h4 h5 h8 with ⟨_, b⟩ | ⟨a, _⟩
  · omega
  · omega

/-- One iteration of the loop of `dump` at a break position, between given
indices: `j3`, the last byte of the text before the gap, and `j4`, the first byte
after it. -/
theorem wrapStep_at (p : List Nat) (W k j3 j4 : Nat) (hW : 1 ≤ W) (hlen : W ≤ p.length)
    (hk : IsBreak p W k) (h3 : j3 < k) (h4 : k < j4) (h5 : j4 < p.length)
    (h6 : wsAt p j3 = false) (h7 : wsAt p j4 = false)
    (h8 : ∀ i, j3 < i → i < j4 → wsAt p i = true) :
    wrapStep (W : Int) p = .ok (some (j3, j4)) := by
  obtain ⟨j1, hj1, hj2⟩ := scan_of_isBreak p W k hW hlen hk
  have hklt : k < p.length := wsAt_lt hk.1
  obtain ⟨j, t1, t2, t3, t4⟩ := trimBack_spec p k (by omega) ⟨j3, h3, h6⟩
  have hj : j = j3 := by
    by_contra hne
    rcases Nat.lt_or_gt_of_ne hne with hlt | hgt
    · have := t4 j3 hlt h3
      rw [h6] at this; cases this
    · have := h8 j hgt (by omega)
      rw [t3] at this; cases this
  subst hj
  obtain ⟨j', s1, s2, s3, s4, s5⟩ := skipFwd_spec p (j + 1) ⟨j4, by omega, h7, h5⟩
  have hj' : j' = j4 := by
    by_contra hne
    rcases Nat.lt_or_gt_of_ne hne with hlt | hgt
    · have := h8 j' (by omega) hlt
      rw [s4] at this; cases this
    · have := s5 j4 (by omega) hgt
      rw [h7] at this; cases this
  subst hj'
  rw [wrapStep_nat p W hW, if_pos hlen, hj1]
  simp only [Except.bind, hj2]
  rw [if_neg (by omega), t1]
  simp only [Except.bind, s1]

/-- The text before a break position, alone in the buffer, is flushed as one line. -/
theorem step_single (pfx c : List Nat) (W k j3 j4 : Nat) (hW : 1 ≤ W) (hlen : W ≤ c.length)
    (hk : IsBreak c W k) (h3 : j3 < k) (h4 : k < j4) (h5 : j4 < c.length)
    (h8 : ∀ i, j3 < i → i < j4 → wsAt c i = true) :
    dump pfx [] (W : Int) (c.take (j3 + 1)) =
      .ok ([(Sink.out, textLine pfx (c.take (j3 + 1)))], []) := by
  have hslen : (c.take (j3 + 1)).length = j3 + 1 := by simp; omega
  have hsne : c.take (j3 + 1) ≠ [] := by intro h0; rw [h0] at hslen; simp at hslen
  rcases gap_conditions c W k j3 j4 hlen hk h3 h4 h5 h8 with ⟨a, _⟩ | ⟨a, b⟩
  · rw [dump_short pfx _ W hW (by omega), if_neg hsne]
  · apply dump_no_break pfx _ W hW (by omega)
    intro k' hk'
    have hk'ws := hk'.1
    have hk'lt : k' < (c.take (j3 + 1)).length := wsAt_lt hk'ws
    have hk'1 : 1 ≤ k' := by
      rcases hk'.2 with ⟨h, _⟩ | ⟨h, _⟩ <;> omega
    rw [wsAt_take _ _ _ (by omega), b k' hk'1 (by omega)] at hk'ws
    cases hk'ws

/-- The text before a break position, the separator of `Format2` and a buffer that
starts with the same word as the rest after the break: the flush writes the text as
a line and then flushes that buffer. -/
theorem step_glue (pfx c : List Nat) (W k j3 j4 : Nat) (hW : 1 ≤ W) (hlen : W ≤ c.length)
    (hk : IsBreak c W k) (h3 : j3 < k) (h4 : k < j4) (h5 : j4 < c.length)
    (h6 : wsAt c j3 = false) (h8 : ∀ i, j3 < i → i < j4 → wsAt c i = true)
    (hgap : W ≤ j3 + 1 + (sepOf (c.take (j3 + 1))).length + fw (c.drop j4))
    (r' : List Nat) (hr : noEdgeSpace r' = true) (hrne : r' ≠ [])
    (hfw : fw r' = fw (c.drop j4)) (t : Trace) (hd : dump pfx [] (W : Int) r' = .ok (t, [])) :
    dump pfx [] (W : Int) (c.take (j3 + 1) ++ sepOf (c.take (j3 + 1)) ++ r') =
      .ok ((Sink.out, textLine pfx (c.take (j3 + 1))) :: t, []) := by
  set s := c.take (j3 + 1) with hs
  have hslen : s.length = j3 + 1 := by simp [hs]; omega
  have hsne : s ≠ [] := by intro h0; rw [h0] at hslen; simp at hslen
  have hsl : wsAt s (s.length - 1) = false := by
    rw [hslen, hs, Nat.add_sub_cancel, wsAt_take _ _ _ (by omega)]; exact h6
  have hsi : ∀ i, i < s.length → wsAt s i = wsAt c i := fun i hi => by
    rw [hs, wsAt_take _ _ _ (by omega)]
  have hr0 : wsAt r' 0 = false := ((noEdgeSpace_iff r').mp hr).1
  have hr'len : 1 ≤ r'.length := by
    have := List.length_pos.mpr hrne; omega
  have hsep := sepOf_length s
  obtain ⟨g1, g2, g3, g4, g5, g6⟩ := glue_facts s (sepOf s) r' hsne hsl (wsAt_sepOf s) hr0
  rw [hslen] at g1 g2 g3 g4 g5 g6
  simp only [Nat.add_sub_cancel] at g1 g3 g5
  set p' := s ++ sepOf s ++ r' with hp'
  have hp'len : p'.length = j3 + 1 + (sepOf s).length + r'.length := by
    simp [hp', hslen]; omega
  have hfr : fw (c.drop j4) ≤ r'.length := by rw [← hfw]; exact fw_le r'
  have hcond := gap_conditions c W k j3 j4 hlen hk h3 h4 h5 h8
  have hcond' : (j3 + 2 ≤ W ∧ W ≤ j3 + 1 + (sepOf s).length +
        fw (p'.drop (j3 + 1 + (sepOf s).length))) ∨
      (W ≤ j3 + 1 ∧ ∀ i, 1 ≤ i → i ≤ j3 → wsAt p' i = false) := by
    rcases hcond with ⟨a, b⟩ | ⟨a, b⟩
    · left
      rw [g2, hfw]
      exact ⟨a, hgap⟩
    · right
      refine ⟨a, fun i a1 a2 => ?_⟩
      rw [g6 i (by omega), hsi i (by omega)]
      exact b i a1 a2
  have hWlen : W ≤ p'.length := by
    rcases hcond' with ⟨_, b⟩ | ⟨a, _⟩
    · rw [g2, hfw] at b; omega
    · omega
  obtain ⟨k', k1, k2, k3⟩ := isBreak_of_gap p' W j3 (j3 + 1 + (sepOf s).length) hW
    (by omega) g5 hcond'
  have hstep := wrapStep_at p' W k' j3 (j3 + 1 + (sepOf s).length) hW hWlen k3 k1 k2
    (by omega) g3 g4 g5
  have hfuel := dumpLoop_fuel pfx W hW r'.length r' (le_refl _) hr p'.length (r'.length + 1)
    (by omega) (by omega)
  rw [← g2] at hfuel
  rw [dump_step pfx (W : Int) p' j3 _ hstep hfuel, g2, g1, hd]
  rfl

/-- The flush of a buffer of the run, whatever its first byte: when the flush
returns and the lines are full, the texts written, joined again, are flushed
into the same lines, and so are the first `j` of them, for every `j`. -/
theorem flush_any (pfx : List Nat) (W : Nat) (hW : 1 ≤ W) (c : List Nat)
    (hhead : ∀ b, c.head? = some b → b ≠ 32 ∧ b ≠ 9)
    (hlast : wsAt c (c.length - 1) = false) (r : Trace × List Nat)
    (hok : dump pfx [] (W : Int) c = .ok r)
    (ht : fullLoop (W : Int) (c.length + 1) c = true) :
    ∃ segs, r = (segs.map fun s => (Sink.out, textLine pfx s), []) ∧
      (∀ s ∈ segs, s ≠ [] ∧ IsProse pfx (textLine pfx s) s ∧ ∀ b ∈ s, b ∈ c) ∧
      (c ≠ [] → segs ≠ []) ∧
      ∀ j, j ≤ segs.length → dump pfx [] (W : Int) (joinSegs (segs.take j)) =
        .ok ((segs.take j).map fun s => (Sink.out, textLine pfx s), []) := by
  have hnil : dump pfx [] (W : Int) [] = .ok ([], []) := by
    have := dump_short pfx [] W hW (by simp; omega)
    simpa using this
  by_cases hcne : c = []
  · subst hcne
    rw [hnil] at hok
    cases hok
    exact ⟨[], rfl, by simp, fun h => absurd rfl h, fun j hj => by
      have : j = 0 := by simpa using hj
      subst this
      simpa [joinSegs] using hnil⟩
  have hclen : 0 < c.length := List.length_pos.mpr hcne
  have hcl : ∃ b, c.getLast? = some b ∧ isspace b = false := last_of_wsAt c hcne hlast
  have hch : ∃ b, c.head? = some b ∧ b ≠ 32 ∧ b ≠ 9 := by
    cases c with
    | nil => exact absurd rfl hcne
    | cons b q => exact ⟨b, rfl, hhead b rfl⟩
  have hok' := hok
  rw [dump_flush, dumpLoop_step] at hok'
  obtain ⟨q, hq, _⟩ := bind_eq_ok hok'
  obtain ⟨o, ho, _⟩ := bind_eq_ok hq
  cases o with
  | none =>
    -- the buffer is written as one line
    have hd : dump pfx [] (W : Int) c = .ok ([(Sink.out, textLine pfx c)], []) := by
      rw [dump_flush, dumpLoop_step, ho]
      simp [Except.bind, hcne]
    rw [hd] at hok
    cases hok
    refine ⟨[c], rfl, fun s hs => ?_, fun _ => by simp, fun j hj => ?_⟩
    · simp only [List.mem_singleton] at hs
      subst hs
      exact ⟨hcne, isProse_of_ends pfx s hch hcl, fun b hb => hb⟩
    · have hj' : j = 0 ∨ j = 1 := by simp at hj; omega
      rcases hj' with rfl | rfl
      · simpa [joinSegs] using hnil
      · simpa [joinSegs] using hd
  | some jj =>
    obtain ⟨j3, j4⟩ := jj
    obtain ⟨hlen, k, hk, h3, h4, h5, h6, h7, h8⟩ := wrapStep_isBreak c W hW j3 j4 ho
    obtain ⟨hgap, ht'⟩ := fullLoop_step W c.length c j3 j4 ho ht
    have hrl : wsAt (c.drop j4) ((c.drop j4).length - 1) = false := by
      rw [wsAt_drop, List.length_drop, show j4 + (c.length - j4 - 1) = c.length - 1 by omega]
      exact hlast
    have hrc : noEdgeSpace (c.drop j4) = true :=
      (noEdgeSpace_iff _).mpr ⟨by rw [wsAt_drop]; exact h7, hrl⟩
    have hrne : c.drop j4 ≠ [] := by
      intro h0
      have := congrArg List.length h0
      simp at this
      omega
    obtain ⟨segs', e1, e2, e3, e4⟩ := flush_full pfx W hW (c.drop j4) hrc
      ⟨c.length, by simp; omega, ht'⟩
    have hfuel := dumpLoop_fuel pfx W hW (c.drop j4).length (c.drop j4) (le_refl _) hrc
      c.length ((c.drop j4).length + 1) (by simp; omega) (by omega)
    have hd : dump pfx [] (W : Int) c =
        .ok ((Sink.out, textLine pfx (c.take (j3 + 1))) ::
          segs'.map (fun s => (Sink.out, textLine pfx s)), []) := by
      rw [dump_step pfx (W : Int) c j3 j4 ho hfuel, e1]
      rfl
    rw [hd] at hok
    cases hok
    have hslen : (c.take (j3 + 1)).length = j3 + 1 := by simp; omega
    have hsne : c.take (j3 + 1) ≠ [] := by intro h0; rw [h0] at hslen; simp at hslen
    have hsh : ∃ b, (c.take (j3 + 1)).head? = some b ∧ b ≠ 32 ∧ b ≠ 9 := by
      obtain ⟨b, hb, hb'⟩ := hch
      refine ⟨b, ?_, hb'⟩
      cases c with
      | nil => exact absurd rfl hcne
      | cons x q => simpa using hb
    have hsl : ∃ b, (c.take (j3 + 1)).getLast? = some b ∧ isspace b = false := by
      apply last_of_wsAt _ hsne
      rw [hslen, Nat.add_sub_cancel, wsAt_take _ _ _ (by omega)]
      exact h6
    have hsegs' : ∀ s ∈ segs', s ≠ [] := fun s hs => (e2 s hs).1
    refine ⟨c.take (j3 + 1) :: segs', rfl, fun s hs => ?_, fun _ => by simp, fun j hj => ?_⟩
    · rcases List.mem_cons.mp hs with rfl | hs
      · exact ⟨hsne, isProse_of_ends pfx _ hsh hsl, fun b hb => List.mem_of_mem_take hb⟩
      · obtain ⟨a1, a2, a3⟩ := e2 s hs
        obtain ⟨b1, b2⟩ := ends_of_noEdgeSpace s a1 a2
        exact ⟨a1, isProse_of_ends pfx s b1 b2, fun b hb => List.mem_of_mem_drop (a3 b hb)⟩
    · by_cases hj0 : j = 0
      · subst hj0
        simpa [joinSegs] using hnil
      · obtain ⟨j', rfl⟩ : ∃ j', j = j' + 1 := ⟨j - 1, by omega⟩
        have hj' : j' ≤ segs'.length := by simpa using hj
        rw [List.take_succ_cons, List.map_cons]
        by_cases hj1 : j' = 0
        · subst hj1
          simp only [List.take_zero, joinSegs, List.map_nil]
          exact step_single pfx c W k j3 j4 hW hlen hk h3 h4 h5 h8
        · obtain ⟨d1, d2⟩ := e4 j' hj'
          obtain ⟨d3, d4⟩ := d2 (by omega)
          have htne : segs'.take j' ≠ [] := by
            intro h0
            have := congrArg List.length h0
            simp at this
            rcases this with h | h
            · exact hj1 h
            · exact e3 hrne h
          rw [joinSegs_cons _ _ htne]
          exact step_glue pfx c W k j3 j4 hW hlen hk h3 h4 h5 h6 h8 hgap _ d3
            (joinSegs_ne_nil _ htne (fun s hs => hsegs' s (List.mem_of_mem_take hs))) d4 _ d1

theorem textLine_split (pfx s rest : List Nat) (hp10 : 10 ∉ pfx) (hs : 10 ∉ s) :
    splitLines (textLine pfx s ++ rest) = textLine pfx s :: splitLines rest := by
  have h10 : 10 ∉ pfx ++ [32] ++ s := by simp [hp10, hs]
  have e : textLine pfx s ++ rest = (pfx ++ [32] ++ s) ++ 10 :: rest := by
    simp [textLine, List.append_assoc]
  rw [e, splitLines_line _ _ h10]
  rfl

/-- A prose text starts with a byte that is neither space nor tab. -/
theorem proseText_head (pfx line x : List Nat) (h : proseText pfx line = some x) :
    ∀ b, x.head? = some b → b ≠ 32 ∧ b ≠ 9 := by
  unfold proseText at h
  simp only [] at h
  by_cases h1 : trimRight line = pfx
  · rw [if_pos h1] at h; cases h
  · rw [if_neg h1] at h
    cases hg : (trimRight line)[pfx.length]? with
    | none => rw [hg] at h; cases h
    | some b0 =>
      rw [hg] at h
      simp only [] at h
      generalize (if b0 = 32 then (trimRight line).drop (pfx.length + 1)
        else (trimRight line).drop pfx.length) = line2 at h
      cases line2 with
      | nil => cases h
      | cons a rest =>
        simp only [] at h
        by_cases ha : a = 9 ∨ a = 32
        · rw [if_pos ha] at h; cases h
        · rw [if_neg ha] at h
          cases h
          intro b hb
          simp only [List.head?_cons, Option.some.injEq] at hb
          subst hb
          exact ⟨fun e => ha (Or.inr e), fun e => ha (Or.inl e)⟩

theorem appendProse_head (buf x : List Nat)
    (hb : ∀ b, buf.head? = some b → b ≠ 32 ∧ b ≠ 9)
    (hx : ∀ b, x.head? = some b → b ≠ 32 ∧ b ≠ 9) :
    ∀ b, (appendProse buf x).head? = some b → b ≠ 32 ∧ b ≠ 9 := by
  by_cases hn : buf = []
  · subst hn
    rw [appendProse_nil_left]
    exact hx
  · rw [appendProse_eq buf x hn]
    cases buf with
    | nil => exact absurd rfl hn
    | cons a l => exact hb

/-- The flush of a buffer of the run, with the facts on the lines it writes. -/
theorem flush_written (pfx : List Nat) (W : Nat) (hW : 1 ≤ W) (hp10 : 10 ∉ pfx)
    (buf : List Nat) (h : fullBuf (W : Int) buf = true) (ht : TidyBuf buf)
    (hhead : ∀ b, buf.head? = some b → b ≠ 32 ∧ b ≠ 9) (r : Trace × List Nat)
    (hok : dump pfx [] (W : Int) buf = .ok r) :
    ∃ segs, r = (segs.map fun s => (Sink.out, textLine pfx s), []) ∧
      (buf ≠ [] → segs ≠ []) ∧
      dump pfx [] (W : Int) (joinSegs segs) =
        .ok (segs.map fun s => (Sink.out, textLine pfx s), []) ∧
      (∀ tail, SelfWritten pfx (W : Int) tail (joinSegs segs) →
        SelfWritten pfx (W : Int) (segs.map (textLine pfx) ++ tail) []) ∧
      ∀ L ∈ segs.map (textLine pfx), ∀ rest, splitLines (L ++ rest) = L :: splitLines rest := by
  obtain ⟨segs, h1, h2, h3, h4⟩ := flush_any pfx W hW buf hhead ht.2 r hok h
  refine ⟨segs, h1, h3, ?_, fun tail htail => ?_, fun L hL rest => ?_⟩
  · have := h4 segs.length (le_refl _)
    rwa [List.take_length] at this
  · exact selfWritten_of_flushes pfx (W : Int) segs (fun s hs => ⟨(h2 s hs).1, (h2 s hs).2.1⟩)
      h4 tail htail
  · obtain ⟨s, hs, rfl⟩ := List.mem_map.mp hL
    exact textLine_split pfx s rest hp10 (fun hm => ht.1 ((h2 s hs).2.2 10 hm))

/-- What a run of the loop writes: self-written lines, and then the input from the
first line on that is not in the comment block. -/
theorem written (pfx export_ : List Nat) (W : Nat) (hW : 1 ≤ W) (hp : pfx ≠ [])
    (hp10 : 10 ∉ pfx) :
    ∀ (lines : List (List Nat)) (buf : List Nat) (r : Trace × List Nat),
      (∀ l ∈ lines, properLine l) → (∀ l ∈ lines.dropLast, atEOF l = false) →
      (∀ p ∈ flushed pfx export_ lines buf, fullBuf (W : Int) p = true) →
      TidyBuf buf → (∀ b, buf.head? = some b → b ≠ 32 ∧ b ≠ 9) →
      formatLoop pfx export_ (W : Int) lines buf = .ok r →
      ∃ Y R, allBytes r.1 = Y.flatten ++ R.flatten ∧ SelfWritten pfx (W : Int) Y [] ∧
        (∀ L ∈ Y, ∀ rest, splitLines (L ++ rest) = L :: splitLines rest) ∧
        (R = [] ∨ ∃ l ls, R = l :: ls ∧ hasPrefix pfx export_ l = false) ∧
        (∀ l ∈ R, properLine l) ∧ (∀ l ∈ R.dropLast, atEOF l = false) ∧
        ((buf ≠ [] ∨ ∃ l ls, lines = l :: ls ∧ hasPrefix pfx export_ l = true) → Y ≠ []) := by
  intro lines
  induction lines with
  | nil =>
    intro buf r _ _ hfull htidy hhead h
    have hb : fullBuf (W : Int) buf = true := hfull buf (by simp [flushed])
    rw [formatLoop_nil pfx export_ _ buf hp] at h
    obtain ⟨segs, d1, d2, _, d4, d5⟩ := flush_written pfx W hW hp10 buf hb htidy hhead r h
    subst d1
    refine ⟨segs.map (textLine pfx), [], ?_, ?_, d5, Or.inl rfl, by simp, by simp,
      fun hor => ?_⟩
    · simp [allBytes_map_textLine]
    · simpa using d4 [] trivial
    · rcases hor with h1 | ⟨l, ls, h1, _⟩
      · simpa using d2 h1
      · cases h1
  | cons l ls ih =>
    intro buf r hpl heof hfull htidy hhead h
    have hpl' : ∀ l' ∈ ls, properLine l' := fun l' hl' => hpl l' (List.mem_cons_of_mem _ hl')
    have heof' : ∀ l' ∈ ls.dropLast, atEOF l' = false := by
      intro l' hl'
      cases ls with
      | nil => simp at hl'
      | cons y ys =>
        rw [List.dropLast_cons₂] at heof
        exact heof l' (List.mem_cons_of_mem _ hl')
    by_cases hin : hasPrefix pfx export_ l = true
    · -- a line of the comment block
      have hls : (if atEOF l = true then [] else ls) = ls := by
        by_cases he : atEOF l = true
        · rw [if_pos he]
          cases ls with
          | nil => rfl
          | cons y ys =>
            rw [List.dropLast_cons₂] at heof
            have := heof l (List.mem_cons_self _ _)
            rw [he] at this
            cases this
        · rw [if_neg he]
      rw [formatLoop_block_line pfx export_ _ hp l ls buf hin, hls] at h
      obtain ⟨q, hq, h⟩ := bind_eq_ok h
      obtain ⟨r', hr', h⟩ := bind_eq_ok h
      have htq := (processLine_trimmed pfx export_ (W : Int) l buf q
        (hpl l (List.mem_cons_self _ _)) hin htidy hq).2.2
      cases hpt : proseText pfx l with
      | some x =>
        obtain ⟨p1, p2, _, _⟩ := proseText_some pfx l x hpt (W : Int) buf
        rw [p1] at hq
        cases hq
        simp only [List.nil_append, Except.ok.injEq] at h
        have hr : r = r' := by rw [← h]
        subst hr
        have hfl : flushed pfx export_ (l :: ls) buf =
            flushed pfx export_ ls (appendProse buf x) := by
          simp only [flushed, hin, hpt, Bool.not_true, Bool.false_eq_true, if_false]
        rw [hfl] at hfull
        obtain ⟨Y, R, a1, a2, a3, a4, a5, a6, a7⟩ := ih _ r hpl' heof' hfull htq
          (appendProse_head buf x hhead (proseText_head pfx l x hpt)) hr'
        exact ⟨Y, R, a1, a2, a3, a4, a5, a6, fun _ => a7 (Or.inl (appendProse_ne_nil buf x p2))⟩
      | none =>
        obtain ⟨L, ⟨s2, s3, ⟨zL, s4⟩, s5⟩, hproc⟩ :=
          proseText_none pfx l hp10 (hpl l (List.mem_cons_self _ _)) hpt _ buf q hq
        have hfl : flushed pfx export_ (l :: ls) buf = buf :: flushed pfx export_ ls [] := by
          simp only [flushed, hin, hpt, Bool.not_true, Bool.false_eq_true, if_false]
        rw [hfl] at hfull
        have hb : fullBuf (W : Int) buf = true := hfull buf (List.mem_cons_self _ _)
        rw [hproc] at hq
        obtain ⟨r0, hr0, hq⟩ := bind_eq_ok hq
        obtain ⟨segs, d1, d2, d3, d4, d5⟩ :=
          flush_written pfx W hW hp10 buf hb htidy hhead r0 hr0
        subst d1
        cases hq
        simp only [Except.ok.injEq] at h
        obtain ⟨Y, R, a1, a2, a3, a4, a5, a6, _⟩ := ih [] r' hpl' heof'
          (fun p hp' => hfull p (List.mem_cons_of_mem _ hp')) tidyBuf_nil
          (fun b hb' => by simp at hb') hr'
        have hnil : dump pfx [] (W : Int) [] = .ok ([], []) := by
          have := dump_short pfx [] W hW (by simp; omega)
          simpa using this
        have hL : SelfWritten pfx (W : Int) (L :: Y) (joinSegs segs) := by
          refine ⟨by rw [s4]; simp, s2,
            (segs.map fun s => (Sink.out, textLine pfx s)) ++ [(Sink.out, L)], [],
            segs.map (fun s => (Sink.out, textLine pfx s)), [], ?_, d3, hnil, ?_, a2⟩
          · rw [s5 (joinSegs segs) (W : Int), d3]
            rfl
          · simp [allBytes]
        refine ⟨segs.map (textLine pfx) ++ L :: Y, R, ?_, d4 _ hL, ?_, a4, a5, a6,
          fun _ => by simp⟩
        · rw [← h]
          simp only [allBytes_append, allBytes_map_textLine, a1]
          simp [allBytes]
        · intro L' hL' rest
          rcases List.mem_append.mp hL' with hm | hm
          · exact d5 L' hm rest
          · rcases List.mem_cons.mp hm with hm | hm
            · rw [hm]; exact s3 rest
            · exact a3 L' hm rest
    · -- the first line that is not in the comment block
      have hin' : hasPrefix pfx export_ l = false := by simpa using hin
      have hb : fullBuf (W : Int) buf = true :=
        hfull buf (by simp [flushed, hin'])
      rw [formatLoop_not_in_block pfx export_ _ l ls buf hin'] at h
      obtain ⟨r0, hr0, h⟩ := bind_eq_ok h
      obtain ⟨segs, d1, d2, _, d4, d5⟩ := flush_written pfx W hW hp10 buf hb htidy hhead r0 hr0
      subst d1
      simp only [Except.ok.injEq] at h
      refine ⟨segs.map (textLine pfx), l :: ls, ?_, ?_, d5, Or.inr ⟨l, ls, rfl, hin'⟩, hpl, heof,
        fun hor => ?_⟩
      · rw [← h]
        simp [allBytes_append, allBytes_lineWrite, copyRest, allBytes_write,
          allBytes_map_textLine]
      · simpa using d4 [] trivial
      · rcases hor with h1 | ⟨l0, ls0, e, hl0⟩
        · simpa using d2 h1
        · cases e
          rw [hl0] at hin'; cases hin'

theorem splitLines_selfWritten (Y : List (List Nat))
    (h : ∀ L ∈ Y, ∀ rest, splitLines (L ++ rest) = L :: splitLines rest) (rest : List Nat) :
    splitLines (Y.flatten ++ rest) = Y ++ splitLines rest := by
  induction Y with
  | nil => rfl
  | cons L Y ih =>
    rw [List.flatten_cons, List.append_assoc, h L (List.mem_cons_self _ _),
      ih (fun L' hL' => h L' (List.mem_cons_of_mem _ hL'))]
    rfl

theorem countLead_stop (c : Nat) (l : List Nat) : (l.drop (countLead c l)).head? ≠ some c := by
  induction l with
  | nil => simp [countLead]
  | cons b bs ih =>
    by_cases h : b = c
    · simp only [countLead, if_pos h, List.drop_succ_cons]
      exact ih
    · simp [countLead, h]

theorem leadIndex_stop (line : List Nat) (h : 0 < leadIndex line) :
    (line.drop (leadIndex line)).head? ≠ line.head? := by
  cases line with
  | nil => simp [leadIndex] at h
  | cons b bs =>
    simp only [leadIndex] at h ⊢
    by_cases h32 : b = 32
    · rw [if_pos h32]
      rw [List.head?_cons, h32]
      exact countLead_stop 32 _
    · rw [if_neg h32] at h ⊢
      by_cases h9 : b = 9
      · rw [if_pos h9]
        rw [List.head?_cons, h9]
        exact countLead_stop 9 _
      · rw [if_neg h9] at h
        omega

theorem leadIndex_le_nonblank (a : List Nat) (x : Nat) (r : List Nat) (h32 : x ≠ 32)
    (h9 : x ≠ 9) : leadIndex (a ++ x :: r) ≤ a.length := by
  cases a with
  | nil => simp [leadIndex, h32, h9]
  | cons b a =>
    have e1 := countLead_append 32 x (b :: a) r h32
    have e2 := countLead_append 9 x (b :: a) r h9
    have l1 := countLead_le 32 (b :: a)
    have l2 := countLead_le 9 (b :: a)
    simp only [List.cons_append] at e1 e2
    simp only [List.cons_append, leadIndex, e1, e2]
    split
    · exact l1
    · split
      · exact l2
      · omega

theorem head?_of_isPrefixOf (l m : List Nat) (hl : l ≠ []) (h : l.isPrefixOf m = true) :
    m.head? = l.head? := by
  obtain ⟨t, rfl⟩ := List.isPrefixOf_iff_prefix.mp h
  cases l with
  | nil => exact absurd rfl hl
  | cons a l => rfl

/-- The prefix and the width that a second run derives, for a delimiter that is
given and holds a byte that is neither space nor tab, from a first line that
starts with the working prefix of the first run: the same ones. -/
theorem rework_given (first delim export_ z : List Nat) (T : Int) (hne : delim ≠ [])
    (hb : ∃ b ∈ delim, b ≠ 32 ∧ b ≠ 9)
    (hin : hasPrefix (workPrefix first delim) export_ first = true) :
    workPrefix (workPrefix first delim ++ z) delim = workPrefix first delim ∧
      workTarget (workPrefix first delim ++ z) T delim = workTarget first T delim := by
  have hdet : ∀ s, detectDelim s delim = delim := fun s => by simp [detectDelim, hne]
  have hpre : workPrefix first delim <+: first := by
    apply List.isPrefixOf_iff_prefix.mp
    unfold hasPrefix at hin
    by_contra hq
    simp [hq] at hin
  obtain ⟨u, hu⟩ := hpre
  obtain ⟨b, hbm, hb32, hb9⟩ := hb
  have hbp : b ∈ workPrefix first delim := by
    unfold workPrefix
    simp only [hdet]
    split
    · exact List.mem_append_right _ hbm
    · exact hbm
  have hwT : workTarget first T delim =
      if delim.isPrefixOf (first.drop (leadIndex first)) = true
        then wrapInt (leadTarget first T - (delim.length : Nat)) else leadTarget first T := by
    simp only [workTarget, hdet]
  have hwP : workPrefix first delim =
      if delim.isPrefixOf (first.drop (leadIndex first)) = true
        then first.take (leadIndex first) ++ delim else delim := by
    simp only [workPrefix, hdet]
  rw [hwT]
  generalize workPrefix first delim = pfx at hu hbp hwP ⊢
  obtain ⟨a, c', hac⟩ := List.append_of_mem hbp
  have e1 : pfx ++ z = a ++ b :: (c' ++ z) := by rw [hac]; simp
  have e2 : first = a ++ b :: (c' ++ u) := by rw [← hu, hac]; simp
  have hli := lead_indep a b (c' ++ z) (c' ++ u) T hb32 hb9
  have hile : leadIndex first ≤ a.length := by
    rw [e2]; exact leadIndex_le_nonblank a b _ hb32 hb9
  rw [← e1, ← e2] at hli
  have hplen : pfx.length = a.length + 1 + c'.length := by
    rw [hac]; simp; omega
  by_cases hP : delim.isPrefixOf (first.drop (leadIndex first)) = true
  · rw [if_pos hP] at hwP ⊢
    have hlen : (first.take (leadIndex first)).length = leadIndex first := by
      rw [List.length_take]; exact Nat.min_eq_left (leadIndex_le first)
    have hdrop : (pfx ++ z).drop (leadIndex first) = delim ++ z := by
      rw [hwP, List.append_assoc]
      exact List.drop_left' hlen
    have htake : (pfx ++ z).take (leadIndex first) = first.take (leadIndex first) := by
      rw [hwP, List.append_assoc]
      exact List.take_left' hlen
    have hpz : delim.isPrefixOf (delim ++ z) = true := List.isPrefixOf_iff_prefix.mpr ⟨z, rfl⟩
    constructor
    · simp only [workPrefix, hli.1, hdet, hdrop, hpz, if_true, htake]
      exact hwP.symm
    · simp only [workTarget, hli.1, hdet, hdrop, hpz, if_true, hli.2]
  · rw [if_neg hP] at hwP ⊢
    have hf : first = delim ++ u := by rw [← hu, hwP]
    have hi0 : 0 < leadIndex first := by
      by_contra hn
      have h0 : leadIndex first = 0 := by omega
      rw [h0, List.drop_zero] at hP
      apply hP
      rw [hf]
      exact List.isPrefixOf_iff_prefix.mpr ⟨u, rfl⟩
    have hstop := leadIndex_stop first hi0
    have hdl : leadIndex first < delim.length := by rw [← hwP]; omega
    have hh : ∀ w : List Nat, ((delim ++ w).drop (leadIndex first)).head? =
        delim[leadIndex first]? := fun w => by
      rw [List.head?_drop, List.getElem?_append_left hdl]
    have hfh : first.head? = delim.head? := by
      rw [hf]
      cases delim with
      | nil => exact absurd rfl hne
      | cons d ds => rfl
    have hfd : (first.drop (leadIndex first)).head? = delim[leadIndex first]? := by
      have := hh u
      rwa [← hf] at this
    have hP' : ¬ delim.isPrefixOf ((pfx ++ z).drop (leadIndex first)) = true := by
      intro hq
      rw [hwP] at hq
      have := head?_of_isPrefixOf _ _ hne hq
      rw [hh z] at this
      apply hstop
      rw [hfh, ← this, hfd]
    constructor
    · simp only [workPrefix, hli.1, hdet, hP', if_false, Bool.false_eq_true]
      exact hwP.symm
    · simp only [workTarget, hli.1, hdet, hP', if_false, Bool.false_eq_true, hli.2]

/-- The prefix and the width that a second run derives from a first line that
starts with the working prefix of the first run: the same ones, or, for the
detected delimiter `--` followed by no space, a prefix that the line does not
have. -/
theorem rework_any (first delim export_ z : List Nat) (T : Int)
    (hdelim : delim = [] ∨ ∃ b ∈ delim, b ≠ 32 ∧ b ≠ 9)
    (hin : hasPrefix (workPrefix first delim) export_ first = true) :
    (workPrefix (workPrefix first delim ++ z) delim = workPrefix first delim ∧
      workTarget (workPrefix first delim ++ z) T delim = workTarget first T delim) ∨
    hasPrefix (workPrefix (workPrefix first delim ++ z) delim) export_
        (workPrefix first delim ++ z) = false := by
  by_cases hne : delim = []
  · subst hne
    exact rework first [] export_ z T (by simp) hin
  · rcases hdelim with h | h
    · exact absurd h hne
    · exact Or.inl (rework_given first delim export_ z T hne h hin)

/-- C3 as stated fails: with target 10 and the delimiter detected as `//` the
effective width is 8; the line `// aaa  bbb` (two spaces between the words) is
wrapped into `// aaa` and `// bbb`, and formatting that output again joins the two
lines with one space into `// aaa bbb`, which fits the width. -/
theorem Format_not_idempotent :
    workTarget ((splitLines (ascii "// aaa  bbb\n")).headD []) 10 [] = 8 ∧
    Format (ascii "exp") (ascii "// aaa  bbb\n") 10 [] = Except.ok (ascii "// aaa\n// bbb\n") ∧
    Format (ascii "exp") (ascii "// aaa\n// bbb\n") 10 [] = Except.ok (ascii "// aaa bbb\n") ∧
    ascii "// aaa bbb\n" ≠ ascii "// aaa\n// bbb\n" := by
  refine ⟨by decide, by decide, by decide, by decide⟩

/-- With the delimiter ` ` (one space), which holds no byte other than a space,
a second run measures one space more of indentation than the first one: the line
` a b` at target 5 is written as `  a b` at the width 4, and that output is wrapped
at the width 3 into two lines.  The first run breaks no line and the width of the
second run is positive. -/
theorem Format_blank_delimiter :
    Format (ascii "exp") (ascii " a b\n") 5 (ascii " ") = Except.ok (ascii "  a b\n") ∧
    Format (ascii "exp") (ascii "  a b\n") 5 (ascii " ") = Except.ok (ascii "  a\n  b\n") ∧
    workTarget (ascii " a b\n") 5 (ascii " ") = 4 ∧
    workTarget (ascii "  a b\n") 5 (ascii " ") = 3 ∧
    (∀ p ∈ flushed (workPrefix (ascii " a b\n") (ascii " ")) (ascii "exp")
        (splitLines (ascii " a b\n")) [],
      fullBuf (workTarget (ascii " a b\n") 5 (ascii " ")) p = true) := by
  refine ⟨by decide, by decide, by decide, by decide, by decide⟩

/-- With the least target the subtraction of the delimiter wraps around: on the
input `-- ` the first run has the width `9223372036854775806` and writes `--`; the
second run finds no delimiter, works with the target itself as the width, and
panics. -/
theorem Format_width_overflow :
    Format (ascii "exp") (ascii "-- \n") (-9223372036854775808) [] = Except.ok (ascii "--\n") ∧
    Format (ascii "exp") (ascii "--\n") (-9223372036854775808) [] = Except.error Fault.index ∧
    workTarget (ascii "-- \n") (-9223372036854775808) [] = 9223372036854775806 ∧
    workTarget (ascii "--\n") (-9223372036854775808) [] = -9223372036854775808 := by
  refine ⟨by decide, by decide, by decide, by decide⟩

/-- The lines of the counterexample are not full, and wide gaps alone do no harm.
At target 10 the first run breaks `aaa` off the buffer `aaa  bbb` although `aaa`, one
space and `bbb` fit the width 8.  At target 80 the same input is written on one
line, as it is.  At target 7 a gap of three spaces falls on the line break of
`// aaa   bbbbbbbbbb`, the line `// aaa` is full, and the output is written back as
it is. -/
theorem Format_wide_gap_kept :
    ¬ (∀ p ∈ flushed (workPrefix (ascii "// aaa  bbb\n") []) (ascii "exp")
        (splitLines (ascii "// aaa  bbb\n")) [],
      fullBuf (workTarget (ascii "// aaa  bbb\n") 10 []) p = true) ∧
    Format (ascii "exp") (ascii "// aaa  bbb\n") 80 [] = Except.ok (ascii "// aaa  bbb\n") ∧
    (∀ p ∈ flushed (workPrefix (ascii "// aaa  bbb\n") []) (ascii "exp")
        (splitLines (ascii "// aaa  bbb\n")) [],
      fullBuf (workTarget (ascii "// aaa  bbb\n") 80 []) p = true) ∧
    Format (ascii "exp") (ascii "// aaa   bbbbbbbbbb\n") 7 [] =
      Except.ok (ascii "// aaa\n// bbbbbbbbbb\n") ∧
    Format (ascii "exp") (ascii "// aaa\n// bbbbbbbbbb\n") 7 [] =
      Except.ok (ascii "// aaa\n// bbbbbbbbbb\n") ∧
    (∀ p ∈ flushed (workPrefix (ascii "// aaa   bbbbbbbbbb\n") []) (ascii "exp")
        (splitLines (ascii "// aaa   bbbbbbbbbb\n")) [],
      fullBuf (workTarget (ascii "// aaa   bbbbbbbbbb\n") 7 []) p = true) := by
  refine ⟨by decide, by decide, by decide, by decide, by decide, by decide⟩

/-- C3, amended: formatting is idempotent on the comment blocks that the first run
wraps into full lines.  When `Format` returns `y` for the input `x`, the delimiter
is detected or holds a byte that is neither space nor tab, every line that the
first run breaks off a paragraph is full (the text of the line, the separator that
`Format2` puts between two lines it joins, which is one space or two after a
period, and the first word of the next line do not fit the width together), and
the effective width of the run on `y` is at least 1, then `Format` returns `y` for
the input `y`, whatever the export marker is. -/
theorem Format_idempotent (export_ x : List Nat) (T : Int) (delim y : List Nat)
    (hdelim : delim = [] ∨ ∃ b ∈ delim, b ≠ 32 ∧ b ≠ 9)
    (hfull : ∀ p ∈ flushed (workPrefix ((splitLines x).headD []) delim) export_
        (splitLines x) [],
      fullBuf (workTarget ((splitLines x).headD []) T delim) p = true)
    (hwidth : 1 ≤ workTarget ((splitLines y).headD []) T delim)
    (h : Format export_ x T delim = .ok y) :
    Format export_ y T delim = .ok y := by
  have hp := workPrefix_ne_nil ((splitLines x).headD []) delim
  by_cases hT0 : workTarget ((splitLines x).headD []) T delim ≤ 0
  · have := Format2_nonpos export_ [] x T delim hT0
    simp [Format, this, Functor.map, Except.map] at h
  · obtain ⟨W, hW⟩ : ∃ W : Nat, workTarget ((splitLines x).headD []) T delim = (W : Int) :=
      ⟨(workTarget ((splitLines x).headD []) T delim).toNat, (Int.toNat_of_nonneg (by omega)).symm⟩
    have hW1 : 1 ≤ W := by omega
    by_cases hin : hasPrefix (workPrefix ((splitLines x).headD []) delim) export_
        ((splitLines x).headD []) = true
    · have hF : ∃ r, formatLoop (workPrefix ((splitLines x).headD []) delim) export_ (W : Int)
          (splitLines x) [] = .ok r ∧ allBytes r.1 = y := by
        simp only [Format, Format2, hW] at h
        cases hq : formatLoop (workPrefix ((splitLines x).headD []) delim) export_ (W : Int)
            (splitLines x) [] with
        | error e => rw [hq] at h; simp [Functor.map, Except.map] at h
        | ok r =>
          rw [hq] at h
          simp only [Functor.map, Except.map, Except.ok.injEq] at h
          exact ⟨r, rfl, h⟩
      obtain ⟨r, hr, hy⟩ := hF
      rw [hW] at hfull
      obtain ⟨l, ls, hs, hl⟩ : ∃ l ls, splitLines x = l :: ls ∧
          hasPrefix (workPrefix ((splitLines x).headD []) delim) export_ l = true := by
        cases hs : splitLines x with
        | nil =>
          rw [hs] at hin
          simp only [List.headD_nil] at hin
          rw [hasPrefix_nil _ _ (workPrefix_ne_nil _ _)] at hin
          exact absurd hin (by decide)
        | cons l ls =>
          rw [hs] at hin
          exact ⟨l, ls, rfl, by simpa using hin⟩
      have hprop := splitLines_proper x
      -- the prefix holds no newline: the body of the loop returns on the first line
      have hp10 : 10 ∉ workPrefix ((splitLines x).headD []) delim := by
        have key : ∀ pfx : List Nat, pfx ≠ [] → hasPrefix pfx export_ l = true →
            formatLoop pfx export_ (W : Int) (splitLines x) [] = .ok r → 10 ∉ pfx := by
          intro pfx hpn hpl hr'
          rw [hs, formatLoop_block_line _ export_ _ hpn l ls [] hpl] at hr'
          obtain ⟨q, hq, _⟩ := bind_eq_ok hr'
          exact (processLine_trimmed _ export_ (W : Int) l [] q
            (hprop l (by rw [hs]; exact List.mem_cons_self _ _)) hpl tidyBuf_nil hq).1
        exact key _ hp hl hr
      obtain ⟨Y, R, a1, a2, a3, a4, a5, a6, a7⟩ :=
        written _ export_ W hW1 hp hp10 (splitLines x) [] r hprop (splitLines_dropLast x)
          hfull tidyBuf_nil (fun b hb => by simp at hb) hr
      have hYne : Y ≠ [] := a7 (Or.inr ⟨l, ls, hs, hl⟩)
      rw [hy] at a1
      have hsy : splitLines y = Y ++ R := by
        rw [a1, splitLines_selfWritten Y a3, splitLines_lines R a5 a6]
      obtain ⟨L, Y', rfl⟩ := List.exists_cons_of_ne_nil hYne
      obtain ⟨z, hz⟩ := List.isPrefixOf_iff_prefix.mp a2.1
      have hhead : (splitLines y).headD [] = workPrefix ((splitLines x).headD []) delim ++ z := by
        rw [hsy, hz]; rfl
      have hnil : dump (workPrefix ((splitLines x).headD []) delim) [] (W : Int) [] =
          .ok ([], []) := by
        have := dump_short (workPrefix ((splitLines x).headD []) delim) [] W hW1 (by simp; omega)
        simpa using this
      rcases rework_any ((splitLines x).headD []) delim export_ z T hdelim hin with ⟨e1, e2⟩ | e1
      · rw [← hhead] at e1 e2
        obtain ⟨r2, hr2, hb2⟩ := reread _ export_ (W : Int) hp (L :: Y') [] R [] a2 hnil a4
        have hrun : Format2 export_ [] y T delim = .ok r2 := by
          simp only [Format2]
          rw [e1, e2, hW, hsy]
          exact hr2
        simp only [Format, hrun, Functor.map, Except.map]
        rw [hb2, a1]
        simp [allBytes]
      · rw [← hhead] at e1
        exact Format_no_comment export_ y T delim
          (workTarget ((splitLines y).headD []) T delim).toNat (by omega)
          (Int.toNat_of_nonneg (by omega)).symm e1
    · have hx := Format_no_comment export_ x T delim W hW1 hW (by simpa using hin)
      rw [hx] at h
      injection h with h
      rw [← h]
      exact hx

/-- C3, amended, on a comment block indented by a tab, with a gap of two spaces
that is kept, a sentence end, a blank comment line, an indented line, an export
line and code after it, at target 20 (effective width 10). -/
theorem Format_idempotent_witness :
    (([] : List Nat) = [] ∨ ∃ b ∈ ([] : List Nat), b ≠ 32 ∧ b ≠ 9) ∧
    (∀ p ∈ flushed (workPrefix ((splitLines (ascii
          "\t// one  two three. four\n\t// five\n\t//\n\t//   code\n\t//export x\nrest\n")).headD
            []) []) (ascii "export ")
        (splitLines (ascii
          "\t// one  two three. four\n\t// five\n\t//\n\t//   code\n\t//export x\nrest\n")) [],
      fullBuf (workTarget ((splitLines (ascii
          "\t// one  two three. four\n\t// five\n\t//\n\t//   code\n\t//export x\nrest\n")).headD
            []) 20 []) p = true) ∧
    1 ≤ workTarget ((splitLines (ascii
      "\t// one  two\n\t// three.\n\t// four five\n\t//\n\t//   code\n\t//export x\nrest\n")).headD
        []) 20 [] ∧
    Format (ascii "export ")
      (ascii "\t// one  two three. four\n\t// five\n\t//\n\t//   code\n\t//export x\nrest\n")
      20 [] = Except.ok (ascii
        "\t// one  two\n\t// three.\n\t// four five\n\t//\n\t//   code\n\t//export x\nrest\n") ∧
    Format (ascii "export ")
      (ascii "\t// one  two\n\t// three.\n\t// four five\n\t//\n\t//   code\n\t//export x\nrest\n")
      20 [] = Except.ok (ascii
        "\t// one  two\n\t// three.\n\t// four five\n\t//\n\t//   code\n\t//export x\nrest\n") :=
  ⟨Or.inl rfl, by decide, by decide, by decide,
    Format_idempotent (ascii "export ")
      (ascii "\t// one  two three. four\n\t// five\n\t//\n\t//   code\n\t//export x\nrest\n")
      20 []
      (ascii "\t// one  two\n\t// three.\n\t// four five\n\t//\n\t//   code\n\t//export x\nrest\n")
      (Or.inl rfl) (by decide) (by decide) (by decide)⟩

end Cfmt
